import Mathlib

/-!
Shallow embedding of the name-auction state engine (`src/lib/covenants/db.js`)
of the `hsd` repository, together with proofs about the claims of its
specification.

Conventions of the embedding:

* Byte strings (buffers, hashes, serialized blobs) are `List Nat`.
* JS numbers on the paths modelled here are integers; they are embedded as
  `Int` (heights, values) or `Nat` (indices).  A JS variable that may hold
  `null` or a number is `Option Int` (`none` = `null`).
* The ordered key-value store is embedded as one association list per key
  family (`a`, `n`, `b`, `r`, `u`, `k`) plus the trie bucket.  Since every
  serialization used by the source round-trips (u32/u64 little-endian,
  auction blobs), byte-identity of the stored values is equivalent to
  equality of the decoded values stored here; auction blobs are stored in
  decoded form (`AuctionRec`).
* The authenticated trie is embedded as the map `nameHash ↦ digest(data)`;
  its root hash is identified with the map itself (the root is an injective
  digest of the trie contents).
* `assert(x)` failures and JS `TypeError`s (member access on `null` /
  `undefined`) terminate the operation with an `Except.error`; consensus
  failures are the boolean in `Except.ok`.
-/

namespace NameDB

abbrev Bytes := List Nat

/-- Modelled from the spec: the external BLAKE2b-256 digest (§3, "name hash" is
the 32-byte BLAKE2b-256 digest of the name bytes).  The digest is external to
the repository (`bcrypto`); it is modelled as an injective computable stand-in
on byte strings. -/
def blake2b (b : Bytes) : Bytes := b.length :: b

/-- An outpoint: (tx-hash, output index).  The source represents tx hashes as
hex strings / 32-byte buffers; both are embedded as `Bytes`. -/
structure Outpoint where
  hash : Bytes
  index : Nat
deriving DecidableEq

/-- The covenant variants of `rules.types` used by `db.js` (spec §9 lists
exactly these seven). -/
inductive CovType
  | NONE | BID | REVEAL | REDEEM | UPDATE | TRANSFER | RELEASE
deriving DecidableEq

/-- Numeric code of a covenant type (JS compares covenant types numerically). -/
def CovType.code : CovType → Nat
  | .NONE => 0
  | .BID => 1
  | .REVEAL => 2
  | .REDEEM => 3
  | .UPDATE => 4
  | .TRANSFER => 5
  | .RELEASE => 6

/-- Modelled from the spec: `rules.MAX_COVENANT_TYPE` is not under `src/`;
spec §9 lists the seven covenant variants, of which RELEASE is maximal. -/
def MAX_COVENANT_TYPE : Nat := 6

structure Covenant where
  type : CovType
  items : List Bytes
deriving DecidableEq

/-- Item access `covenant.items[j]`: JS indexing out of range yields `undefined`; the
paths proved about always have the item present, so the default is inert. -/
def covItem (c : Covenant) (j : Nat) : Bytes := c.items.getD j []

/-- A transaction output (also used for the prior outputs supplied by the
coin view): a value and a covenant. -/
structure Output where
  value : Int
  covenant : Covenant
deriving DecidableEq

/-- A transaction, as far as `db.js` reads it: its hash, whether it is a
coinbase, its input prevouts and its outputs. -/
structure TX where
  hash : Bytes
  isCoinbase : Bool
  inputs : List Outpoint
  outputs : List Output
deriving DecidableEq

/-- Modelled from the spec: a chain entry as consumed by renewal validation
(§6 chain view: `getEntry`, `isMainChain`): its height and whether it lies on
the main chain. -/
structure Entry where
  height : Int
  main : Bool
deriving DecidableEq

/-- External context: the coin view (`view.getOutput`) and the chain database
(`chaindb.getEntry` / `isMainChain`), both out of scope of the source file
(spec §6). -/
structure Ctx where
  coins : Outpoint → Option Output
  entries : Bytes → Option Entry

/-- Modelled from the spec: the chain-wide consensus parameters (§6) and the
network object: `network.type === 'main'`, the auction phase durations
determining `state(height, params)` (§4.2), `ROLLOUT_INTERVAL`,
`RENEWAL_WINDOW`, `RENEWAL_PERIOD`, `COINBASE_MATURITY`. -/
structure Network where
  isMain : Bool
  biddingPeriod : Int
  revealPeriod : Int
  rolloutInterval : Int
  renewalWindow : Int
  renewalPeriod : Int
  coinbaseMaturity : Int
deriving DecidableEq

/-- An internal fault: a failed `assert(...)` or a JS `TypeError` (property
access on `null`/`undefined`).  Both abort the operation exceptionally, as
opposed to a consensus `return false`. -/
inductive Fault
  | assertFail
  | typeError
deriving DecidableEq

/-- The auction phases (spec §4.2). -/
inductive AuctionState
  | BIDDING | REVEAL | CLOSED
deriving DecidableEq

/-- Numeric code of a phase (`Auction.states`); JS compares them numerically. -/
def AuctionState.code : AuctionState → Nat
  | .BIDDING => 0
  | .REVEAL => 1
  | .CLOSED => 2

/-- The persistent fields of an auction: what `Auction.toRaw` serializes and
what the `a` and `u` families store (decoded; serialization round-trips). -/
structure AuctionRec where
  name : Bytes
  owner : Option Outpoint
  height : Int
  renewal : Option Int
  bids : Int
  data : Option Bytes
deriving DecidableEq

/-- The pending-operation variants consumed by `NameDB.saveAuction`
(`Auction.types` in the source; the full list is read off the `switch` in
`saveAuction`, `db.js` lines 161-235). -/
inductive Op
  | ADD_AUCTION
  | REMOVE_AUCTION
  | ADD_BID (p : Outpoint)
  | REMOVE_BID (p : Outpoint)
  | ADD_REVEAL (p : Outpoint) (value : Int)
  | REMOVE_REVEAL (p : Outpoint)
  | ADD_OWNER (p : Outpoint)
  | REMOVE_OWNER (p : Outpoint)
  | COMMIT (data : Bytes)
  | UNCOMMIT
  | ADD_UNDO (p : Outpoint) (rec : AuctionRec)
  | REMOVE_UNDO (p : Outpoint)
  | ADD_RENEWAL (p : Outpoint) (value : Int)
  | REMOVE_RENEWAL (p : Outpoint)
deriving DecidableEq

/-- An in-memory auction object: persistent fields plus primary key and the
transient op log (spec §3). -/
structure Auction where
  nameHash : Bytes
  name : Bytes
  owner : Option Outpoint
  height : Int
  renewal : Option Int
  bids : Int
  data : Option Bytes
  ops : List Op
deriving DecidableEq

/-- JS arithmetic coercion for a number-or-null variable (`null` coerces
to `0` in `+` with a number). -/
def jsNum (v : Option Int) : Int := v.getD 0

namespace Auction

def record (a : Auction) : AuctionRec :=
  ⟨a.name, a.owner, a.height, a.renewal, a.bids, a.data⟩

/-- An auction as deserialized from a stored record (`Auction.fromRaw`
followed by assigning `nameHash`); the op log starts empty. -/
def ofRec (nh : Bytes) (rec : AuctionRec) : Auction :=
  ⟨nh, rec.name, rec.owner, rec.height, rec.renewal, rec.bids, rec.data, []⟩

/-- Modelled from the spec: a freshly created auction (§3 lifecycle: created
on the first BID; `height` and `renewal` start at the creation height, no
owner, no bids). -/
def create (name : Bytes) (nh : Bytes) (height : Int) : Auction :=
  ⟨nh, name, none, height, some height, 0, none, []⟩

def push (a : Auction) (o : Op) : Auction := { a with ops := a.ops ++ [o] }

/-- Modelled from the spec: the phase predicate `state(height, params)`, a
pure function of `height`, the epoch start `a.height` and the chain
parameters (§4.2): first the bidding period, then the reveal period, then
closed. -/
def state (a : Auction) (height : Int) (net : Network) : AuctionState :=
  if height < a.height + net.biddingPeriod then .BIDDING
  else if height < a.height + net.biddingPeriod + net.revealPeriod then .REVEAL
  else .CLOSED

/-- Modelled from the spec (§4.2): `addBid` enqueues the bid op; `bids`
counts currently-recorded bids (§3). -/
def addBid (a : Auction) (p : Outpoint) : Auction :=
  { a.push (.ADD_BID p) with bids := a.bids + 1 }

/-- Modelled from the spec (§4.2). -/
def removeBid (a : Auction) (p : Outpoint) : Auction :=
  { a.push (.REMOVE_BID p) with bids := a.bids - 1 }

/-- Modelled from the spec (§4.2): a reveal records the outpoint and the
revealed value. -/
def addReveal (a : Auction) (p : Outpoint) (value : Int) : Auction :=
  a.push (.ADD_REVEAL p value)

/-- Modelled from the spec (§4.2). -/
def removeReveal (a : Auction) (p : Outpoint) : Auction :=
  a.push (.REMOVE_REVEAL p)

/-- Modelled from the spec: `setOwner` changes the `owner` field; the reverse
index must keep exactly the records of current bids, reveals and owner
(spec invariant 1, §3), so the old owner's reverse entry is unlinked and the
new owner's is linked (the `ADD_OWNER` / `REMOVE_OWNER` ops consumed by
`saveAuction`). -/
def setOwner (a : Auction) (p : Option Outpoint) : Auction :=
  let a1 := match a.owner with
    | some o => a.push (.REMOVE_OWNER o)
    | none => a
  let a2 := match p with
    | some q => a1.push (.ADD_OWNER q)
    | none => a1
  { a2 with owner := p }

/-- Modelled from the spec (§4.5 RELEASE rows: "setNull" resets the owner to
null; `isNull` then holds). -/
def setNull (a : Auction) : Auction := a.setOwner none

/-- Modelled from the spec: an auction is null when it has no owner. -/
def isNull (a : Auction) : Bool := a.owner.isNone

/-- Modelled from the spec (§4.7): `commit(data)` stages the trie insert of
the data digest and remembers the committed data. -/
def commit (a : Auction) (d : Bytes) : Auction :=
  { a.push (.COMMIT d) with data := some d }

/-- Modelled from the spec (§4.6: on undo restore, "commit() its old
record"): argumentless `commit()` re-stages the currently remembered data. -/
def recommit (a : Auction) : Auction :=
  match a.data with
  | some d => a.push (.COMMIT d)
  | none => a

/-- Modelled from the spec (§4.7): `uncommit` stages the trie removal. -/
def uncommit (a : Auction) : Auction := a.push .UNCOMMIT

/-- Modelled from the spec (§3 "Undo record": a serialized snapshot of the
auction, taken when the op is enqueued, keyed by the given outpoint). -/
def addUndo (a : Auction) (p : Outpoint) : Auction :=
  a.push (.ADD_UNDO p a.record)

/-- Modelled from the spec (§4.2). -/
def removeUndo (a : Auction) (p : Outpoint) : Auction :=
  a.push (.REMOVE_UNDO p)

/-- Modelled from the spec (§4.5 renewal validation: "Accepted renewal
records the prior `renewal` height under key `k[prevout]` and updates
`renewal←height`"). -/
def addRenewal (a : Auction) (p : Outpoint) (height : Int) : Auction :=
  { a.push (.ADD_RENEWAL p (jsNum a.renewal)) with renewal := some height }

/-- Modelled from the spec (§4.2). -/
def removeRenewal (a : Auction) (p : Outpoint) : Auction :=
  a.push (.REMOVE_RENEWAL p)

/-- Modelled from the spec (§4.2): `save` schedules the auction record to be
(re)written. -/
def save (a : Auction) : Auction := a.push .ADD_AUCTION

/-- Modelled from the spec (§4.2): `remove` schedules the auction record
deletion. -/
def remove (a : Auction) : Auction := a.push .REMOVE_AUCTION

end Auction

/-! ### The key-value store -/

/-- One family of the ordered KV store: an association list. -/
abbrev KvMap (K V : Type) := List (K × V)

def kget {K V : Type} [DecidableEq K] (m : KvMap K V) (key : K) : Option V :=
  match m with
  | [] => none
  | (k, v) :: rest => if k = key then some v else kget rest key

def kput {K V : Type} [DecidableEq K] (m : KvMap K V) (key : K) (v : V) : KvMap K V :=
  match m with
  | [] => [(key, v)]
  | (k, w) :: rest => if k = key then (k, v) :: rest else (k, w) :: kput rest key v

def kdel {K V : Type} [DecidableEq K] (m : KvMap K V) (key : K) : KvMap K V :=
  match m with
  | [] => []
  | (k, w) :: rest => if k = key then kdel rest key else (k, w) :: kdel rest key

/-- Encoding `fromU32`: unsigned 32-bit little-endian encoding (with the JS truncating
write used by the source). -/
def fromU32 (v : Int) : Bytes :=
  let n := (v % 4294967296).toNat
  [n % 256, n / 256 % 256, n / 65536 % 256, n / 16777216 % 256]

/-- Decoding `toU32` of a stored value (the length-4 assertion is checked at the call
site in `getUndoRenewal`). -/
def toU32val (b : Bytes) : Int :=
  (b.getD 0 0 + b.getD 1 0 * 256 + b.getD 2 0 * 65536 + b.getD 3 0 * 16777216 : Nat)

/-- The persistent state: the six key families of the name bucket plus the
trie (layout comment, `db.js` lines 21-31). -/
structure Store where
  a : KvMap Bytes AuctionRec
  n : KvMap Outpoint Bytes
  b : KvMap (Bytes × Outpoint) Unit
  r : KvMap (Bytes × Outpoint) Int
  u : KvMap Outpoint AuctionRec
  k : KvMap Outpoint Bytes
  trie : KvMap Bytes Bytes
deriving DecidableEq

def Store.empty : Store := ⟨[], [], [], [], [], [], []⟩

/-- Root accessor `getTrieRoot` (`db.js` lines 142-144): the current trie root; the root
hash is identified with the trie contents (the root digest is injective). -/
def getTrieRoot (s : Store) : KvMap Bytes Bytes := s.trie

/-- The effect on the store of one pending op of the auction with name hash
`nh` and (final) record `rec`: the `switch` body of `NameDB.saveAuction`
(`db.js` lines 161-235).  `ADD_AUCTION` writes `auction.toRaw()`, which is the
auction's state at flush time, hence the final record. -/
def applyOp (nh : Bytes) (rec : AuctionRec) (s : Store) (o : Op) : Store :=
  match o with
  | .ADD_AUCTION => { s with a := kput s.a nh rec }
  | .REMOVE_AUCTION => { s with a := kdel s.a nh }
  | .ADD_BID p => { s with b := kput s.b (nh, p) (), n := kput s.n p nh }
  | .REMOVE_BID p => { s with b := kdel s.b (nh, p), n := kdel s.n p }
  | .ADD_REVEAL p value => { s with r := kput s.r (nh, p) value, n := kput s.n p nh }
  | .REMOVE_REVEAL p => { s with r := kdel s.r (nh, p), n := kdel s.n p }
  | .ADD_OWNER p => { s with n := kput s.n p nh }
  | .REMOVE_OWNER p => { s with n := kdel s.n p }
  | .COMMIT d => { s with trie := kput s.trie nh (blake2b d) }
  | .UNCOMMIT => { s with trie := kdel s.trie nh }
  | .ADD_UNDO p rec' => { s with u := kput s.u p rec' }
  | .REMOVE_UNDO p => { s with u := kdel s.u p }
  | .ADD_RENEWAL p value => { s with k := kput s.k p (fromU32 value) }
  | .REMOVE_RENEWAL p => { s with k := kdel s.k p }

/-- Flush `NameDB.saveAuction` (`db.js` lines 158-239): replay the auction's op log
against the store (the op log is cleared afterwards; the flushed view is not
reused here, so the clearing is implicit). -/
def saveAuction (s : Store) (a : Auction) : Store :=
  a.ops.foldl (applyOp a.nameHash a.record) s

/-- The per-block view: the in-memory cache of auctions touched by the block
(spec §4.3), in insertion order (a JS `Map` iterates in insertion order). -/
abbrev View := KvMap Bytes Auction

/-- Flush `NameDB.saveView` (`db.js` lines 151-156): flush every cached auction. -/
def saveView (s : Store) (v : View) : Store :=
  v.foldl (fun s' kv => saveAuction s' kv.2) s

/-- Lookup `NameDB.getUndo` (`db.js` lines 116-128), restricted to the record fields
the callers use. -/
def getUndo (s : Store) (p : Outpoint) : Option AuctionRec :=
  kget s.u p

/-- Lookup `NameDB.getUndoRenewal` (`db.js` lines 130-140): `null` when the `k`
record is absent, otherwise `toU32(raw)` (whose length-4 assertion can
fault). -/
def getUndoRenewal (s : Store) (p : Outpoint) : Except Fault (Option Int) :=
  match kget s.k p with
  | none => .ok none
  | some raw => if raw.length = 4 then .ok (some (toU32val raw)) else .error .assertFail

/-- JS strict inequality `undo !== -1` where `undo` is a number or `null`:
values of different types are always strictly unequal, so `null !== -1` is
`true`. -/
def neStrictNeg1 (undo : Option Int) : Bool :=
  match undo with
  | none => true
  | some x => x != -1

/-! ### The view wrappers (spec §4.3) -/

/-- Modelled from the spec (§4.3): `view.getAuction(db, nameHash)` returns the
cached auction or lazily loads it from the `a` family. -/
def View.getAuction (v : View) (s : Store) (nh : Bytes) : Option Auction × View :=
  match kget v nh with
  | some a => (some a, v)
  | none =>
    match kget s.a nh with
    | some rec => let a := Auction.ofRec nh rec; (some a, kput v nh a)
    | none => (none, v)

/-- Modelled from the spec (§4.3): `view.getAuctionFor(db, prevout)` follows
the reverse index (`n` family) and then loads the auction. -/
def View.getAuctionFor (v : View) (s : Store) (p : Outpoint) : Option Auction × View :=
  match kget s.n p with
  | none => (none, v)
  | some nh => View.getAuction v s nh

/-- Modelled from the spec (§4.3, §3 lifecycle): `view.ensureAuction` returns
the cached or stored auction, creating a fresh one if absent. -/
def View.ensureAuction (v : View) (s : Store) (name : Bytes) (nh : Bytes) (height : Int) :
    Auction × View :=
  match kget v nh with
  | some a => (a, v)
  | none =>
    match kget s.a nh with
    | some rec => let a := Auction.ofRec nh rec; (a, kput v nh a)
    | none => let a := Auction.create name nh height; (a, kput v nh a)

/-! ### Winner selection (`NameDB.pickWinner`, `db.js` lines 93-114) -/

/-- Lexicographic strict order on byte strings (the ordered KV store compares
keys bytewise). -/
def bytesLt : Bytes → Bytes → Bool
  | [], [] => false
  | [], _ :: _ => true
  | _ :: _, [] => false
  | x :: xs, y :: ys => if x < y then true else if x = y then bytesLt xs ys else false

/-- Key order of the `r` family under a fixed name-hash prefix: the stored key
is `hash‖idx` (32 hash bytes, then the big-endian u32 index) compared
bytewise, which is hash order first, then index order. -/
def keyLe (p q : Outpoint) : Bool :=
  if p.hash = q.hash then p.index ≤ q.index else bytesLt p.hash q.hash

/-- The iteration order of the range scan, as a relation on (key, value)
records. -/
def keyRel (x y : Outpoint × Int) : Prop := keyLe x.1 y.1 = true

instance : DecidableRel keyRel := fun x y => instDecidableEqBool (keyLe x.1 y.1) true

/-- The range iteration of `pickWinner` over `r[nameHash‖…]`: the records
with the given prefix, visited in ascending key order. -/
def rRange (s : Store) (nh : Bytes) : List (Outpoint × Int) :=
  ((s.r.filter (fun kv => kv.1.1 = nh)).map (fun kv => (kv.1.2, kv.2))).insertionSort keyRel

/-- The iterator body of `pickWinner` (`db.js` lines 100-111): track the
best value (starting at 0) and its record; `bid >= best` replaces the
winner, so a later key wins ties. -/
def pickFold (l : List (Outpoint × Int)) : Option Outpoint × Int :=
  l.foldl (fun acc kv => if kv.2 ≥ acc.2 then (some kv.1, kv.2) else acc) (none, 0)

/-- Selector `NameDB.pickWinner` (`db.js` lines 93-114). -/
def pickWinner (s : Store) (nh : Bytes) : Option Outpoint :=
  (pickFold (rRange s nh)).1

/-! ### The connect engine (`NameDB.connectCovenants`, `db.js` lines 279-568) -/

abbrev CRes := Except Fault (Bool × View)

/-- Index computation `(i | 0x80000000) >>> 0`: the synthetic outpoint index (`db.js` lines
546, 599). -/
def synthIndex (i : Nat) : Nat := i.lor 2147483648

/-- The body of the `update -> update` case (`db.js` lines 427-456): set the
new owner, commit the data; a covenant carrying a third item is a renewal
and is validated against the referenced block entry. -/
def updateUpdateBody (ctx : Ctx) (net : Network) (height : Int)
    (prevout : Outpoint) (outpoint : Outpoint) (cov : Covenant) (auc : Auction) :
    Except Fault (Bool × Auction) :=
  let auc := auc.setOwner (some outpoint)
  let auc := auc.commit (covItem cov 1)
  if cov.items.length = 3 then
    match ctx.entries (covItem cov 2) with
    | none => .ok (false, auc)
    | some entry =>
      if !entry.main then .ok (false, auc)
      else if entry.height > height - net.coinbaseMaturity then .ok (false, auc)
      else if entry.height < height - net.renewalPeriod then .ok (false, auc)
      else .ok (true, ((auc.addRenewal prevout height).save))
  else .ok (true, auc.save)

/-- Arm `case types.TRANSFER: break` of the update switch (`db.js` lines
460-462): an empty arm. -/
def updateTransferArm (res : Bool × Auction) : Except Fault (Bool × Auction) :=
  .ok res

/-- The `switch (covenant.type)` for an input whose prior covenant is UPDATE
(`db.js` lines 425-475), as written in the source: the `update -> update`
case has no `break`, so on completion it falls through into the empty
`update -> transfer` case (a `return false` inside the case exits the whole
function instead). -/
def updateSwitch (ctx : Ctx) (net : Network) (height : Int)
    (prevout : Outpoint) (outpoint : Outpoint) (cov : Covenant) (auc : Auction) :
    Except Fault (Bool × Auction) :=
  match cov.type with
  | .UPDATE =>
    match updateUpdateBody ctx net height prevout outpoint cov auc with
    | .error e => .error e
    | .ok (false, auc') => .ok (false, auc')
    | .ok (true, auc') => updateTransferArm (true, auc')
  | .TRANSFER => updateTransferArm (true, auc)
  | .RELEASE => .ok (true, (((auc.addUndo prevout).setNull).save).uncommit)
  | _ => .error .assertFail

/-- The same switch with a `break` terminating the `update -> update` case
immediately, following the spec's reading (§9 open question 1: "UPDATE→UPDATE
mutates then stops"). -/
def updateSwitchBreak (ctx : Ctx) (net : Network) (height : Int)
    (prevout : Outpoint) (outpoint : Outpoint) (cov : Covenant) (auc : Auction) :
    Except Fault (Bool × Auction) :=
  match cov.type with
  | .UPDATE => updateUpdateBody ctx net height prevout outpoint cov auc
  | .TRANSFER => updateTransferArm (true, auc)
  | .RELEASE => .ok (true, (((auc.addUndo prevout).setNull).save).uncommit)
  | _ => .error .assertFail

/-- One iteration of the input loop of `connectCovenants` (`db.js` lines
287-520). -/
def connectInput (ctx : Ctx) (net : Network) (s : Store) (tx : TX) (height : Int)
    (i : Nat) (v : View) : CRes :=
  match tx.inputs[i]? with
  | none => .error .typeError
  | some prevout =>
  match ctx.coins prevout with
  | none => .error .typeError
  | some coin =>
  let uc := coin.covenant
  let output? := tx.outputs[i]?
  let outpoint : Outpoint := ⟨tx.hash, i⟩
  if uc.type = .NONE then
    .ok (true, v)
  else if uc.type = .BID then
    match View.getAuctionFor v s prevout with
    | (auc?, v) =>
      match output?, auc? with
      | some output, some auc =>
        if (auc.state height net).code > AuctionState.code .REVEAL then .ok (false, v)
        else
          match output.covenant.type with
          | .REVEAL =>
            let auc := ((auc.removeBid prevout).addReveal outpoint output.value).save
            .ok (true, kput v auc.nameHash auc)
          | _ => .error .assertFail
      | _, _ => .error .assertFail
  else if uc.type = .REVEAL then
    match View.getAuctionFor v s prevout with
    | (auc?, v) =>
      match output?, auc? with
      | some output, some auc =>
        if auc.state height net ≠ .CLOSED then .ok (false, v)
        else
          let winner? : Option Outpoint :=
            match auc.owner with
            | some w => some w
            | none => pickWinner s auc.nameHash
          match winner? with
          | none => .error .assertFail
          | some w =>
            match output.covenant.type with
            | .REDEEM =>
              if prevout = w then .ok (false, v)
              else
                let auc := auc.removeReveal prevout
                .ok (true, kput v auc.nameHash auc)
            | .UPDATE =>
              if prevout ≠ w then .ok (false, v)
              else
                let auc := auc.removeReveal prevout
                let auc := auc.setOwner (some outpoint)
                let auc := { auc with renewal := some height }
                let auc := (auc.commit (covItem output.covenant 1)).save
                .ok (true, kput v auc.nameHash auc)
            | .TRANSFER =>
              if prevout ≠ w then .ok (false, v)
              else
                let auc := auc.removeReveal prevout
                let auc := auc.setOwner (some outpoint)
                let auc := ({ auc with renewal := some height }).save
                .ok (true, kput v auc.nameHash auc)
            | .RELEASE =>
              if prevout ≠ w then .ok (false, v)
              else
                let auc := ((auc.removeReveal prevout).addUndo prevout).setNull
                .ok (true, kput v auc.nameHash auc)
            | _ => .error .assertFail
      | _, _ => .error .assertFail
  else if uc.type = .UPDATE then
    match View.getAuctionFor v s prevout with
    | (auc?, v) =>
      match output?, auc? with
      | some output, some auc =>
        if auc.state height net ≠ .CLOSED then .ok (false, v)
        else if auc.owner ≠ some prevout then .ok (false, v)
        else
          match updateSwitch ctx net height prevout outpoint output.covenant auc with
          | .error e => .error e
          | .ok (ok, auc') => .ok (ok, kput v auc'.nameHash auc')
      | _, _ => .error .assertFail
  else if uc.type = .TRANSFER then
    match View.getAuctionFor v s prevout with
    | (auc?, v) =>
      match output?, auc? with
      | some output, some auc =>
        if auc.state height net ≠ .CLOSED then .ok (false, v)
        else if auc.owner ≠ some prevout then .ok (false, v)
        else
          match output.covenant.type with
          | .UPDATE =>
            let auc := ((auc.setOwner (some outpoint)).commit (covItem output.covenant 1)).save
            .ok (true, kput v auc.nameHash auc)
          | .RELEASE =>
            let auc := (((auc.addUndo prevout).setNull).save).uncommit
            .ok (true, kput v auc.nameHash auc)
          | _ => .error .assertFail
      | _, _ => .error .assertFail
  else
    if uc.type.code > MAX_COVENANT_TYPE then .ok (true, v) else .error .assertFail

def connectInputs (ctx : Ctx) (net : Network) (s : Store) (tx : TX) (height : Int) :
    List Nat → View → CRes
  | [], v => .ok (true, v)
  | i :: rest, v =>
    match connectInput ctx net s tx height i v with
    | .error e => .error e
    | .ok (false, v') => .ok (false, v')
    | .ok (true, v') => connectInputs ctx net s tx height rest v'

/-- One iteration of the output loop of `connectCovenants` (`db.js` lines
522-565): BID outputs. -/
def connectOutput (net : Network) (s : Store) (tx : TX) (height : Int)
    (i : Nat) (v : View) : CRes :=
  match tx.outputs[i]? with
  | none => .error .typeError
  | some output =>
  if output.covenant.type = .BID then
    let name := covItem output.covenant 0
    let nh := blake2b name
    let outpoint : Outpoint := ⟨tx.hash, i⟩
    if net.isMain ∧ height < ((nh.getD 0 0 % 52 : Nat) : Int) * net.rolloutInterval then
      .ok (false, v)
    else
      match View.ensureAuction v s name nh height with
      | (auc, v) =>
        let staleRes : Except Fault Auction :=
          if height ≥ jsNum auc.renewal + net.renewalWindow then
            if auc.owner.isSome then
              let syn : Outpoint := ⟨tx.hash, synthIndex i⟩
              let auc := auc.addUndo syn
              let auc := auc.setOwner none
              let auc := { auc with height := height, renewal := some height, bids := 0 }
              .ok auc.uncommit
            else .error .assertFail
          else .ok auc
        match staleRes with
        | .error e => .error e
        | .ok auc =>
          if auc.state height net ≠ .BIDDING then .ok (false, kput v nh auc)
          else
            let auc := (auc.addBid outpoint).save
            .ok (true, kput v nh auc)
  else .ok (true, v)

def connectOutputs (net : Network) (s : Store) (tx : TX) (height : Int) :
    List Nat → View → CRes
  | [], v => .ok (true, v)
  | i :: rest, v =>
    match connectOutput net s tx height i v with
    | .error e => .error e
    | .ok (false, v') => .ok (false, v')
    | .ok (true, v') => connectOutputs net s tx height rest v'

/-- Engine entry `NameDB.connectCovenants` (`db.js` lines 279-568): inputs in natural
order, then outputs in natural order. -/
def connectCovenants (ctx : Ctx) (net : Network) (s : Store) (tx : TX) (height : Int)
    (v : View) : CRes :=
  if tx.isCoinbase then .ok (true, v)
  else
    match connectInputs ctx net s tx height (List.range tx.inputs.length) v with
    | .error e => .error e
    | .ok (false, v') => .ok (false, v')
    | .ok (true, v') => connectOutputs net s tx height (List.range tx.outputs.length) v'

/-! ### Block verification (`NameDB.verifyBlock`, `db.js` lines 241-254) -/

/-- A block, as far as `db.js` reads it: the trie root committed in its
header and its transactions (index 0 is the coinbase). -/
structure Block where
  trieRoot : KvMap Bytes Bytes
  txs : List TX
deriving DecidableEq

def verifyTxs (ctx : Ctx) (net : Network) (s : Store) (height : Int) :
    List TX → View → CRes
  | [], v => .ok (true, v)
  | tx :: rest, v =>
    match connectCovenants ctx net s tx height v with
    | .error e => .error e
    | .ok (false, v') => .ok (false, v')
    | .ok (true, v') => verifyTxs ctx net s height rest v'

/-- Validator entry `NameDB.verifyBlock` (`db.js` lines 241-254): compare the header's trie
root against the engine's current root, then connect the covenants of every
non-coinbase transaction. -/
def verifyBlock (ctx : Ctx) (net : Network) (s : Store) (block : Block)
    (prev : Entry) (v : View) : CRes :=
  let height := prev.height + 1
  if block.trieRoot ≠ getTrieRoot s then .ok (false, v)
  else verifyTxs ctx net s height (block.txs.drop 1) v

/-! ### The disconnect engine (`NameDB.disconnectCovenants`, `db.js` lines
579-777) -/

abbrev DRes := Except Fault View

/-- One iteration of the output loop of `disconnectCovenants` (`db.js` lines
584-619): BID outputs, visited in reverse index order. -/
def disconnectOutput (net : Network) (s : Store) (tx : TX) (height : Int)
    (i : Nat) (v : View) : DRes :=
  match tx.outputs[i]? with
  | none => .error .typeError
  | some output =>
  if output.covenant.type = .BID then
    let outpoint : Outpoint := ⟨tx.hash, i⟩
    let nh := blake2b (covItem output.covenant 0)
    match View.getAuction v s nh with
    | (auc?, v) =>
      match auc? with
      | none => .error .assertFail
      | some auc =>
        if auc.height ≠ height then .error .assertFail
        else if auc.state height net ≠ .BIDDING then .error .assertFail
        else
          let auc := auc.removeBid outpoint
          if auc.bids = 0 then
            let syn : Outpoint := ⟨tx.hash, synthIndex i⟩
            match getUndo s syn with
            | some undo =>
              let auc := auc.removeUndo syn
              let auc := auc.setOwner undo.owner
              let auc := { auc with
                height := undo.height, renewal := undo.renewal, bids := undo.bids }
              let auc := auc.recommit.save
              .ok (kput v nh auc)
            | none => .ok (kput v nh auc.remove)
          else .ok (kput v nh auc.save)
  else .ok v

def disconnectOutputs (net : Network) (s : Store) (tx : TX) (height : Int) :
    List Nat → View → DRes
  | [], v => .ok v
  | i :: rest, v =>
    match disconnectOutput net s tx height i v with
    | .error e => .error e
    | .ok v' => disconnectOutputs net s tx height rest v'

/-- One iteration of the input loop of `disconnectCovenants` (`db.js` lines
621-776), visited in reverse index order. -/
def disconnectInput (ctx : Ctx) (net : Network) (s : Store) (tx : TX) (height : Int)
    (i : Nat) (v : View) : DRes :=
  match tx.inputs[i]? with
  | none => .error .typeError
  | some prevout =>
  match ctx.coins prevout with
  | none => .error .typeError
  | some coin =>
  let uc := coin.covenant
  let output? := tx.outputs[i]?
  let outpoint : Outpoint := ⟨tx.hash, i⟩
  if uc.type = .NONE then .ok v
  else if uc.type = .BID then
    match View.getAuctionFor v s prevout with
    | (auc?, v) =>
      match output?, auc? with
      | some output, some auc =>
        if ¬ ((auc.state height net).code ≤ AuctionState.code .REVEAL) then
          .error .assertFail
        else
          match output.covenant.type with
          | .REVEAL => .ok (kput v auc.nameHash (auc.removeReveal outpoint))
          | _ => .error .assertFail
      | _, _ => .error .assertFail
  else if uc.type = .REVEAL then
    match View.getAuctionFor v s prevout with
    | (auc?, v) =>
      match output?, auc? with
      | some output, some auc =>
        match output.covenant.type with
        | .REDEEM =>
          if auc.state height net ≠ .CLOSED then .error .assertFail
          else if auc.owner = some outpoint then .error .assertFail
          else .ok (kput v auc.nameHash (auc.addReveal prevout coin.value))
        | .UPDATE =>
          if auc.state height net ≠ .CLOSED then .error .assertFail
          else if auc.owner ≠ some outpoint then .error .assertFail
          else
            let auc := auc.addReveal prevout coin.value
            let auc := auc.setOwner none
            let auc := { auc with renewal := some auc.height }
            let auc := auc.uncommit.save
            .ok (kput v auc.nameHash auc)
        | .TRANSFER =>
          if auc.state height net ≠ .CLOSED then .error .assertFail
          else if auc.owner ≠ some outpoint then .error .assertFail
          else
            let auc := auc.addReveal prevout coin.value
            let auc := auc.setOwner none
            let auc := ({ auc with renewal := some auc.height }).save
            .ok (kput v auc.nameHash auc)
        | .RELEASE =>
          if ¬ auc.isNull then .error .assertFail
          else
            let undo := getUndo s prevout
            let auc := auc.removeUndo prevout
            if ¬ auc.owner.isNone then .error .assertFail
            else
              let auc := auc.addReveal prevout coin.value
              match undo with
              | none => .error .typeError
              | some u =>
                let auc := { auc with height := u.height, renewal := u.renewal }
                .ok (kput v auc.nameHash auc.save)
        | _ => .error .assertFail
      | _, _ => .error .assertFail
  else if uc.type = .UPDATE then
    match View.getAuctionFor v s prevout with
    | (auc?, v) =>
      match output?, auc? with
      | some output, some auc =>
        if auc.state height net ≠ .CLOSED then .error .assertFail
        else
          match output.covenant.type with
          | .UPDATE =>
            if auc.owner ≠ some outpoint then .error .assertFail
            else
              let auc := auc.setOwner (some prevout)
              let auc := auc.commit (covItem uc 1)
              if uc.items.length = 3 then
                match getUndoRenewal s prevout with
                | .error e => .error e
                | .ok undo =>
                  if neStrictNeg1 undo then
                    let auc := auc.removeRenewal prevout
                    let auc := { auc with renewal := undo }
                    .ok (kput v auc.nameHash auc.save)
                  else .error .assertFail
              else .ok (kput v auc.nameHash auc.save)
          | .TRANSFER => .ok v
          | .RELEASE =>
            match getUndo s prevout with
            | none => .error .assertFail
            | some undo =>
              if ¬ auc.isNull then .error .assertFail
              else
                let auc := auc.removeUndo prevout
                let auc := auc.setOwner (some prevout)
                let auc := auc.commit (covItem uc 1)
                let auc := { auc with height := undo.height, renewal := undo.renewal }
                .ok (kput v auc.nameHash auc.save)
          | _ => .error .assertFail
      | _, _ => .error .assertFail
  else
    if uc.type.code > MAX_COVENANT_TYPE then .ok v else .error .assertFail

def disconnectInputs (ctx : Ctx) (net : Network) (s : Store) (tx : TX) (height : Int) :
    List Nat → View → DRes
  | [], v => .ok v
  | i :: rest, v =>
    match disconnectInput ctx net s tx height i v with
    | .error e => .error e
    | .ok v' => disconnectInputs ctx net s tx height rest v'

/-- Engine entry `NameDB.disconnectCovenants` (`db.js` lines 579-777): outputs before
inputs, each in reverse index order. -/
def disconnectCovenants (ctx : Ctx) (net : Network) (s : Store) (tx : TX)
    (height : Int) (v : View) : DRes :=
  match disconnectOutputs net s tx height ((List.range tx.outputs.length).reverse) v with
  | .error e => .error e
  | .ok v' => disconnectInputs ctx net s tx height ((List.range tx.inputs.length).reverse) v'

/-! ### Concrete instances used by the claim theorems -/

/-- A small test network: not mainnet, 10-block bidding and reveal periods,
and the spec's four consensus constants instantiated. -/
def tnet : Network := ⟨false, 10, 10, 1, 5000, 1000, 100⟩

/-- C1 scenario: one auction in bidding, holding one bid at outpoint
`([3], 0)`. -/
def c1p : Outpoint := ⟨[3], 0⟩

def c1nh : Bytes := blake2b [1]

def c1rec : AuctionRec := ⟨[1], none, 100, some 100, 1, none⟩

def c1S0 : Store := ⟨[(c1nh, c1rec)], [(c1p, c1nh)], [((c1nh, c1p), ())], [], [], [], []⟩

/-- C1 block transaction: spend the BID coin at `([3], 0)` into a REVEAL
output of value 1000. -/
def c1tx : TX := ⟨[4], false, [c1p], [⟨1000, ⟨.REVEAL, [[9]]⟩⟩]⟩

def c1ctx : Ctx :=
  ⟨fun q => if q = c1p then some ⟨500, ⟨.BID, [[1]]⟩⟩ else none, fun _ => none⟩

def c1res : CRes := connectCovenants c1ctx tnet c1S0 c1tx 101 []

/-- The state after connecting and flushing the C1 transaction. -/
def c1S1 : Store :=
  match c1res with
  | .ok (_, v) => saveView c1S0 v
  | .error _ => c1S0

/-- C2 scenario: a closed auction owned by `([5], 0)`; a transaction spends
the owner's UPDATE coin into a new UPDATE committing data `[9]`. -/
def c2p : Outpoint := ⟨[5], 0⟩

def c2nh : Bytes := blake2b [2]

def c2rec : AuctionRec := ⟨[2], some c2p, 10, some 10, 0, none⟩

def c2S : Store := ⟨[(c2nh, c2rec)], [(c2p, c2nh)], [], [], [], [], []⟩

def c2tx : TX := ⟨[6], false, [c2p], [⟨0, ⟨.UPDATE, [[0], [9]]⟩⟩]⟩

def c2ctx : Ctx :=
  ⟨fun q => if q = c2p then some ⟨0, ⟨.UPDATE, [[0], [7]]⟩⟩ else none, fun _ => none⟩

/-- A coinbase placeholder (`verifyBlock` skips `txs[0]`). -/
def cbtx : TX := ⟨[0], true, [], []⟩

/-- The C2 block whose header commits the PRE-block trie root (the root of
`c2S`, which is empty). -/
def c2blockPre : Block := ⟨[], [cbtx, c2tx]⟩

def c2prev : Entry := ⟨99, true⟩

def c2res : CRes := verifyBlock c2ctx tnet c2S c2blockPre c2prev []

/-- The trie root that actually holds after the C2 block's transitions are
applied and flushed. -/
def c2postRoot : KvMap Bytes Bytes :=
  match c2res with
  | .ok (_, v) => getTrieRoot (saveView c2S v)
  | .error _ => []

/-- The C2 block whose header commits the POST-block trie root. -/
def c2blockPost : Block := ⟨c2postRoot, [cbtx, c2tx]⟩

/-- C4 scenario: disconnect an `update <- update` transition whose covenant
carries a renewal item, in a state where the `k[prevout]` undo record is
absent. -/
def c4o : Outpoint := ⟨[6], 0⟩

def c4p : Outpoint := ⟨[5], 0⟩

def c4nh : Bytes := blake2b [1]

def c4rec : AuctionRec := ⟨[1], some c4o, 10, some 100, 0, some [9]⟩

def c4S : Store := ⟨[(c4nh, c4rec)], [(c4p, c4nh)], [], [], [], [], []⟩

def c4tx : TX := ⟨[6], false, [c4p], [⟨0, ⟨.UPDATE, [[0], [8]]⟩⟩]⟩

def c4ctx : Ctx :=
  ⟨fun q => if q = c4p then some ⟨0, ⟨.UPDATE, [[0], [8], [7]]⟩⟩ else none, fun _ => none⟩

def c4res : DRes := disconnectCovenants c4ctx tnet c4S c4tx 100 []

/-- C10 witness scenario: a one-input transaction with no outputs spending a
BID coin, and one spending a NONE coin. -/
def c10p : Outpoint := ⟨[3], 0⟩

def c10coin : Output := ⟨500, ⟨.BID, [[1]]⟩⟩

def c10ctx : Ctx := ⟨fun q => if q = c10p then some c10coin else none, fun _ => none⟩

/-- C3 witness scenario: a closed auction owned by `([5], 0)` with prior
renewal height 55; its owner spends into an UPDATE carrying a renewal
reference to block hash `[7]` at height 0. -/
def c3p : Outpoint := ⟨[5], 0⟩

def c3nh : Bytes := blake2b [2]

def c3rec : AuctionRec := ⟨[2], some c3p, 10, some 55, 0, none⟩

def c3S : Store := ⟨[(c3nh, c3rec)], [(c3p, c3nh)], [], [], [], [], []⟩

def c3tx : TX := ⟨[6], false, [c3p], [⟨0, ⟨.UPDATE, [[0], [9], [7]]⟩⟩]⟩

def c3ctx : Ctx :=
  ⟨fun q => if q = c3p then some ⟨0, ⟨.UPDATE, [[0], [8]]⟩⟩ else none,
   fun h => if h = [7] then some ⟨0, true⟩ else none⟩

/-- C7 witness scenario: an auction whose renewal height 10 is more than
`RENEWAL_WINDOW = 5000` blocks old at height 6000, owned by `([9], 1)`; a
new BID on its name arrives. -/
def c7w : Outpoint := ⟨[9], 1⟩

def c7rec : AuctionRec := ⟨[2], some c7w, 10, some 10, 0, some [3]⟩

def c7S : Store :=
  ⟨[(blake2b [2], c7rec)], [(c7w, blake2b [2])], [], [], [], [],
   [(blake2b [2], blake2b [3])]⟩

def c7ctx : Ctx := ⟨fun _ => none, fun _ => none⟩

/-- C7 counterexample scenario: the same stale auction but with a null
owner (bid on, never revealed or closed); the stale-release arm dies on
its owner assertion (`db.js` line 548) instead of performing the claimed
snapshot and reset. -/
def c7rec0 : AuctionRec := ⟨[2], none, 10, some 10, 0, some [3]⟩

def c7S0 : Store :=
  ⟨[(blake2b [2], c7rec0)], [], [], [], [], [],
   [(blake2b [2], blake2b [3])]⟩

/-- C5 witness scenario: three reveal records, two under prefix `[1]` tied
at value 5 (outpoints `([2],0)` and `([2],1)`) and one under prefix `[3]`. -/
def c5S : Store :=
  ⟨[], [], [],
   [(([1], ⟨[2], 0⟩), 5), (([1], ⟨[2], 1⟩), 5), (([3], ⟨[9], 0⟩), 7)],
   [], [], []⟩

/-! ### Reverse-index bijection (claim C6): the invariant and op scripts -/

/-- A bid record is stored for `(nh, p)`. -/
def bidAt (s : Store) (nh : Bytes) (p : Outpoint) : Prop := kget s.b (nh, p) ≠ none

/-- A reveal record is stored for `(nh, p)`. -/
def revAt (s : Store) (nh : Bytes) (p : Outpoint) : Prop := kget s.r (nh, p) ≠ none

/-- The owner recorded in the stored auction record of `nh` (none when no
record is stored or the owner is null). -/
def ownerOf (s : Store) (nh : Bytes) : Option Outpoint :=
  match kget s.a nh with
  | some rec => rec.owner
  | none => none

/-- The reverse-index bijection (spec invariant 1 / property P1), with the
mutual-exclusivity facts needed to preserve it: every bid, reveal and
current-owner outpoint is reverse-indexed under its auction's name hash;
every reverse-index entry is justified by a bid, a reveal or the current
owner; and at any outpoint the three justifications exclude one another. -/
def Inv (s : Store) : Prop :=
  ∀ p : Outpoint,
    (∀ nh, bidAt s nh p → kget s.n p = some nh) ∧
    (∀ nh, revAt s nh p → kget s.n p = some nh) ∧
    (∀ nh, ownerOf s nh = some p → kget s.n p = some nh) ∧
    (∀ nh, kget s.n p = some nh →
      bidAt s nh p ∨ revAt s nh p ∨ ownerOf s nh = some p) ∧
    (∀ nh, ¬(bidAt s nh p ∧ revAt s nh p)) ∧
    (∀ nh, ¬(bidAt s nh p ∧ ownerOf s nh = some p)) ∧
    (∀ nh, ¬(revAt s nh p ∧ ownerOf s nh = some p))

/-- The owner justification used while the auction `nh0` is being flushed:
for `nh0` itself the running owner `ow` of the replay is authoritative (the
stored record only catches up at `ADD_AUCTION`); for every other name hash
the stored record is. -/
def ownJust (s : Store) (nh0 : Bytes) (ow : Option Outpoint) (nh : Bytes)
    (p : Outpoint) : Prop :=
  if nh = nh0 then ow = some p else ownerOf s nh = some p

/-- The bijection invariant generalized over the mid-flush running owner of
the distinguished auction `nh0`. -/
def InvGen (s : Store) (nh0 : Bytes) (ow : Option Outpoint) : Prop :=
  ∀ p : Outpoint,
    (∀ nh, bidAt s nh p → kget s.n p = some nh) ∧
    (∀ nh, revAt s nh p → kget s.n p = some nh) ∧
    (∀ nh, ownJust s nh0 ow nh p → kget s.n p = some nh) ∧
    (∀ nh, kget s.n p = some nh →
      bidAt s nh p ∨ revAt s nh p ∨ ownJust s nh0 ow nh p) ∧
    (∀ nh, ¬(bidAt s nh p ∧ revAt s nh p)) ∧
    (∀ nh, ¬(bidAt s nh p ∧ ownJust s nh0 ow nh p)) ∧
    (∀ nh, ¬(revAt s nh p ∧ ownJust s nh0 ow nh p))

/-- How one pending op moves the running owner of the flushed auction. -/
def ownerStep (ow : Option Outpoint) : Op → Option Outpoint
  | .ADD_OWNER p => some p
  | .REMOVE_OWNER _ => none
  | _ => ow

/-- The running owner after replaying a pending-op list. -/
def ownerAfter (ow : Option Outpoint) (ops : List Op) : Option Outpoint :=
  ops.foldl ownerStep ow

/-- The side condition under which one pending op of auction `nh0` preserves
the bijection: additions of reverse-indexed records target unindexed
outpoints, removals target records that are present, and owner changes
unlink before they link. -/
def opOK (s : Store) (nh0 : Bytes) (ow : Option Outpoint) : Op → Prop
  | .ADD_BID p => kget s.n p = none
  | .REMOVE_BID p => kget s.b (nh0, p) ≠ none
  | .ADD_REVEAL p _ => kget s.n p = none
  | .REMOVE_REVEAL p => kget s.r (nh0, p) ≠ none
  | .ADD_OWNER p => kget s.n p = none ∧ ow = none
  | .REMOVE_OWNER p => ow = some p
  | _ => True

/-- A pending-op list is a good script when every op's side condition holds
in the store state its replay has reached (`rec` is the final record, as
flushed by `ADD_AUCTION`). -/
def OpsOK (nh0 : Bytes) (rec : AuctionRec) : Store → Option Outpoint → List Op → Prop
  | _, _, [] => True
  | s, ow, o :: rest =>
    opOK s nh0 ow o ∧ OpsOK nh0 rec (applyOp nh0 rec s o) (ownerStep ow o) rest

/-- The outpoints whose reverse-index-relevant records an op touches. -/
def opTouches : Op → List Outpoint
  | .ADD_BID p => [p]
  | .REMOVE_BID p => [p]
  | .ADD_REVEAL p _ => [p]
  | .REMOVE_REVEAL p => [p]
  | .ADD_OWNER p => [p]
  | .REMOVE_OWNER p => [p]
  | _ => []

def opsTouches : List Op → List Outpoint
  | [] => []
  | o :: rest => opTouches o ++ opsTouches rest

/-- A cached auction is good to flush against base store `s`: it is keyed by
its name hash, its op log is a good script starting from the stored owner,
and the record its flush leaves behind agrees with the script's final
running owner. -/
def FlushGood (s : Store) (nh : Bytes) (a : Auction) : Prop :=
  a.nameHash = nh ∧
  OpsOK nh a.record s (ownerOf s nh) a.ops ∧
  ownerOf (saveAuction s a) nh = ownerAfter (ownerOf s nh) a.ops

/-- Pairwise separation of cached auctions: distinct name hashes and
disjoint op footprints. -/
def ViewSep (v : View) : Prop :=
  v.Pairwise (fun x y => x.1 ≠ y.1 ∧
    ∀ p ∈ opsTouches x.2.ops, p ∉ opsTouches y.2.ops)

/-- The invariant carried across one block's connect run: `s` is the base
store (reads during the block hit it), `used` the outpoints consumed by
the steps processed so far, `v` the accumulating view.  Per cached auction:
its key is its name hash; its op log is a good script from the stored
owner; its `owner` field tracks the script's running owner; the record is
never deleted; an owner change is always followed by a save; and every
footprint outpoint is either registered in `used` (fresh outpoints must
be) or base-indexed to this very auction (a base-owned outpoint may also
be the auction's stored owner).  View keys are distinct and footprints are
pairwise disjoint. -/
def BlockInv (s : Store) (used : List Outpoint) (v : View) : Prop :=
  (∀ kv ∈ v, kv.2.nameHash = kv.1) ∧
  (∀ kv ∈ v, OpsOK kv.1 kv.2.record s (ownerOf s kv.1) kv.2.ops) ∧
  (∀ kv ∈ v, kv.2.owner = ownerAfter (ownerOf s kv.1) kv.2.ops) ∧
  (∀ kv ∈ v, Op.REMOVE_AUCTION ∉ kv.2.ops) ∧
  (∀ kv ∈ v, Op.ADD_AUCTION ∈ kv.2.ops ∨
    ownerAfter (ownerOf s kv.1) kv.2.ops = ownerOf s kv.1) ∧
  (v.map Prod.fst).Nodup ∧
  ViewSep v ∧
  (∀ kv ∈ v, ∀ p ∈ opsTouches kv.2.ops,
    ((kget s.n p = none → p ∈ used) ∧
     (∀ nh', kget s.n p = some nh' → nh' = kv.1) ∧
     (p ∈ used ∨ ownerOf s kv.1 = some p)))

/-- The outpoints an accepted run of input step `i` can add to view
footprints: the spent prevout, plus the synthesized outpoint `(tx.hash, i)`
when the paired output's covenant is one that links it (REVEAL, UPDATE or
TRANSFER). -/
def inputStepAdds (tx : TX) (i : Nat) : List Outpoint :=
  (match tx.inputs[i]? with | some p => [p] | none => []) ++
  (match tx.outputs[i]? with
   | some o =>
     if o.covenant.type = CovType.REVEAL ∨ o.covenant.type = CovType.UPDATE ∨
        o.covenant.type = CovType.TRANSFER then [Outpoint.mk tx.hash i] else []
   | none => [])

/-- The outpoints an accepted run of output step `i` can add to view
footprints: the bid outpoint `(tx.hash, i)` when the output is a BID. -/
def outputStepAdds (tx : TX) (i : Nat) : List Outpoint :=
  match tx.outputs[i]? with
  | some o => if o.covenant.type = CovType.BID then [Outpoint.mk tx.hash i] else []
  | none => []

def stepAddsList (f : Nat → List Outpoint) : List Nat → List Outpoint
  | [] => []
  | i :: rest => f i ++ stepAddsList f rest

/-- All outpoints one transaction's covenant run can add to footprints. -/
def txAdds (tx : TX) : List Outpoint :=
  stepAddsList (inputStepAdds tx) (List.range tx.inputs.length) ++
  stepAddsList (outputStepAdds tx) (List.range tx.outputs.length)

def blockAdds : List TX → List Outpoint
  | [] => []
  | tx :: rest => txAdds tx ++ blockAdds rest

/-- The coin oracle is faithful to the store: a coin whose covenant says BID
(resp. REVEAL) sits at an outpoint whose bid (resp. reveal) record is
present under the auction its reverse index names. -/
def CoinsFaithful (ctx : Ctx) (s : Store) : Prop :=
  ∀ p coin, ctx.coins p = some coin →
    (coin.covenant.type = CovType.BID → ∀ nh, kget s.n p = some nh → bidAt s nh p) ∧
    (coin.covenant.type = CovType.REVEAL → ∀ nh, kget s.n p = some nh → revAt s nh p)

/-- New outpoints minted by the block's transactions are unknown to the
reverse index. -/
def FreshHashes (s : Store) (txs : List TX) : Prop :=
  ∀ tx ∈ txs, ∀ i : Nat, kget s.n (Outpoint.mk tx.hash i) = none

/-- Chain-level validity of a block's (non-coinbase) transactions against
the store: no outpoint is spent or minted twice across the block, minted
outpoints are fresh, and the coin oracle is faithful. -/
def BlockOK (ctx : Ctx) (s : Store) (txs : List TX) : Prop :=
  (blockAdds txs).Nodup ∧ FreshHashes s txs ∧ CoinsFaithful ctx s

/-- The stores reachable from the empty store by connecting valid accepted
blocks and flushing their views (`NameDB.verifyBlock` acceptance plus
chain-level validity of the spent coins). -/
inductive Reach (net : Network) : Store → Prop
  | init : Reach net Store.empty
  | step (ctx : Ctx) (s : Store) (block : Block) (prev : Entry) (v' : View) :
      Reach net s →
      BlockOK ctx s (block.txs.drop 1) →
      verifyBlock ctx net s block prev [] = Except.ok (true, v') →
      Reach net (saveView s v')

/-! Concrete chain for the C6 witness: an empty starting store and one block
carrying a single BID transaction. -/

def c6tx : TX := ⟨[7], false, [], [⟨100, ⟨CovType.BID, [[3]]⟩⟩]⟩

def c6block : Block := ⟨[], [cbtx, c6tx]⟩

def c6ctx : Ctx := ⟨fun _ => none, fun _ => none⟩

def c6prev : Entry := ⟨0, true⟩

def c6res : CRes := verifyBlock c6ctx tnet Store.empty c6block c6prev []

def c6view : View :=
  match c6res with
  | Except.ok (_, v) => v
  | _ => []

/-! ## Theorems about the claims -/

theorem kget_kput_self {K V : Type} [DecidableEq K] (m : KvMap K V) (key : K) (v : V) :
    kget (kput m key v) key = some v := by
  induction m with
  | nil => simp [kput, kget]
  | cons kv rest ih =>
    obtain ⟨k, w⟩ := kv
    by_cases h : k = key
    · simp [kput, kget, h]
    · simpa [kput, kget, h] using ih

theorem kget_kdel_self {K V : Type} [DecidableEq K] (m : KvMap K V) (key : K) :
    kget (kdel m key) key = none := by
  induction m with
  | nil => simp [kdel, kget]
  | cons kv rest ih =>
    obtain ⟨k, w⟩ := kv
    by_cases h : k = key
    · simpa [kdel, h] using ih
    · simpa [kdel, kget, h] using ih

theorem kget_kput {K V : Type} [DecidableEq K] (m : KvMap K V) (key k' : K) (v : V) :
    kget (kput m key v) k' = if key = k' then some v else kget m k' := by
  induction m with
  | nil => by_cases h : key = k' <;> simp [kput, kget, h]
  | cons kv rest ih =>
    obtain ⟨k, w⟩ := kv
    by_cases h : k = key
    · subst h
      by_cases h2 : k = k' <;> simp [kput, kget, h2]
    · by_cases h2 : k = k'
      · subst h2
        have : ¬(key = k) := fun hh => h hh.symm
        simp [kput, kget, h, this]
      · simp [kput, kget, h, h2, ih]

theorem kget_kdel {K V : Type} [DecidableEq K] (m : KvMap K V) (key k' : K) :
    kget (kdel m key) k' = if key = k' then none else kget m k' := by
  induction m with
  | nil => by_cases h : key = k' <;> simp [kdel, kget, h]
  | cons kv rest ih =>
    obtain ⟨k, w⟩ := kv
    by_cases h : k = key
    · subst h
      by_cases h2 : k = k' <;> simp [kdel, kget, h2, ih, kget_kdel_self]
    · by_cases h2 : k = k'
      · subst h2
        have : ¬(key = k) := fun hh => h hh.symm
        simp [kdel, kget, h, this]
      · simp [kdel, kget, h, h2, ih]

/-! ### Association-list lemmas for view bookkeeping -/

theorem kget_eq_none_iff {K V : Type} [DecidableEq K] (m : KvMap K V) (k : K) :
    kget m k = none ↔ k ∉ m.map Prod.fst := by
  induction m with
  | nil => simp [kget]
  | cons kv rest ih =>
    obtain ⟨k', w⟩ := kv
    by_cases h : k' = k
    · subst h
      simp [kget]
    · have h2 : ¬k = k' := fun hh => h hh.symm
      simp [kget, h, ih, h2]

theorem mem_of_kget {K V : Type} [DecidableEq K] (m : KvMap K V) (k : K) (a : V)
    (h : kget m k = some a) : (k, a) ∈ m := by
  induction m with
  | nil => exact absurd h (by simp [kget])
  | cons kv rest ih =>
    obtain ⟨k', w⟩ := kv
    by_cases hk : k' = k
    · subst hk
      have : w = a := by simpa [kget] using h
      subst this
      exact List.mem_cons_self _ _
    · have h' : kget rest k = some a := by simpa [kget, hk] using h
      exact List.mem_cons_of_mem _ (ih h')

theorem kget_ne_none_of_mem {K V : Type} [DecidableEq K] (m : KvMap K V) (k : K) (a : V)
    (h : (k, a) ∈ m) : kget m k ≠ none := by
  intro hn
  rw [kget_eq_none_iff] at hn
  exact hn (List.mem_map_of_mem Prod.fst h)

theorem kput_kget_self {K V : Type} [DecidableEq K] (m : KvMap K V) (k : K) (a : V)
    (h : kget m k = some a) : kput m k a = m := by
  induction m with
  | nil => exact absurd h (by simp [kget])
  | cons kv rest ih =>
    obtain ⟨k', w⟩ := kv
    by_cases hk : k' = k
    · subst hk
      have : w = a := by simpa [kget] using h
      subst this
      simp [kput]
    · have h' : kget rest k = some a := by simpa [kget, hk] using h
      simp [kput, hk, ih h']

theorem kput_of_not_mem {K V : Type} [DecidableEq K] (m : KvMap K V) (k : K) (a : V)
    (h : kget m k = none) : kput m k a = m ++ [(k, a)] := by
  induction m with
  | nil => rfl
  | cons kv rest ih =>
    obtain ⟨k', w⟩ := kv
    by_cases hk : k' = k
    · subst hk
      simp [kget] at h
    · have h' : kget rest k = none := by simpa [kget, hk] using h
      simp [kput, hk, ih h']

theorem keys_kput_of_mem {K V : Type} [DecidableEq K] (m : KvMap K V) (k : K) (a : V)
    (h : k ∈ m.map Prod.fst) : (kput m k a).map Prod.fst = m.map Prod.fst := by
  induction m with
  | nil => simp at h
  | cons kv rest ih =>
    obtain ⟨k', w⟩ := kv
    by_cases hk : k' = k
    · subst hk
      simp [kput]
    · have h' : k ∈ rest.map Prod.fst := by
        rw [List.map_cons] at h
        rcases List.mem_cons.mp h with h1 | h1
        · exact absurd h1.symm hk
        · exact h1
      simp [kput, hk, ih h']

theorem mem_kput {K V : Type} [DecidableEq K] (m : KvMap K V) (k : K) (a : V)
    (hnd : (m.map Prod.fst).Nodup) (kv : K × V) :
    kv ∈ kput m k a ↔ kv = (k, a) ∨ (kv ∈ m ∧ kv.1 ≠ k) := by
  induction m with
  | nil => simp [kput]
  | cons hd rest ih =>
    obtain ⟨k', w⟩ := hd
    have hnd' : (rest.map Prod.fst).Nodup := (List.nodup_cons.mp (by simpa using hnd)).2
    have hknr : k' ∉ rest.map Prod.fst := (List.nodup_cons.mp (by simpa using hnd)).1
    by_cases hk : k' = k
    · subst hk
      have hput : kput ((k', w) :: rest) k' a = (k', a) :: rest := by simp [kput]
      rw [hput]
      constructor
      · intro h
        rcases List.mem_cons.mp h with h1 | h1
        · exact Or.inl h1
        · refine Or.inr ⟨List.mem_cons_of_mem _ h1, ?_⟩
          intro hkv
          exact hknr (hkv ▸ List.mem_map_of_mem Prod.fst h1)
      · rintro (h1 | ⟨h1, h2⟩)
        · exact h1 ▸ List.mem_cons_self _ _
        · rcases List.mem_cons.mp h1 with h3 | h3
          · exact absurd (congrArg Prod.fst h3) h2
          · exact List.mem_cons_of_mem _ h3
    · have hput : kput ((k', w) :: rest) k a = (k', w) :: kput rest k a := by
        simp [kput, hk]
      rw [hput]
      constructor
      · intro h
        rcases List.mem_cons.mp h with h1 | h1
        · exact Or.inr ⟨h1 ▸ List.mem_cons_self _ _, h1 ▸ hk⟩
        · rcases (ih hnd').mp h1 with h2 | ⟨h2, h3⟩
          · exact Or.inl h2
          · exact Or.inr ⟨List.mem_cons_of_mem _ h2, h3⟩
      · rintro (h1 | ⟨h1, h2⟩)
        · exact List.mem_cons_of_mem _ ((ih hnd').mpr (Or.inl h1))
        · rcases List.mem_cons.mp h1 with h3 | h3
          · exact h3 ▸ List.mem_cons_self _ _
          · exact List.mem_cons_of_mem _ ((ih hnd').mpr (Or.inr ⟨h3, h2⟩))

theorem nodup_keys_kput {K V : Type} [DecidableEq K] (m : KvMap K V) (k : K) (a : V)
    (hnd : (m.map Prod.fst).Nodup) : ((kput m k a).map Prod.fst).Nodup := by
  by_cases h : kget m k = none
  · rw [kput_of_not_mem m k a h]
    rw [kget_eq_none_iff] at h
    rw [List.map_append, List.nodup_append]
    refine ⟨hnd, by simp, ?_⟩
    intro x hx hy
    simp at hy
    exact h (hy ▸ hx)
  · rcases Option.ne_none_iff_exists'.mp h with ⟨b, hb⟩
    rw [keys_kput_of_mem]
    · exact hnd
    · exact List.mem_map_of_mem Prod.fst (mem_of_kget m k b hb)

theorem pairwise_kput {K V : Type} [DecidableEq K] {R : (K × V) → (K × V) → Prop}
    (m : KvMap K V) (k : K) (a : V)
    (hnd : (m.map Prod.fst).Nodup) (hp : m.Pairwise R)
    (h : ∀ kv ∈ m, kv.1 ≠ k → R kv (k, a) ∧ R (k, a) kv) :
    (kput m k a).Pairwise R := by
  induction m with
  | nil => simp [kput]
  | cons hd rest ih =>
    obtain ⟨k', w⟩ := hd
    have hnd' : (rest.map Prod.fst).Nodup := (List.nodup_cons.mp (by simpa using hnd)).2
    have hknr : k' ∉ rest.map Prod.fst := (List.nodup_cons.mp (by simpa using hnd)).1
    obtain ⟨hhd, hrest⟩ := List.pairwise_cons.mp hp
    by_cases hk : k' = k
    · subst hk
      have hput : kput ((k', w) :: rest) k' a = (k', a) :: rest := by simp [kput]
      rw [hput]
      refine List.pairwise_cons.mpr ⟨?_, hrest⟩
      intro y hy
      have hy1 : y.1 ≠ k' := fun hh => hknr (hh ▸ List.mem_map_of_mem Prod.fst hy)
      exact (h y (List.mem_cons_of_mem _ hy) hy1).2
    · have hput : kput ((k', w) :: rest) k a = (k', w) :: kput rest k a := by
        simp [kput, hk]
      rw [hput]
      refine List.pairwise_cons.mpr ⟨?_, ?_⟩
      · intro y hy
        rcases (mem_kput rest k a hnd' y).mp hy with h1 | ⟨h1, _⟩
        · exact h1 ▸ (h (k', w) (List.mem_cons_self _ _) hk).1
        · exact hhd y h1
      · exact ih hnd' hrest (fun kv hkv hne => h kv (List.mem_cons_of_mem _ hkv) hne)

/-! ### Preservation of the bijection invariant by single ops -/

theorem invGen_step_addBid (s : Store) (nh0 : Bytes) (ow : Option Outpoint) (q : Outpoint)
    (hI : InvGen s nh0 ow) (hok : kget s.n q = none) :
    InvGen { s with b := kput s.b (nh0, q) (), n := kput s.n q nh0 } nh0 ow := by
  intro p
  obtain ⟨hA, hB, hC, hD, hE, hF, hG⟩ := hI p
  have hb : ∀ nh, bidAt { s with b := kput s.b (nh0, q) (), n := kput s.n q nh0 } nh p ↔
      ((nh = nh0 ∧ p = q) ∨ bidAt s nh p) := by
    intro nh
    unfold bidAt
    show kget (kput s.b (nh0, q) ()) (nh, p) ≠ none ↔ _
    rw [kget_kput]
    by_cases h : (nh0, q) = (nh, p)
    · obtain ⟨h1, h2⟩ := Prod.mk.injEq .. ▸ h
      simp [h, h1.symm, h2.symm]
    · have h' : ¬(nh = nh0 ∧ p = q) := by
        rintro ⟨rfl, rfl⟩
        exact h rfl
      simp [h, h']
  have hn : ∀ p' : Outpoint,
      kget ({ s with b := kput s.b (nh0, q) (), n := kput s.n q nh0 } : Store).n p' =
        if q = p' then some nh0 else kget s.n p' := fun p' => kget_kput s.n q p' nh0
  refine ⟨?_, ?_, ?_, ?_, ?_, ?_, ?_⟩
  · intro nh hbid
    rw [hn]
    rcases (hb nh).mp hbid with ⟨rfl, rfl⟩ | hold
    · simp
    · by_cases hpq : q = p
      · subst hpq
        rw [hA nh hold] at hok
        exact Option.noConfusion hok
      · rw [if_neg hpq]
        exact hA nh hold
  · intro nh hrev
    rw [hn]
    have hrev' : revAt s nh p := hrev
    by_cases hpq : q = p
    · subst hpq
      rw [hB nh hrev'] at hok
      exact Option.noConfusion hok
    · rw [if_neg hpq]
      exact hB nh hrev'
  · intro nh hj
    rw [hn]
    have hj' : ownJust s nh0 ow nh p := hj
    by_cases hpq : q = p
    · subst hpq
      rw [hC nh hj'] at hok
      exact Option.noConfusion hok
    · rw [if_neg hpq]
      exact hC nh hj'
  · intro nh
    rw [hn]
    by_cases hpq : q = p
    · subst hpq
      intro hsome
      have : nh = nh0 := by
        rw [if_pos rfl] at hsome
        exact (Option.some.inj hsome).symm
      subst this
      exact Or.inl ((hb nh).mpr (Or.inl ⟨rfl, rfl⟩))
    · rw [if_neg hpq]
      intro hsome
      rcases hD nh hsome with h | h | h
      · exact Or.inl ((hb nh).mpr (Or.inr h))
      · exact Or.inr (Or.inl h)
      · exact Or.inr (Or.inr h)
  · intro nh
    rintro ⟨hbid, hrev⟩
    have hrev' : revAt s nh p := hrev
    rcases (hb nh).mp hbid with ⟨h1, h2⟩ | hold
    · subst h2
      rw [hB nh hrev'] at hok
      exact Option.noConfusion hok
    · exact hE nh ⟨hold, hrev'⟩
  · intro nh
    rintro ⟨hbid, hj⟩
    have hj' : ownJust s nh0 ow nh p := hj
    rcases (hb nh).mp hbid with ⟨h1, h2⟩ | hold
    · subst h2
      rw [hC nh hj'] at hok
      exact Option.noConfusion hok
    · exact hF nh ⟨hold, hj'⟩
  · intro nh
    rintro ⟨hrev, hj⟩
    exact hG nh ⟨hrev, hj⟩

theorem invGen_step_removeBid (s : Store) (nh0 : Bytes) (ow : Option Outpoint)
    (q : Outpoint) (hI : InvGen s nh0 ow) (hok : kget s.b (nh0, q) ≠ none) :
    InvGen { s with b := kdel s.b (nh0, q), n := kdel s.n q } nh0 ow := by
  have hnq : kget s.n q = some nh0 := (hI q).1 nh0 hok
  intro p
  obtain ⟨hA, hB, hC, hD, hE, hF, hG⟩ := hI p
  have hb : ∀ nh, bidAt { s with b := kdel s.b (nh0, q), n := kdel s.n q } nh p ↔
      (¬(nh = nh0 ∧ p = q) ∧ bidAt s nh p) := by
    intro nh
    unfold bidAt
    show kget (kdel s.b (nh0, q)) (nh, p) ≠ none ↔ _
    rw [kget_kdel]
    by_cases h : (nh0, q) = (nh, p)
    · obtain ⟨h1, h2⟩ := Prod.mk.injEq .. ▸ h
      simp [h, h1.symm, h2.symm]
    · have h' : ¬(nh = nh0 ∧ p = q) := by
        rintro ⟨rfl, rfl⟩
        exact h rfl
      simp [h, h']
  have hn : ∀ p' : Outpoint,
      kget ({ s with b := kdel s.b (nh0, q), n := kdel s.n q } : Store).n p' =
        if q = p' then none else kget s.n p' := fun p' => kget_kdel s.n q p'
  refine ⟨?_, ?_, ?_, ?_, ?_, ?_, ?_⟩
  · intro nh hbid
    obtain ⟨hnot, hold⟩ := (hb nh).mp hbid
    rw [hn]
    by_cases hpq : q = p
    · subst hpq
      have := hA nh hold
      rw [hnq] at this
      exact absurd ⟨(Option.some.inj this).symm, rfl⟩ hnot
    · rw [if_neg hpq]
      exact hA nh hold
  · intro nh hrev
    have hrev' : revAt s nh p := hrev
    rw [hn]
    by_cases hpq : q = p
    · subst hpq
      have := hB nh hrev'
      rw [hnq] at this
      cases Option.some.inj this
      exact absurd ⟨hok, hrev'⟩ (hE nh0)
    · rw [if_neg hpq]
      exact hB nh hrev'
  · intro nh hj
    have hj' : ownJust s nh0 ow nh p := hj
    rw [hn]
    by_cases hpq : q = p
    · subst hpq
      have := hC nh hj'
      rw [hnq] at this
      cases Option.some.inj this
      exact absurd ⟨hok, hj'⟩ (hF nh0)
    · rw [if_neg hpq]
      exact hC nh hj'
  · intro nh
    rw [hn]
    by_cases hpq : q = p
    · subst hpq
      rw [if_pos rfl]
      intro h
      cases h
    · rw [if_neg hpq]
      intro hsome
      rcases hD nh hsome with h | h | h
      · refine Or.inl ((hb nh).mpr ⟨?_, h⟩)
        rintro ⟨rfl, rfl⟩
        exact hpq rfl
      · exact Or.inr (Or.inl h)
      · exact Or.inr (Or.inr h)
  · intro nh
    rintro ⟨hbid, hrev⟩
    exact hE nh ⟨((hb nh).mp hbid).2, hrev⟩
  · intro nh
    rintro ⟨hbid, hj⟩
    exact hF nh ⟨((hb nh).mp hbid).2, hj⟩
  · intro nh
    rintro ⟨hrev, hj⟩
    exact hG nh ⟨hrev, hj⟩

theorem invGen_step_addReveal (s : Store) (nh0 : Bytes) (ow : Option Outpoint)
    (q : Outpoint) (value : Int) (hI : InvGen s nh0 ow) (hok : kget s.n q = none) :
    InvGen { s with r := kput s.r (nh0, q) value, n := kput s.n q nh0 } nh0 ow := by
  intro p
  obtain ⟨hA, hB, hC, hD, hE, hF, hG⟩ := hI p
  have hr : ∀ nh, revAt { s with r := kput s.r (nh0, q) value, n := kput s.n q nh0 } nh p ↔
      ((nh = nh0 ∧ p = q) ∨ revAt s nh p) := by
    intro nh
    unfold revAt
    show kget (kput s.r (nh0, q) value) (nh, p) ≠ none ↔ _
    rw [kget_kput]
    by_cases h : (nh0, q) = (nh, p)
    · obtain ⟨h1, h2⟩ := Prod.mk.injEq .. ▸ h
      simp [h, h1.symm, h2.symm]
    · have h' : ¬(nh = nh0 ∧ p = q) := by
        rintro ⟨rfl, rfl⟩
        exact h rfl
      simp [h, h']
  have hn : ∀ p' : Outpoint,
      kget ({ s with r := kput s.r (nh0, q) value, n := kput s.n q nh0 } : Store).n p' =
        if q = p' then some nh0 else kget s.n p' := fun p' => kget_kput s.n q p' nh0
  refine ⟨?_, ?_, ?_, ?_, ?_, ?_, ?_⟩
  · intro nh hbid
    have hbid' : bidAt s nh p := hbid
    rw [hn]
    by_cases hpq : q = p
    · subst hpq
      rw [hA nh hbid'] at hok
      exact Option.noConfusion hok
    · rw [if_neg hpq]
      exact hA nh hbid'
  · intro nh hrev
    rw [hn]
    rcases (hr nh).mp hrev with ⟨rfl, rfl⟩ | hold
    · simp
    · by_cases hpq : q = p
      · subst hpq
        rw [hB nh hold] at hok
        exact Option.noConfusion hok
      · rw [if_neg hpq]
        exact hB nh hold
  · intro nh hj
    have hj' : ownJust s nh0 ow nh p := hj
    rw [hn]
    by_cases hpq : q = p
    · subst hpq
      rw [hC nh hj'] at hok
      exact Option.noConfusion hok
    · rw [if_neg hpq]
      exact hC nh hj'
  · intro nh
    rw [hn]
    by_cases hpq : q = p
    · subst hpq
      intro hsome
      have : nh = nh0 := by
        rw [if_pos rfl] at hsome
        exact (Option.some.inj hsome).symm
      subst this
      exact Or.inr (Or.inl ((hr nh).mpr (Or.inl ⟨rfl, rfl⟩)))
    · rw [if_neg hpq]
      intro hsome
      rcases hD nh hsome with h | h | h
      · exact Or.inl h
      · exact Or.inr (Or.inl ((hr nh).mpr (Or.inr h)))
      · exact Or.inr (Or.inr h)
  · intro nh
    rintro ⟨hbid, hrev⟩
    have hbid' : bidAt s nh p := hbid
    rcases (hr nh).mp hrev with ⟨h1, h2⟩ | hold
    · subst h2
      rw [hA nh hbid'] at hok
      exact Option.noConfusion hok
    · exact hE nh ⟨hbid', hold⟩
  · intro nh
    rintro ⟨hbid, hj⟩
    exact hF nh ⟨hbid, hj⟩
  · intro nh
    rintro ⟨hrev, hj⟩
    have hj' : ownJust s nh0 ow nh p := hj
    rcases (hr nh).mp hrev with ⟨h1, h2⟩ | hold
    · subst h2
      rw [hC nh hj'] at hok
      exact Option.noConfusion hok
    · exact hG nh ⟨hold, hj'⟩

theorem invGen_step_removeReveal (s : Store) (nh0 : Bytes) (ow : Option Outpoint)
    (q : Outpoint) (hI : InvGen s nh0 ow) (hok : kget s.r (nh0, q) ≠ none) :
    InvGen { s with r := kdel s.r (nh0, q), n := kdel s.n q } nh0 ow := by
  have hnq : kget s.n q = some nh0 := (hI q).2.1 nh0 hok
  intro p
  obtain ⟨hA, hB, hC, hD, hE, hF, hG⟩ := hI p
  have hr : ∀ nh, revAt { s with r := kdel s.r (nh0, q), n := kdel s.n q } nh p ↔
      (¬(nh = nh0 ∧ p = q) ∧ revAt s nh p) := by
    intro nh
    unfold revAt
    show kget (kdel s.r (nh0, q)) (nh, p) ≠ none ↔ _
    rw [kget_kdel]
    by_cases h : (nh0, q) = (nh, p)
    · obtain ⟨h1, h2⟩ := Prod.mk.injEq .. ▸ h
      simp [h, h1.symm, h2.symm]
    · have h' : ¬(nh = nh0 ∧ p = q) := by
        rintro ⟨rfl, rfl⟩
        exact h rfl
      simp [h, h']
  have hn : ∀ p' : Outpoint,
      kget ({ s with r := kdel s.r (nh0, q), n := kdel s.n q } : Store).n p' =
        if q = p' then none else kget s.n p' := fun p' => kget_kdel s.n q p'
  refine ⟨?_, ?_, ?_, ?_, ?_, ?_, ?_⟩
  · intro nh hbid
    have hbid' : bidAt s nh p := hbid
    rw [hn]
    by_cases hpq : q = p
    · subst hpq
      have := hA nh hbid'
      rw [hnq] at this
      cases Option.some.inj this
      exact absurd ⟨hbid', hok⟩ (hE nh0)
    · rw [if_neg hpq]
      exact hA nh hbid'
  · intro nh hrev
    obtain ⟨hnot, hold⟩ := (hr nh).mp hrev
    rw [hn]
    by_cases hpq : q = p
    · subst hpq
      have := hB nh hold
      rw [hnq] at this
      exact absurd ⟨(Option.some.inj this).symm, rfl⟩ hnot
    · rw [if_neg hpq]
      exact hB nh hold
  · intro nh hj
    have hj' : ownJust s nh0 ow nh p := hj
    rw [hn]
    by_cases hpq : q = p
    · subst hpq
      have := hC nh hj'
      rw [hnq] at this
      cases Option.some.inj this
      exact absurd ⟨hok, hj'⟩ (hG nh0)
    · rw [if_neg hpq]
      exact hC nh hj'
  · intro nh
    rw [hn]
    by_cases hpq : q = p
    · subst hpq
      rw [if_pos rfl]
      intro h
      cases h
    · rw [if_neg hpq]
      intro hsome
      rcases hD nh hsome with h | h | h
      · exact Or.inl h
      · refine Or.inr (Or.inl ((hr nh).mpr ⟨?_, h⟩))
        rintro ⟨rfl, rfl⟩
        exact hpq rfl
      · exact Or.inr (Or.inr h)
  · intro nh
    rintro ⟨hbid, hrev⟩
    exact hE nh ⟨hbid, ((hr nh).mp hrev).2⟩
  · intro nh
    rintro ⟨hbid, hj⟩
    exact hF nh ⟨hbid, hj⟩
  · intro nh
    rintro ⟨hrev, hj⟩
    exact hG nh ⟨((hr nh).mp hrev).2, hj⟩

theorem invGen_step_addOwner (s : Store) (nh0 : Bytes) (ow : Option Outpoint)
    (q : Outpoint) (hI : InvGen s nh0 ow) (hfresh : kget s.n q = none)
    (howe : ow = none) :
    InvGen { s with n := kput s.n q nh0 } nh0 (some q) := by
  intro p
  obtain ⟨hA, hB, hC, hD, hE, hF, hG⟩ := hI p
  have hn : ∀ p' : Outpoint,
      kget ({ s with n := kput s.n q nh0 } : Store).n p' =
        if q = p' then some nh0 else kget s.n p' := fun p' => kget_kput s.n q p' nh0
  refine ⟨?_, ?_, ?_, ?_, ?_, ?_, ?_⟩
  · intro nh hbid
    have hbid' : bidAt s nh p := hbid
    rw [hn]
    by_cases hpq : q = p
    · subst hpq
      rw [hA nh hbid'] at hfresh
      exact Option.noConfusion hfresh
    · rw [if_neg hpq]
      exact hA nh hbid'
  · intro nh hrev
    have hrev' : revAt s nh p := hrev
    rw [hn]
    by_cases hpq : q = p
    · subst hpq
      rw [hB nh hrev'] at hfresh
      exact Option.noConfusion hfresh
    · rw [if_neg hpq]
      exact hB nh hrev'
  · intro nh hj
    rw [hn]
    unfold ownJust at hj
    by_cases hnh : nh = nh0
    · rw [if_pos hnh] at hj
      have hpq : q = p := Option.some.inj hj
      subst hpq
      rw [if_pos rfl, hnh]
    · rw [if_neg hnh] at hj
      have hj' : ownJust s nh0 ow nh p := by
        unfold ownJust
        rw [if_neg hnh]
        exact hj
      by_cases hpq : q = p
      · subst hpq
        rw [hC nh hj'] at hfresh
        exact Option.noConfusion hfresh
      · rw [if_neg hpq]
        exact hC nh hj'
  · intro nh
    rw [hn]
    by_cases hpq : q = p
    · subst hpq
      rw [if_pos rfl]
      intro hsome
      have hnh : nh = nh0 := (Option.some.inj hsome).symm
      subst hnh
      refine Or.inr (Or.inr ?_)
      unfold ownJust
      rw [if_pos rfl]
    · rw [if_neg hpq]
      intro hsome
      rcases hD nh hsome with h | h | h
      · exact Or.inl h
      · exact Or.inr (Or.inl h)
      · refine Or.inr (Or.inr ?_)
        unfold ownJust at h ⊢
        by_cases hnh : nh = nh0
        · rw [if_pos hnh] at h
          rw [howe] at h
          exact Option.noConfusion h
        · rw [if_neg hnh] at h
          rw [if_neg hnh]
          exact h
  · intro nh
    rintro ⟨hbid, hrev⟩
    exact hE nh ⟨hbid, hrev⟩
  · intro nh
    rintro ⟨hbid, hj⟩
    have hbid' : bidAt s nh p := hbid
    unfold ownJust at hj
    by_cases hnh : nh = nh0
    · rw [if_pos hnh] at hj
      have hpq : q = p := Option.some.inj hj
      subst hpq
      rw [hA nh hbid'] at hfresh
      exact Option.noConfusion hfresh
    · rw [if_neg hnh] at hj
      refine hF nh ⟨hbid', ?_⟩
      unfold ownJust
      rw [if_neg hnh]
      exact hj
  · intro nh
    rintro ⟨hrev, hj⟩
    have hrev' : revAt s nh p := hrev
    unfold ownJust at hj
    by_cases hnh : nh = nh0
    · rw [if_pos hnh] at hj
      have hpq : q = p := Option.some.inj hj
      subst hpq
      rw [hB nh hrev'] at hfresh
      exact Option.noConfusion hfresh
    · rw [if_neg hnh] at hj
      refine hG nh ⟨hrev', ?_⟩
      unfold ownJust
      rw [if_neg hnh]
      exact hj

theorem invGen_step_removeOwner (s : Store) (nh0 : Bytes) (ow : Option Outpoint)
    (q : Outpoint) (hI : InvGen s nh0 ow) (hok : ow = some q) :
    InvGen { s with n := kdel s.n q } nh0 none := by
  have hjq : ownJust s nh0 ow nh0 q := by
    unfold ownJust
    rw [if_pos rfl]
    exact hok
  have hnq : kget s.n q = some nh0 := (hI q).2.2.1 nh0 hjq
  intro p
  obtain ⟨hA, hB, hC, hD, hE, hF, hG⟩ := hI p
  have hn : ∀ p' : Outpoint,
      kget ({ s with n := kdel s.n q } : Store).n p' =
        if q = p' then none else kget s.n p' := fun p' => kget_kdel s.n q p'
  refine ⟨?_, ?_, ?_, ?_, ?_, ?_, ?_⟩
  · intro nh hbid
    have hbid' : bidAt s nh p := hbid
    rw [hn]
    by_cases hpq : q = p
    · subst hpq
      have := hA nh hbid'
      rw [hnq] at this
      cases Option.some.inj this
      exact absurd ⟨hbid', hjq⟩ (hF nh0)
    · rw [if_neg hpq]
      exact hA nh hbid'
  · intro nh hrev
    have hrev' : revAt s nh p := hrev
    rw [hn]
    by_cases hpq : q = p
    · subst hpq
      have := hB nh hrev'
      rw [hnq] at this
      cases Option.some.inj this
      exact absurd ⟨hrev', hjq⟩ (hG nh0)
    · rw [if_neg hpq]
      exact hB nh hrev'
  · intro nh hj
    unfold ownJust at hj
    by_cases hnh : nh = nh0
    · rw [if_pos hnh] at hj
      exact Option.noConfusion hj
    · rw [if_neg hnh] at hj
      have hj' : ownJust s nh0 ow nh p := by
        unfold ownJust
        rw [if_neg hnh]
        exact hj
      rw [hn]
      by_cases hpq : q = p
      · subst hpq
        have := hC nh hj'
        rw [hnq] at this
        exact absurd (Option.some.inj this).symm hnh
      · rw [if_neg hpq]
        exact hC nh hj'
  · intro nh
    rw [hn]
    by_cases hpq : q = p
    · subst hpq
      rw [if_pos rfl]
      intro h
      cases h
    · rw [if_neg hpq]
      intro hsome
      rcases hD nh hsome with h | h | h
      · exact Or.inl h
      · exact Or.inr (Or.inl h)
      · refine Or.inr (Or.inr ?_)
        unfold ownJust at h ⊢
        by_cases hnh : nh = nh0
        · rw [if_pos hnh] at h
          rw [hok] at h
          have := Option.some.inj h
          exact absurd this hpq
        · rw [if_neg hnh] at h
          rw [if_neg hnh]
          exact h
  · intro nh
    rintro ⟨hbid, hrev⟩
    exact hE nh ⟨hbid, hrev⟩
  · intro nh
    rintro ⟨hbid, hj⟩
    unfold ownJust at hj
    by_cases hnh : nh = nh0
    · rw [if_pos hnh] at hj
      exact Option.noConfusion hj
    · rw [if_neg hnh] at hj
      refine hF nh ⟨hbid, ?_⟩
      unfold ownJust
      rw [if_neg hnh]
      exact hj
  · intro nh
    rintro ⟨hrev, hj⟩
    unfold ownJust at hj
    by_cases hnh : nh = nh0
    · rw [if_pos hnh] at hj
      exact Option.noConfusion hj
    · rw [if_neg hnh] at hj
      refine hG nh ⟨hrev, ?_⟩
      unfold ownJust
      rw [if_neg hnh]
      exact hj

theorem invGen_congr (s s' : Store) (nh0 : Bytes) (ow : Option Outpoint)
    (hn : s'.n = s.n) (hb : s'.b = s.b) (hr : s'.r = s.r)
    (ha : ∀ nh, nh ≠ nh0 → kget s'.a nh = kget s.a nh)
    (hI : InvGen s nh0 ow) : InvGen s' nh0 ow := by
  have e1 : ∀ nh p, bidAt s' nh p ↔ bidAt s nh p := by
    intro nh p
    unfold bidAt
    rw [hb]
  have e2 : ∀ nh p, revAt s' nh p ↔ revAt s nh p := by
    intro nh p
    unfold revAt
    rw [hr]
  have e4 : ∀ nh p, ownJust s' nh0 ow nh p ↔ ownJust s nh0 ow nh p := by
    intro nh p
    unfold ownJust
    by_cases hnh : nh = nh0
    · rw [if_pos hnh, if_pos hnh]
    · rw [if_neg hnh, if_neg hnh]
      unfold ownerOf
      rw [ha nh hnh]
  intro p
  obtain ⟨hA, hB, hC, hD, hE, hF, hG⟩ := hI p
  refine ⟨?_, ?_, ?_, ?_, ?_, ?_, ?_⟩
  · intro nh h
    rw [hn]
    exact hA nh ((e1 nh p).mp h)
  · intro nh h
    rw [hn]
    exact hB nh ((e2 nh p).mp h)
  · intro nh h
    rw [hn]
    exact hC nh ((e4 nh p).mp h)
  · intro nh h
    rw [hn] at h
    rcases hD nh h with h' | h' | h'
    · exact Or.inl ((e1 nh p).mpr h')
    · exact Or.inr (Or.inl ((e2 nh p).mpr h'))
    · exact Or.inr (Or.inr ((e4 nh p).mpr h'))
  · intro nh
    rintro ⟨h1, h2⟩
    exact hE nh ⟨(e1 nh p).mp h1, (e2 nh p).mp h2⟩
  · intro nh
    rintro ⟨h1, h2⟩
    exact hF nh ⟨(e1 nh p).mp h1, (e4 nh p).mp h2⟩
  · intro nh
    rintro ⟨h1, h2⟩
    exact hG nh ⟨(e2 nh p).mp h1, (e4 nh p).mp h2⟩

/-- One pending op whose side condition holds preserves the generalized
bijection invariant, moving the running owner along. -/
theorem invGen_step (s : Store) (nh0 : Bytes) (ow : Option Outpoint)
    (rec : AuctionRec) (o : Op) (hI : InvGen s nh0 ow) (hok : opOK s nh0 ow o) :
    InvGen (applyOp nh0 rec s o) nh0 (ownerStep ow o) := by
  cases o with
  | ADD_AUCTION =>
    refine invGen_congr s _ nh0 ow rfl rfl rfl (fun nh hnh => ?_) hI
    show kget (kput s.a nh0 rec) nh = kget s.a nh
    rw [kget_kput, if_neg (fun hh => hnh hh.symm)]
  | REMOVE_AUCTION =>
    refine invGen_congr s _ nh0 ow rfl rfl rfl (fun nh hnh => ?_) hI
    show kget (kdel s.a nh0) nh = kget s.a nh
    rw [kget_kdel, if_neg (fun hh => hnh hh.symm)]
  | ADD_BID q => exact invGen_step_addBid s nh0 ow q hI hok
  | REMOVE_BID q => exact invGen_step_removeBid s nh0 ow q hI hok
  | ADD_REVEAL q value => exact invGen_step_addReveal s nh0 ow q value hI hok
  | REMOVE_REVEAL q => exact invGen_step_removeReveal s nh0 ow q hI hok
  | ADD_OWNER q => exact invGen_step_addOwner s nh0 ow q hI hok.1 hok.2
  | REMOVE_OWNER q => exact invGen_step_removeOwner s nh0 ow q hI hok
  | COMMIT d => exact invGen_congr s _ nh0 ow rfl rfl rfl (fun _ _ => rfl) hI
  | UNCOMMIT => exact invGen_congr s _ nh0 ow rfl rfl rfl (fun _ _ => rfl) hI
  | ADD_UNDO q rec' => exact invGen_congr s _ nh0 ow rfl rfl rfl (fun _ _ => rfl) hI
  | REMOVE_UNDO q => exact invGen_congr s _ nh0 ow rfl rfl rfl (fun _ _ => rfl) hI
  | ADD_RENEWAL q value => exact invGen_congr s _ nh0 ow rfl rfl rfl (fun _ _ => rfl) hI
  | REMOVE_RENEWAL q => exact invGen_congr s _ nh0 ow rfl rfl rfl (fun _ _ => rfl) hI

/-- Replaying a good op script preserves the generalized invariant. -/
theorem invGen_replay (nh0 : Bytes) (rec : AuctionRec) :
    ∀ (ops : List Op) (s : Store) (ow : Option Outpoint),
    InvGen s nh0 ow → OpsOK nh0 rec s ow ops →
    InvGen (ops.foldl (applyOp nh0 rec) s) nh0 (ownerAfter ow ops) := by
  intro ops
  induction ops with
  | nil =>
    intro s ow hI _
    exact hI
  | cons o rest ih =>
    intro s ow hI hok
    exact ih _ _ (invGen_step s nh0 ow rec o hI hok.1) hok.2

theorem inv_invGen (s : Store) (nh0 : Bytes) (hI : Inv s) :
    InvGen s nh0 (ownerOf s nh0) := by
  have hj : ∀ nh p, ownJust s nh0 (ownerOf s nh0) nh p ↔ ownerOf s nh = some p := by
    intro nh p
    unfold ownJust
    by_cases hnh : nh = nh0
    · rw [if_pos hnh, hnh]
    · rw [if_neg hnh]
  intro p
  obtain ⟨hA, hB, hC, hD, hE, hF, hG⟩ := hI p
  refine ⟨hA, hB, ?_, ?_, hE, ?_, ?_⟩
  · intro nh h
    exact hC nh ((hj nh p).mp h)
  · intro nh h
    rcases hD nh h with h' | h' | h'
    · exact Or.inl h'
    · exact Or.inr (Or.inl h')
    · exact Or.inr (Or.inr ((hj nh p).mpr h'))
  · intro nh
    rintro ⟨h1, h2⟩
    exact hF nh ⟨h1, (hj nh p).mp h2⟩
  · intro nh
    rintro ⟨h1, h2⟩
    exact hG nh ⟨h1, (hj nh p).mp h2⟩

theorem invGen_inv (s : Store) (nh0 : Bytes) (ow : Option Outpoint)
    (hI : InvGen s nh0 ow) (hfin : ownerOf s nh0 = ow) : Inv s := by
  have hj : ∀ nh p, ownJust s nh0 ow nh p ↔ ownerOf s nh = some p := by
    intro nh p
    unfold ownJust
    by_cases hnh : nh = nh0
    · rw [if_pos hnh, hnh, hfin]
    · rw [if_neg hnh]
  intro p
  obtain ⟨hA, hB, hC, hD, hE, hF, hG⟩ := hI p
  refine ⟨hA, hB, ?_, ?_, hE, ?_, ?_⟩
  · intro nh h
    exact hC nh ((hj nh p).mpr h)
  · intro nh h
    rcases hD nh h with h' | h' | h'
    · exact Or.inl h'
    · exact Or.inr (Or.inl h')
    · exact Or.inr (Or.inr ((hj nh p).mp h'))
  · intro nh
    rintro ⟨h1, h2⟩
    exact hF nh ⟨h1, (hj nh p).mpr h2⟩
  · intro nh
    rintro ⟨h1, h2⟩
    exact hG nh ⟨h1, (hj nh p).mpr h2⟩

/-- Flushing one auction whose op log is a good script preserves the
bijection invariant, provided the flushed record's owner agrees with the
script's final running owner. -/
theorem inv_saveAuction (s : Store) (a : Auction) (hI : Inv s)
    (hops : OpsOK a.nameHash a.record s (ownerOf s a.nameHash) a.ops)
    (hfin : ownerOf (saveAuction s a) a.nameHash =
      ownerAfter (ownerOf s a.nameHash) a.ops) :
    Inv (saveAuction s a) :=
  invGen_inv _ _ _
    (invGen_replay a.nameHash a.record a.ops s _ (inv_invGen s a.nameHash hI) hops) hfin

/-! ### Frame and agreement lemmas for flushes -/

theorem applyOp_agree_n (nh0 : Bytes) (rec : AuctionRec) (o : Op) (s₁ s₂ : Store)
    (p : Outpoint) (h : kget s₁.n p = kget s₂.n p) :
    kget (applyOp nh0 rec s₁ o).n p = kget (applyOp nh0 rec s₂ o).n p := by
  cases o <;> simp [applyOp, kget_kput, kget_kdel, h]

theorem applyOp_agree_b (nh0 : Bytes) (rec : AuctionRec) (o : Op) (s₁ s₂ : Store)
    (pr : Bytes × Outpoint) (h : kget s₁.b pr = kget s₂.b pr) :
    kget (applyOp nh0 rec s₁ o).b pr = kget (applyOp nh0 rec s₂ o).b pr := by
  cases o <;> simp [applyOp, kget_kput, kget_kdel, h]

theorem applyOp_agree_r (nh0 : Bytes) (rec : AuctionRec) (o : Op) (s₁ s₂ : Store)
    (pr : Bytes × Outpoint) (h : kget s₁.r pr = kget s₂.r pr) :
    kget (applyOp nh0 rec s₁ o).r pr = kget (applyOp nh0 rec s₂ o).r pr := by
  cases o <;> simp [applyOp, kget_kput, kget_kdel, h]

theorem applyOp_agree_a (nh0 : Bytes) (rec : AuctionRec) (o : Op) (s₁ s₂ : Store)
    (nh : Bytes) (h : kget s₁.a nh = kget s₂.a nh) :
    kget (applyOp nh0 rec s₁ o).a nh = kget (applyOp nh0 rec s₂ o).a nh := by
  cases o <;> simp [applyOp, kget_kput, kget_kdel, h]

theorem flush_agree_a (nh0 : Bytes) (rec : AuctionRec) :
    ∀ (ops : List Op) (s₁ s₂ : Store) (nh : Bytes),
    kget s₁.a nh = kget s₂.a nh →
    kget (ops.foldl (applyOp nh0 rec) s₁).a nh =
      kget (ops.foldl (applyOp nh0 rec) s₂).a nh := by
  intro ops
  induction ops with
  | nil => intro s₁ s₂ nh h; exact h
  | cons o rest ih =>
    intro s₁ s₂ nh h
    exact ih (applyOp nh0 rec s₁ o) (applyOp nh0 rec s₂ o) nh
      (applyOp_agree_a nh0 rec o s₁ s₂ nh h)

theorem ownerOf_congr (s₁ s₂ : Store) (nh : Bytes)
    (h : kget s₁.a nh = kget s₂.a nh) : ownerOf s₁ nh = ownerOf s₂ nh := by
  unfold ownerOf
  rw [h]

theorem applyOp_frame_n (nh0 : Bytes) (rec : AuctionRec) (s : Store) (o : Op)
    (p : Outpoint) (hp : p ∉ opTouches o) :
    kget (applyOp nh0 rec s o).n p = kget s.n p := by
  have hne : ∀ q : Outpoint, p ∉ [q] → ¬(q = p) :=
    fun q hq hh => hq (hh ▸ List.mem_singleton_self q)
  cases o with
  | ADD_AUCTION => rfl
  | REMOVE_AUCTION => rfl
  | ADD_BID q =>
    show kget (kput s.n q nh0) p = kget s.n p
    rw [kget_kput, if_neg (hne q hp)]
  | REMOVE_BID q =>
    show kget (kdel s.n q) p = kget s.n p
    rw [kget_kdel, if_neg (hne q hp)]
  | ADD_REVEAL q v =>
    show kget (kput s.n q nh0) p = kget s.n p
    rw [kget_kput, if_neg (hne q hp)]
  | REMOVE_REVEAL q =>
    show kget (kdel s.n q) p = kget s.n p
    rw [kget_kdel, if_neg (hne q hp)]
  | ADD_OWNER q =>
    show kget (kput s.n q nh0) p = kget s.n p
    rw [kget_kput, if_neg (hne q hp)]
  | REMOVE_OWNER q =>
    show kget (kdel s.n q) p = kget s.n p
    rw [kget_kdel, if_neg (hne q hp)]
  | COMMIT d => rfl
  | UNCOMMIT => rfl
  | ADD_UNDO q rec' => rfl
  | REMOVE_UNDO q => rfl
  | ADD_RENEWAL q v => rfl
  | REMOVE_RENEWAL q => rfl

theorem applyOp_frame_b (nh0 : Bytes) (rec : AuctionRec) (s : Store) (o : Op)
    (nh : Bytes) (p : Outpoint) (hnh : nh ≠ nh0) :
    kget (applyOp nh0 rec s o).b (nh, p) = kget s.b (nh, p) := by
  have hne : ∀ q : Outpoint, ¬((nh0, q) = (nh, p)) :=
    fun q hh => hnh (congrArg Prod.fst hh).symm
  cases o with
  | ADD_BID q =>
    show kget (kput s.b (nh0, q) ()) (nh, p) = kget s.b (nh, p)
    rw [kget_kput, if_neg (hne q)]
  | REMOVE_BID q =>
    show kget (kdel s.b (nh0, q)) (nh, p) = kget s.b (nh, p)
    rw [kget_kdel, if_neg (hne q)]
  | _ => rfl

theorem applyOp_frame_r (nh0 : Bytes) (rec : AuctionRec) (s : Store) (o : Op)
    (nh : Bytes) (p : Outpoint) (hnh : nh ≠ nh0) :
    kget (applyOp nh0 rec s o).r (nh, p) = kget s.r (nh, p) := by
  have hne : ∀ q : Outpoint, ¬((nh0, q) = (nh, p)) :=
    fun q hh => hnh (congrArg Prod.fst hh).symm
  cases o with
  | ADD_REVEAL q v =>
    show kget (kput s.r (nh0, q) v) (nh, p) = kget s.r (nh, p)
    rw [kget_kput, if_neg (hne q)]
  | REMOVE_REVEAL q =>
    show kget (kdel s.r (nh0, q)) (nh, p) = kget s.r (nh, p)
    rw [kget_kdel, if_neg (hne q)]
  | _ => rfl

theorem applyOp_frame_a (nh0 : Bytes) (rec : AuctionRec) (s : Store) (o : Op)
    (nh : Bytes) (hnh : nh ≠ nh0) :
    kget (applyOp nh0 rec s o).a nh = kget s.a nh := by
  have hne : ¬(nh0 = nh) := fun hh => hnh hh.symm
  cases o with
  | ADD_AUCTION =>
    show kget (kput s.a nh0 rec) nh = kget s.a nh
    rw [kget_kput, if_neg hne]
  | REMOVE_AUCTION =>
    show kget (kdel s.a nh0) nh = kget s.a nh
    rw [kget_kdel, if_neg hne]
  | _ => rfl

theorem flush_frame_n (nh0 : Bytes) (rec : AuctionRec) :
    ∀ (ops : List Op) (s : Store) (p : Outpoint), p ∉ opsTouches ops →
    kget (ops.foldl (applyOp nh0 rec) s).n p = kget s.n p := by
  intro ops
  induction ops with
  | nil => intro s p _; rfl
  | cons o rest ih =>
    intro s p hp
    have h1 : p ∉ opTouches o := fun hh => hp (List.mem_append_left _ hh)
    have h2 : p ∉ opsTouches rest := fun hh => hp (List.mem_append_right _ hh)
    exact (ih (applyOp nh0 rec s o) p h2).trans (applyOp_frame_n nh0 rec s o p h1)

theorem flush_frame_b (nh0 : Bytes) (rec : AuctionRec) :
    ∀ (ops : List Op) (s : Store) (nh : Bytes) (p : Outpoint), nh ≠ nh0 →
    kget (ops.foldl (applyOp nh0 rec) s).b (nh, p) = kget s.b (nh, p) := by
  intro ops
  induction ops with
  | nil => intro s nh p _; rfl
  | cons o rest ih =>
    intro s nh p hnh
    exact (ih (applyOp nh0 rec s o) nh p hnh).trans
      (applyOp_frame_b nh0 rec s o nh p hnh)

theorem flush_frame_r (nh0 : Bytes) (rec : AuctionRec) :
    ∀ (ops : List Op) (s : Store) (nh : Bytes) (p : Outpoint), nh ≠ nh0 →
    kget (ops.foldl (applyOp nh0 rec) s).r (nh, p) = kget s.r (nh, p) := by
  intro ops
  induction ops with
  | nil => intro s nh p _; rfl
  | cons o rest ih =>
    intro s nh p hnh
    exact (ih (applyOp nh0 rec s o) nh p hnh).trans
      (applyOp_frame_r nh0 rec s o nh p hnh)

theorem flush_frame_a (nh0 : Bytes) (rec : AuctionRec) :
    ∀ (ops : List Op) (s : Store) (nh : Bytes), nh ≠ nh0 →
    kget (ops.foldl (applyOp nh0 rec) s).a nh = kget s.a nh := by
  intro ops
  induction ops with
  | nil => intro s nh _; rfl
  | cons o rest ih =>
    intro s nh hnh
    exact (ih (applyOp nh0 rec s o) nh hnh).trans
      (applyOp_frame_a nh0 rec s o nh hnh)

/-- A good script for auction `nh0` stays good across a change of base store
that agrees with the original on the reverse index, bid and reveal records
of every outpoint in the script's footprint. -/
theorem OpsOK_frame (nh0 : Bytes) (rec : AuctionRec) :
    ∀ (ops : List Op) (s₁ s₂ : Store) (ow : Option Outpoint),
    (∀ p ∈ opsTouches ops,
      kget s₁.n p = kget s₂.n p ∧ kget s₁.b (nh0, p) = kget s₂.b (nh0, p) ∧
      kget s₁.r (nh0, p) = kget s₂.r (nh0, p)) →
    OpsOK nh0 rec s₁ ow ops → OpsOK nh0 rec s₂ ow ops := by
  intro ops
  induction ops with
  | nil => intro s₁ s₂ ow _ _; trivial
  | cons o rest ih =>
    intro s₁ s₂ ow hag hok
    have hhd : ∀ p ∈ opTouches o,
        kget s₁.n p = kget s₂.n p ∧ kget s₁.b (nh0, p) = kget s₂.b (nh0, p) ∧
        kget s₁.r (nh0, p) = kget s₂.r (nh0, p) :=
      fun p hp => hag p (List.mem_append_left _ hp)
    refine ⟨?_, ?_⟩
    · cases o with
      | ADD_BID q =>
        exact ((hhd q (List.mem_singleton_self q)).1).symm.trans hok.1
      | REMOVE_BID q =>
        exact fun hh => hok.1 (((hhd q (List.mem_singleton_self q)).2.1).trans hh)
      | ADD_REVEAL q v =>
        exact ((hhd q (List.mem_singleton_self q)).1).symm.trans hok.1
      | REMOVE_REVEAL q =>
        exact fun hh => hok.1 (((hhd q (List.mem_singleton_self q)).2.2).trans hh)
      | ADD_OWNER q =>
        exact ⟨((hhd q (List.mem_singleton_self q)).1).symm.trans hok.1.1, hok.1.2⟩
      | REMOVE_OWNER q => exact hok.1
      | ADD_AUCTION => trivial
      | REMOVE_AUCTION => trivial
      | COMMIT d => trivial
      | UNCOMMIT => trivial
      | ADD_UNDO q rec' => trivial
      | REMOVE_UNDO q => trivial
      | ADD_RENEWAL q v => trivial
      | REMOVE_RENEWAL q => trivial
    · refine ih (applyOp nh0 rec s₁ o) (applyOp nh0 rec s₂ o) (ownerStep ow o)
        (fun p hp => ?_) hok.2
      have h3 := hag p (List.mem_append_right _ hp)
      exact ⟨applyOp_agree_n nh0 rec o s₁ s₂ p h3.1,
        applyOp_agree_b nh0 rec o s₁ s₂ (nh0, p) h3.2.1,
        applyOp_agree_r nh0 rec o s₁ s₂ (nh0, p) h3.2.2⟩

/-- Flushing a whole per-block view preserves the bijection invariant,
provided every cached auction is good to flush against the base store and
the cached auctions are pairwise separated. -/
theorem inv_saveView (v : View) :
    ∀ s : Store, Inv s →
    (∀ kv ∈ v, FlushGood s kv.1 kv.2) →
    ViewSep v →
    Inv (saveView s v) := by
  induction v with
  | nil => intro s hI _ _; exact hI
  | cons kv rest ih =>
    intro s hI hgood hsep
    obtain ⟨hnh, hops, hfin⟩ := hgood kv (List.mem_cons_self kv rest)
    have hInv1 : Inv (saveAuction s kv.2) := by
      refine inv_saveAuction s kv.2 hI ?_ ?_
      · rw [hnh]
        exact hops
      · rw [hnh]
        exact hfin
    show Inv (saveView (saveAuction s kv.2) rest)
    obtain ⟨hrel, hrest⟩ := List.pairwise_cons.mp hsep
    refine ih (saveAuction s kv.2) hInv1 (fun kv' hkv' => ?_) hrest
    obtain ⟨hnh', hops', hfin'⟩ := hgood kv' (List.mem_cons_of_mem _ hkv')
    obtain ⟨hne, hdisj⟩ := hrel kv' hkv'
    have hne' : kv'.1 ≠ kv.2.nameHash := by
      rw [hnh]
      exact hne.symm
    have hA : kget (saveAuction s kv.2).a kv'.1 = kget s.a kv'.1 :=
      flush_frame_a kv.2.nameHash kv.2.record kv.2.ops s kv'.1 hne'
    have hOw : ownerOf (saveAuction s kv.2) kv'.1 = ownerOf s kv'.1 :=
      ownerOf_congr _ _ _ hA
    have hag : ∀ p ∈ opsTouches kv'.2.ops,
        kget s.n p = kget (saveAuction s kv.2).n p ∧
        kget s.b (kv'.1, p) = kget (saveAuction s kv.2).b (kv'.1, p) ∧
        kget s.r (kv'.1, p) = kget (saveAuction s kv.2).r (kv'.1, p) := by
      intro p hp
      have hp' : p ∉ opsTouches kv.2.ops := fun hin => hdisj p hin hp
      exact ⟨(flush_frame_n kv.2.nameHash kv.2.record kv.2.ops s p hp').symm,
        (flush_frame_b kv.2.nameHash kv.2.record kv.2.ops s kv'.1 p hne').symm,
        (flush_frame_r kv.2.nameHash kv.2.record kv.2.ops s kv'.1 p hne').symm⟩
    refine ⟨hnh', ?_, ?_⟩
    · rw [hOw]
      exact OpsOK_frame kv'.1 kv'.2.record kv'.2.ops s (saveAuction s kv.2)
        (ownerOf s kv'.1) hag hops'
    · rw [hOw]
      have hAgree : kget (saveAuction (saveAuction s kv.2) kv'.2).a kv'.1 =
          kget (saveAuction s kv'.2).a kv'.1 :=
        flush_agree_a kv'.2.nameHash kv'.2.record kv'.2.ops
          (saveAuction s kv.2) s kv'.1 hA
      rw [ownerOf_congr _ _ _ hAgree]
      exact hfin'

/-! ### Script-algebra lemmas -/

theorem ownerAfter_append (ow : Option Outpoint) (ops₁ ops₂ : List Op) :
    ownerAfter ow (ops₁ ++ ops₂) = ownerAfter (ownerAfter ow ops₁) ops₂ := by
  unfold ownerAfter
  rw [List.foldl_append]

theorem ownerAfter_cases (ops : List Op) : ∀ (ow : Option Outpoint) (q : Outpoint),
    ownerAfter ow ops = some q → Op.ADD_OWNER q ∈ ops ∨ ow = some q := by
  induction ops with
  | nil => intro ow q h; exact Or.inr h
  | cons o rest ih =>
    intro ow q h
    rcases ih (ownerStep ow o) q h with h1 | h1
    · exact Or.inl (List.mem_cons_of_mem _ h1)
    · cases o with
      | ADD_OWNER r =>
        have : r = q := Option.some.inj h1
        exact Or.inl (this ▸ List.mem_cons_self _ _)
      | REMOVE_OWNER r => exact absurd h1 (by simp [ownerStep])
      | ADD_AUCTION => exact Or.inr h1
      | REMOVE_AUCTION => exact Or.inr h1
      | ADD_BID p => exact Or.inr h1
      | REMOVE_BID p => exact Or.inr h1
      | ADD_REVEAL p val => exact Or.inr h1
      | REMOVE_REVEAL p => exact Or.inr h1
      | COMMIT d => exact Or.inr h1
      | UNCOMMIT => exact Or.inr h1
      | ADD_UNDO p r => exact Or.inr h1
      | REMOVE_UNDO p => exact Or.inr h1
      | ADD_RENEWAL p val => exact Or.inr h1
      | REMOVE_RENEWAL p => exact Or.inr h1

theorem mem_opsTouches (ops : List Op) : ∀ o ∈ ops, ∀ p ∈ opTouches o,
    p ∈ opsTouches ops := by
  induction ops with
  | nil => intro o ho; exact absurd ho (List.not_mem_nil o)
  | cons o' rest ih =>
    intro o ho p hp
    rcases List.mem_cons.mp ho with h1 | h1
    · exact List.mem_append_left _ (h1 ▸ hp)
    · exact List.mem_append_right _ (ih o h1 p hp)

theorem opsTouches_append (ops₁ ops₂ : List Op) :
    opsTouches (ops₁ ++ ops₂) = opsTouches ops₁ ++ opsTouches ops₂ := by
  induction ops₁ with
  | nil => rfl
  | cons o rest ih =>
    show opTouches o ++ opsTouches (rest ++ ops₂) = _
    rw [ih]
    exact (List.append_assoc _ _ _).symm

theorem OpsOK_append (nh : Bytes) (rec : AuctionRec) : ∀ (ops₁ ops₂ : List Op) (s : Store)
    (ow : Option Outpoint),
    OpsOK nh rec s ow (ops₁ ++ ops₂) ↔
      (OpsOK nh rec s ow ops₁ ∧
       OpsOK nh rec (ops₁.foldl (applyOp nh rec) s) (ownerAfter ow ops₁) ops₂) := by
  intro ops₁
  induction ops₁ with
  | nil =>
    intro ops₂ s ow
    exact ⟨fun h => ⟨trivial, h⟩, fun h => h.2⟩
  | cons o rest ih =>
    intro ops₂ s ow
    show (opOK s nh ow o ∧
        OpsOK nh rec (applyOp nh rec s o) (ownerStep ow o) (rest ++ ops₂)) ↔ _
    rw [ih ops₂ (applyOp nh rec s o) (ownerStep ow o)]
    exact ⟨fun h => ⟨⟨h.1, h.2.1⟩, h.2.2⟩, fun h => ⟨h.1.1, h.1.2, h.2⟩⟩

theorem applyOp_rec_n (nh : Bytes) (rec₁ rec₂ : AuctionRec) (s : Store) (o : Op) :
    (applyOp nh rec₁ s o).n = (applyOp nh rec₂ s o).n := by
  cases o <;> rfl

theorem applyOp_rec_b (nh : Bytes) (rec₁ rec₂ : AuctionRec) (s : Store) (o : Op) :
    (applyOp nh rec₁ s o).b = (applyOp nh rec₂ s o).b := by
  cases o <;> rfl

theorem applyOp_rec_r (nh : Bytes) (rec₁ rec₂ : AuctionRec) (s : Store) (o : Op) :
    (applyOp nh rec₁ s o).r = (applyOp nh rec₂ s o).r := by
  cases o <;> rfl

/-- The side conditions of a good script never inspect the flushed record,
so the record argument of `OpsOK` is irrelevant. -/
theorem OpsOK_rec_irrel (nh : Bytes) : ∀ (ops : List Op) (rec₁ rec₂ : AuctionRec)
    (s : Store) (ow : Option Outpoint),
    OpsOK nh rec₁ s ow ops → OpsOK nh rec₂ s ow ops := by
  intro ops
  induction ops with
  | nil => intro _ _ _ _ _; trivial
  | cons o rest ih =>
    intro rec₁ rec₂ s ow h
    refine ⟨h.1, ?_⟩
    have h2 := ih rec₁ rec₂ (applyOp nh rec₁ s o) (ownerStep ow o) h.2
    refine OpsOK_frame nh rec₂ rest (applyOp nh rec₁ s o) (applyOp nh rec₂ s o)
      (ownerStep ow o) (fun p _ => ?_) h2
    exact ⟨by rw [applyOp_rec_n nh rec₁ rec₂ s o],
      by rw [applyOp_rec_b nh rec₁ rec₂ s o],
      by rw [applyOp_rec_r nh rec₁ rec₂ s o]⟩

theorem applyOp_frame_b_out (nh0 : Bytes) (rec : AuctionRec) (s : Store) (o : Op)
    (nh : Bytes) (p : Outpoint) (hp : p ∉ opTouches o) :
    kget (applyOp nh0 rec s o).b (nh, p) = kget s.b (nh, p) := by
  have hne : ∀ q : Outpoint, p ∉ [q] → ¬((nh0, q) = (nh, p)) := by
    intro q hq hh
    refine hq ?_
    rw [List.mem_singleton]
    exact (congrArg Prod.snd hh).symm
  cases o with
  | ADD_BID q =>
    show kget (kput s.b (nh0, q) ()) (nh, p) = kget s.b (nh, p)
    rw [kget_kput, if_neg (hne q hp)]
  | REMOVE_BID q =>
    show kget (kdel s.b (nh0, q)) (nh, p) = kget s.b (nh, p)
    rw [kget_kdel, if_neg (hne q hp)]
  | _ => rfl

theorem applyOp_frame_r_out (nh0 : Bytes) (rec : AuctionRec) (s : Store) (o : Op)
    (nh : Bytes) (p : Outpoint) (hp : p ∉ opTouches o) :
    kget (applyOp nh0 rec s o).r (nh, p) = kget s.r (nh, p) := by
  have hne : ∀ q : Outpoint, p ∉ [q] → ¬((nh0, q) = (nh, p)) := by
    intro q hq hh
    refine hq ?_
    rw [List.mem_singleton]
    exact (congrArg Prod.snd hh).symm
  cases o with
  | ADD_REVEAL q val =>
    show kget (kput s.r (nh0, q) val) (nh, p) = kget s.r (nh, p)
    rw [kget_kput, if_neg (hne q hp)]
  | REMOVE_REVEAL q =>
    show kget (kdel s.r (nh0, q)) (nh, p) = kget s.r (nh, p)
    rw [kget_kdel, if_neg (hne q hp)]
  | _ => rfl

theorem flush_frame_b_out (nh0 : Bytes) (rec : AuctionRec) : ∀ (ops : List Op) (s : Store)
    (nh : Bytes) (p : Outpoint), p ∉ opsTouches ops →
    kget (ops.foldl (applyOp nh0 rec) s).b (nh, p) = kget s.b (nh, p) := by
  intro ops
  induction ops with
  | nil => intro s nh p _; rfl
  | cons o rest ih =>
    intro s nh p hp
    have h1 : p ∉ opTouches o := fun hh => hp (List.mem_append_left _ hh)
    have h2 : p ∉ opsTouches rest := fun hh => hp (List.mem_append_right _ hh)
    exact (ih (applyOp nh0 rec s o) nh p h2).trans
      (applyOp_frame_b_out nh0 rec s o nh p h1)

theorem flush_frame_r_out (nh0 : Bytes) (rec : AuctionRec) : ∀ (ops : List Op) (s : Store)
    (nh : Bytes) (p : Outpoint), p ∉ opsTouches ops →
    kget (ops.foldl (applyOp nh0 rec) s).r (nh, p) = kget s.r (nh, p) := by
  intro ops
  induction ops with
  | nil => intro s nh p _; rfl
  | cons o rest ih =>
    intro s nh p hp
    have h1 : p ∉ opTouches o := fun hh => hp (List.mem_append_left _ hh)
    have h2 : p ∉ opsTouches rest := fun hh => hp (List.mem_append_right _ hh)
    exact (ih (applyOp nh0 rec s o) nh p h2).trans
      (applyOp_frame_r_out nh0 rec s o nh p h1)

theorem applyOp_a_other (nh : Bytes) (rec : AuctionRec) (s : Store) (o : Op)
    (h1 : o ≠ Op.ADD_AUCTION) (h2 : o ≠ Op.REMOVE_AUCTION) :
    (applyOp nh rec s o).a = s.a := by
  cases o <;> first | rfl | exact absurd rfl h1 | exact absurd rfl h2

/-- After a flush, the stored owner of the auction is the flushed record's
owner when the script saves the record, else the prior stored owner. -/
theorem flush_ownerOf (nh : Bytes) (rec : AuctionRec) : ∀ (ops : List Op) (s : Store),
    Op.REMOVE_AUCTION ∉ ops →
    ownerOf (ops.foldl (applyOp nh rec) s) nh =
      if Op.ADD_AUCTION ∈ ops then rec.owner else ownerOf s nh := by
  intro ops
  induction ops with
  | nil =>
    intro s _
    rw [if_neg (List.not_mem_nil _)]
    rfl
  | cons o rest ih =>
    intro s h
    have hrest : Op.REMOVE_AUCTION ∉ rest := fun hh => h (List.mem_cons_of_mem _ hh)
    by_cases ho : o = Op.ADD_AUCTION
    · subst ho
      rw [if_pos (List.mem_cons_self _ _)]
      rw [show (Op.ADD_AUCTION :: rest).foldl (applyOp nh rec) s =
        rest.foldl (applyOp nh rec) (applyOp nh rec s Op.ADD_AUCTION) from rfl]
      rw [ih _ hrest]
      by_cases hA : Op.ADD_AUCTION ∈ rest
      · rw [if_pos hA]
      · rw [if_neg hA]
        show (match kget (kput s.a nh rec) nh with
          | some r => r.owner
          | none => none) = rec.owner
        rw [kget_kput_self]
    · have ho2 : o ≠ Op.REMOVE_AUCTION := fun hh => h (hh ▸ List.mem_cons_self _ _)
      rw [show (o :: rest).foldl (applyOp nh rec) s =
        rest.foldl (applyOp nh rec) (applyOp nh rec s o) from rfl]
      rw [ih _ hrest]
      have hOw : ownerOf (applyOp nh rec s o) nh = ownerOf s nh := by
        unfold ownerOf
        rw [applyOp_a_other nh rec s o ho ho2]
      rw [hOw]
      by_cases hA : Op.ADD_AUCTION ∈ rest
      · rw [if_pos hA, if_pos (List.mem_cons_of_mem _ hA)]
      · rw [if_neg hA, if_neg ?_]
        intro hh
        rcases List.mem_cons.mp hh with h1 | h1
        · exact ho h1.symm
        · exact hA h1

/-! ### The block-level view invariant -/

theorem inv_empty : Inv Store.empty :=
  fun _ => ⟨fun _ h => absurd rfl h, fun _ h => absurd rfl h,
    fun _ h => Option.noConfusion h, fun _ h => Option.noConfusion h,
    fun _ h => absurd rfl h.1, fun _ h => absurd rfl h.1, fun _ h => absurd rfl h.1⟩

theorem viewSep_rel (v : View) (hs : ViewSep v) :
    ∀ x ∈ v, ∀ y ∈ v, x.1 ≠ y.1 →
      ∀ p ∈ opsTouches x.2.ops, p ∉ opsTouches y.2.ops := by
  unfold ViewSep at hs
  intro x hx y hy hne
  have hsym : Symmetric (fun x y : Bytes × Auction => x.1 ≠ y.1 ∧
      ∀ p ∈ opsTouches x.2.ops, p ∉ opsTouches y.2.ops) := by
    intro a b hab
    exact ⟨hab.1.symm, fun p hpb hpa => hab.2 p hpa hpb⟩
  have hxy : x ≠ y := fun hh => hne (congrArg Prod.fst hh)
  exact (hs.forall hsym hx hy hxy).2

theorem blockInv_mono (s : Store) (used used' : List Outpoint) (v : View)
    (hsub : used ⊆ used') (hB : BlockInv s used v) : BlockInv s used' v := by
  obtain ⟨h1, h2, h3, h4, h5, h6, h7, h8⟩ := hB
  refine ⟨h1, h2, h3, h4, h5, h6, h7, fun kv hkv p hp => ?_⟩
  obtain ⟨g1, g2, g3⟩ := h8 kv hkv p hp
  exact ⟨fun hn => hsub (g1 hn), g2, g3.imp (fun hu => hsub hu) id⟩

theorem blockInv_nil (s : Store) (used : List Outpoint) : BlockInv s used [] :=
  ⟨fun kv hkv => absurd hkv (List.not_mem_nil kv),
   fun kv hkv => absurd hkv (List.not_mem_nil kv),
   fun kv hkv => absurd hkv (List.not_mem_nil kv),
   fun kv hkv => absurd hkv (List.not_mem_nil kv),
   fun kv hkv => absurd hkv (List.not_mem_nil kv),
   List.nodup_nil, List.Pairwise.nil,
   fun kv hkv => absurd hkv (List.not_mem_nil kv)⟩

/-- Caching an auction whose op log is empty and whose owner field matches
the stored owner (a lazily loaded or freshly created auction) preserves the
block invariant. -/
theorem blockInv_load (s : Store) (used : List Outpoint) (v : View) (nh : Bytes)
    (a : Auction) (hB : BlockInv s used v) (hnone : kget v nh = none)
    (hnh : a.nameHash = nh) (hops : a.ops = []) (hown : a.owner = ownerOf s nh) :
    BlockInv s used (kput v nh a) := by
  obtain ⟨h1, h2, h3, h4, h5, h6, h7, h8⟩ := hB
  rw [kput_of_not_mem v nh a hnone]
  have hkeys : nh ∉ v.map Prod.fst := (kget_eq_none_iff v nh).mp hnone
  have hmem : ∀ kv ∈ v ++ [(nh, a)], kv ∈ v ∨ kv = (nh, a) := by
    intro kv hkv
    rcases List.mem_append.mp hkv with h | h
    · exact Or.inl h
    · exact Or.inr (List.mem_singleton.mp h)
  refine ⟨?_, ?_, ?_, ?_, ?_, ?_, ?_, ?_⟩
  · intro kv hkv
    rcases hmem kv hkv with h | h
    · exact h1 kv h
    · rw [h]; exact hnh
  · intro kv hkv
    rcases hmem kv hkv with h | h
    · exact h2 kv h
    · rw [h]
      show OpsOK nh a.record s (ownerOf s nh) a.ops
      rw [hops]
      trivial
  · intro kv hkv
    rcases hmem kv hkv with h | h
    · exact h3 kv h
    · rw [h]
      show a.owner = ownerAfter (ownerOf s nh) a.ops
      rw [hops]
      exact hown
  · intro kv hkv
    rcases hmem kv hkv with h | h
    · exact h4 kv h
    · rw [h]
      show Op.REMOVE_AUCTION ∉ a.ops
      rw [hops]
      exact List.not_mem_nil _
  · intro kv hkv
    rcases hmem kv hkv with h | h
    · exact h5 kv h
    · rw [h]
      refine Or.inr ?_
      show ownerAfter (ownerOf s nh) a.ops = ownerOf s nh
      rw [hops]
      rfl
  · rw [List.map_append, List.nodup_append]
    refine ⟨h6, by simp, ?_⟩
    intro x hx hy
    simp at hy
    exact hkeys (hy ▸ hx)
  · unfold ViewSep
    rw [List.pairwise_append]
    refine ⟨h7, by simp, ?_⟩
    intro x hx y hy
    have hy' : y = (nh, a) := List.mem_singleton.mp hy
    subst hy'
    refine ⟨?_, ?_⟩
    · intro hh
      have hmx := List.mem_map_of_mem Prod.fst hx
      rw [hh] at hmx
      exact hkeys hmx
    · intro p _ hp
      rw [show (nh, a).2.ops = a.ops from rfl, hops] at hp
      exact absurd hp (List.not_mem_nil p)
  · intro kv hkv p hp
    rcases hmem kv hkv with h | h
    · exact h8 kv h p hp
    · rw [h] at hp
      rw [show (nh, a).2.ops = a.ops from rfl, hops] at hp
      exact absurd hp (List.not_mem_nil p)

/-- Extending a cached auction's op log by an accepted arm's new ops
preserves the block invariant.  `hclass` classifies every outpoint the new
ops touch: already in this auction's footprint, fresh and newly registered,
or base-indexed to this very auction. -/
theorem blockInv_extend (s : Store) (used used' : List Outpoint) (v : View)
    (nh : Bytes) (auc auc' : Auction) (newOps : List Op)
    (hB : BlockInv s used v)
    (hget : kget v nh = some auc)
    (hnh' : auc'.nameHash = nh)
    (hops' : auc'.ops = auc.ops ++ newOps)
    (hown' : auc'.owner = ownerAfter auc.owner newOps)
    (hOpsOK : OpsOK nh auc'.record (auc.ops.foldl (applyOp nh auc'.record) s)
      auc.owner newOps)
    (hnoRem : Op.REMOVE_AUCTION ∉ newOps)
    (hsave : Op.ADD_AUCTION ∈ newOps ∨ ownerAfter auc.owner newOps = auc.owner)
    (hclass : ∀ p ∈ opsTouches newOps,
      p ∈ opsTouches auc.ops ∨
      (kget s.n p = none ∧ p ∉ used ∧ p ∈ used') ∨
      (kget s.n p = some nh ∧ (p ∈ used' ∨ ownerOf s nh = some p)))
    (hsub : used ⊆ used') :
    BlockInv s used' (kput v nh auc') := by
  obtain ⟨h1, h2, h3, h4, h5, h6, h7, h8⟩ := hB
  have hmemv : (nh, auc) ∈ v := mem_of_kget v nh auc hget
  have hownsync : auc.owner = ownerAfter (ownerOf s nh) auc.ops := h3 (nh, auc) hmemv
  have hmem : ∀ kv ∈ kput v nh auc', kv = (nh, auc') ∨ (kv ∈ v ∧ kv.1 ≠ nh) :=
    fun kv hkv => (mem_kput v nh auc' h6 kv).mp hkv
  have hfootnew : ∀ p ∈ opsTouches auc'.ops,
      p ∈ opsTouches auc.ops ∨ p ∈ opsTouches newOps := by
    intro p hp
    rw [hops', opsTouches_append] at hp
    exact List.mem_append.mp hp
  refine ⟨?_, ?_, ?_, ?_, ?_, ?_, ?_, ?_⟩
  · intro kv hkv
    rcases hmem kv hkv with h | ⟨h, _⟩
    · rw [h]; exact hnh'
    · exact h1 kv h
  · intro kv hkv
    rcases hmem kv hkv with h | ⟨h, _⟩
    · rw [h]
      show OpsOK nh auc'.record s (ownerOf s nh) auc'.ops
      rw [hops', OpsOK_append nh auc'.record auc.ops newOps s (ownerOf s nh)]
      refine ⟨OpsOK_rec_irrel nh auc.ops auc.record auc'.record s _ (h2 (nh, auc) hmemv), ?_⟩
      rw [← hownsync]
      exact hOpsOK
    · exact h2 kv h
  · intro kv hkv
    rcases hmem kv hkv with h | ⟨h, _⟩
    · rw [h]
      show auc'.owner = ownerAfter (ownerOf s nh) auc'.ops
      rw [hown', hops', ownerAfter_append, ← hownsync]
    · exact h3 kv h
  · intro kv hkv
    rcases hmem kv hkv with h | ⟨h, _⟩
    · rw [h]
      show Op.REMOVE_AUCTION ∉ auc'.ops
      rw [hops']
      intro hh
      rcases List.mem_append.mp hh with h1' | h1'
      · exact h4 (nh, auc) hmemv h1'
      · exact hnoRem h1'
    · exact h4 kv h
  · intro kv hkv
    rcases hmem kv hkv with h | ⟨h, _⟩
    · rw [h]
      show Op.ADD_AUCTION ∈ auc'.ops ∨
        ownerAfter (ownerOf s nh) auc'.ops = ownerOf s nh
      rw [hops']
      rcases h5 (nh, auc) hmemv with h5a | h5b
      · exact Or.inl (List.mem_append_left _ h5a)
      · rcases hsave with hs1 | hs2
        · exact Or.inl (List.mem_append_right _ hs1)
        · refine Or.inr ?_
          rw [ownerAfter_append, ← hownsync, hs2, hownsync]
          exact h5b
    · exact h5 kv h
  · rw [keys_kput_of_mem v nh auc' (List.mem_map_of_mem Prod.fst hmemv)]
    exact h6
  · refine pairwise_kput v nh auc' h6 h7 ?_
    intro kv hkv hne
    have hdir : ∀ p ∈ opsTouches auc'.ops, p ∉ opsTouches kv.2.ops := by
      intro p hp
      rcases hfootnew p hp with hold | hnew
      · exact viewSep_rel v h7 (nh, auc) hmemv kv hkv (fun hh => hne hh.symm) p hold
      · rcases hclass p hnew with hcl | ⟨hn0, hnu, _⟩ | ⟨hns, _⟩
        · exact viewSep_rel v h7 (nh, auc) hmemv kv hkv (fun hh => hne hh.symm) p hcl
        · intro hpk
          exact hnu ((h8 kv hkv p hpk).1 hn0)
        · intro hpk
          have := (h8 kv hkv p hpk).2.1 nh hns
          exact hne this.symm
    exact ⟨⟨hne, fun p hpk hpa => (hdir p hpa) hpk⟩, ⟨fun hh => hne hh.symm, hdir⟩⟩
  · intro kv hkv p hp
    rcases hmem kv hkv with h | ⟨h, _⟩
    · rw [h] at hp ⊢
      rcases hfootnew p hp with hold | hnew
      · obtain ⟨g1, g2, g3⟩ := h8 (nh, auc) hmemv p hold
        exact ⟨fun hn => hsub (g1 hn), g2, g3.imp (fun hu => hsub hu) id⟩
      · rcases hclass p hnew with hcl | ⟨hn0, _, hu'⟩ | ⟨hns, hrest⟩
        · obtain ⟨g1, g2, g3⟩ := h8 (nh, auc) hmemv p hcl
          exact ⟨fun hn => hsub (g1 hn), g2, g3.imp (fun hu => hsub hu) id⟩
        · refine ⟨fun _ => hu', ?_, Or.inl hu'⟩
          intro nh' hh
          exact absurd (hn0.symm.trans hh) (fun hx => Option.noConfusion hx)
        · refine ⟨?_, ?_, hrest⟩
          · intro hn
            exact absurd (hns.symm.trans hn) (fun hx => Option.noConfusion hx)
          · intro nh' hh
            exact (Option.some.inj (hns.symm.trans hh)).symm
    · obtain ⟨g1, g2, g3⟩ := h8 kv h p hp
      exact ⟨fun hn => hsub (g1 hn), g2, g3.imp (fun hu => hsub hu) id⟩

/-! ### Helpers for the engine arms -/

theorem setOwner_none_some (a : Auction) (p : Outpoint) (h : a.owner = none) :
    a.setOwner (some p) =
      { a with owner := some p, ops := a.ops ++ [Op.ADD_OWNER p] } := by
  unfold Auction.setOwner
  rw [h]
  rfl

theorem setOwner_some_some (a : Auction) (p q : Outpoint) (h : a.owner = some q) :
    a.setOwner (some p) =
      { a with
          owner := some p,
          ops := (a.ops ++ [Op.REMOVE_OWNER q]) ++ [Op.ADD_OWNER p] } := by
  unfold Auction.setOwner
  rw [h]
  rfl

theorem setOwner_some_none (a : Auction) (q : Outpoint) (h : a.owner = some q) :
    a.setOwner none =
      { a with owner := none, ops := a.ops ++ [Op.REMOVE_OWNER q] } := by
  unfold Auction.setOwner
  rw [h]
  rfl

theorem setOwner_none_none (a : Auction) (h : a.owner = none) :
    a.setOwner none = { a with owner := none } := by
  unfold Auction.setOwner
  rw [h]

/-- A fresh outpoint (no reverse record, not consumed so far) is not in a
cached auction's footprint. -/
theorem not_in_foot_fresh (s : Store) (used : List Outpoint) (v : View) (nh : Bytes)
    (auc : Auction) (q : Outpoint) (hB : BlockInv s used v)
    (hget : kget v nh = some auc) (hq : kget s.n q = none) (hqu : q ∉ used) :
    q ∉ opsTouches auc.ops := by
  obtain ⟨-, -, -, -, -, -, -, h8⟩ := hB
  intro hmem
  exact hqu ((h8 (nh, auc) (mem_of_kget v nh auc hget) q hmem).1 hq)

/-- A so-far unconsumed outpoint that is not the auction's stored owner is
not in the cached auction's footprint. -/
theorem not_in_foot_spent (s : Store) (used : List Outpoint) (v : View) (nh : Bytes)
    (auc : Auction) (pv : Outpoint) (hB : BlockInv s used v)
    (hget : kget v nh = some auc) (hpu : pv ∉ used)
    (hno : ownerOf s nh ≠ some pv) : pv ∉ opsTouches auc.ops := by
  obtain ⟨-, -, -, -, -, -, -, h8⟩ := hB
  intro hmem
  rcases (h8 (nh, auc) (mem_of_kget v nh auc hget) pv hmem).2.2 with hu | ho
  · exact hpu hu
  · exact hno ho

/-- A cached auction's running owner cannot be an unconsumed outpoint whose
bid record is live (exclusivity). -/
theorem no_bid_owner (s : Store) (used : List Outpoint) (v : View) (nh : Bytes)
    (auc : Auction) (pv : Outpoint) (hI : Inv s) (hB : BlockInv s used v)
    (hget : kget v nh = some auc) (hbid : bidAt s nh pv) (hpu : pv ∉ used) :
    auc.owner ≠ some pv := by
  intro ho
  obtain ⟨-, -, h3, -, -, -, -, h8⟩ := hB
  have hsync := h3 (nh, auc) (mem_of_kget v nh auc hget)
  rw [ho] at hsync
  rcases ownerAfter_cases auc.ops (ownerOf s nh) pv hsync.symm with hmem | hbase
  · have hfoot : pv ∈ opsTouches auc.ops :=
      mem_opsTouches auc.ops _ hmem pv (List.mem_singleton_self pv)
    rcases (h8 (nh, auc) (mem_of_kget v nh auc hget) pv hfoot).2.2 with hu | hbase2
    · exact hpu hu
    · exact (hI pv).2.2.2.2.2.1 nh ⟨hbid, hbase2⟩
  · exact (hI pv).2.2.2.2.2.1 nh ⟨hbid, hbase⟩

/-- A cached auction's running owner cannot be an unconsumed outpoint whose
reveal record is live (exclusivity). -/
theorem no_reveal_owner (s : Store) (used : List Outpoint) (v : View) (nh : Bytes)
    (auc : Auction) (pv : Outpoint) (hI : Inv s) (hB : BlockInv s used v)
    (hget : kget v nh = some auc) (hrev : revAt s nh pv) (hpu : pv ∉ used) :
    auc.owner ≠ some pv := by
  intro ho
  obtain ⟨-, -, h3, -, -, -, -, h8⟩ := hB
  have hsync := h3 (nh, auc) (mem_of_kget v nh auc hget)
  rw [ho] at hsync
  rcases ownerAfter_cases auc.ops (ownerOf s nh) pv hsync.symm with hmem | hbase
  · have hfoot : pv ∈ opsTouches auc.ops :=
      mem_opsTouches auc.ops _ hmem pv (List.mem_singleton_self pv)
    rcases (h8 (nh, auc) (mem_of_kget v nh auc hget) pv hfoot).2.2 with hu | hbase2
    · exact hpu hu
    · exact (hI pv).2.2.2.2.2.2 nh ⟨hrev, hbase2⟩
  · exact (hI pv).2.2.2.2.2.2 nh ⟨hrev, hbase⟩

/-- Inversion of `view.getAuctionFor`: a returned auction is keyed by the
reverse record of the spent outpoint, cached in the returned view, and the
returned view still satisfies the block invariant. -/
theorem getAuctionFor_inv (s : Store) (used : List Outpoint) (v : View) (p : Outpoint)
    (auc : Auction) (v₁ : View) (hB : BlockInv s used v)
    (h : View.getAuctionFor v s p = (some auc, v₁)) :
    ∃ nh, kget s.n p = some nh ∧ auc.nameHash = nh ∧ kget v₁ nh = some auc ∧
      BlockInv s used v₁ := by
  unfold View.getAuctionFor at h
  cases hn : kget s.n p with
  | none =>
    rw [hn] at h
    have h' : ((none : Option Auction), v) = (some auc, v₁) := h
    injection h' with h1 h2
    exact absurd h1 (by simp)
  | some nh =>
    rw [hn] at h
    have h' : View.getAuction v s nh = (some auc, v₁) := h
    unfold View.getAuction at h'
    cases hv : kget v nh with
    | some a =>
      rw [hv] at h'
      have h'' : ((some a : Option Auction), v) = (some auc, v₁) := h'
      injection h'' with h1 h2
      injection h1 with h1
      subst h1
      subst h2
      exact ⟨nh, rfl, hB.1 (nh, a) (mem_of_kget v nh a hv), hv, hB⟩
    | none =>
      rw [hv] at h'
      cases ha : kget s.a nh with
      | some rec =>
        rw [ha] at h'
        have h'' : ((some (Auction.ofRec nh rec) : Option Auction),
            kput v nh (Auction.ofRec nh rec)) = (some auc, v₁) := h'
        injection h'' with h1 h2
        injection h1 with h1
        subst h1
        subst h2
        have hload : BlockInv s used (kput v nh (Auction.ofRec nh rec)) := by
          refine blockInv_load s used v nh (Auction.ofRec nh rec) hB hv rfl rfl ?_
          show rec.owner = ownerOf s nh
          unfold ownerOf
          rw [ha]
        exact ⟨nh, rfl, rfl, kget_kput_self v nh _, hload⟩
      | none =>
        rw [ha] at h'
        have h'' : ((none : Option Auction), v) = (some auc, v₁) := h'
        injection h'' with h1 h2
        exact absurd h1 (by simp)

/-- Inversion of `view.ensureAuction`: the returned auction is keyed by the
requested name hash, cached in the returned view, and the returned view
still satisfies the block invariant. -/
theorem ensureAuction_inv (s : Store) (used : List Outpoint) (v : View)
    (name nh : Bytes) (height : Int) (auc : Auction) (v₁ : View)
    (hB : BlockInv s used v)
    (h : View.ensureAuction v s name nh height = (auc, v₁)) :
    auc.nameHash = nh ∧ kget v₁ nh = some auc ∧ BlockInv s used v₁ := by
  unfold View.ensureAuction at h
  cases hv : kget v nh with
  | some a =>
    rw [hv] at h
    have h' : ((a : Auction), v) = (auc, v₁) := h
    injection h' with h1 h2
    subst h1
    subst h2
    exact ⟨hB.1 (nh, a) (mem_of_kget v nh a hv), hv, hB⟩
  | none =>
    rw [hv] at h
    cases ha : kget s.a nh with
    | some rec =>
      rw [ha] at h
      have h' : ((Auction.ofRec nh rec : Auction),
          kput v nh (Auction.ofRec nh rec)) = (auc, v₁) := h
      injection h' with h1 h2
      subst h1
      subst h2
      refine ⟨rfl, kget_kput_self v nh _, ?_⟩
      refine blockInv_load s used v nh _ hB hv rfl rfl ?_
      show rec.owner = ownerOf s nh
      unfold ownerOf
      rw [ha]
    | none =>
      rw [ha] at h
      have h' : ((Auction.create name nh height : Auction),
          kput v nh (Auction.create name nh height)) = (auc, v₁) := h
      injection h' with h1 h2
      subst h1
      subst h2
      refine ⟨rfl, kget_kput_self v nh _, ?_⟩
      refine blockInv_load s used v nh _ hB hv rfl rfl ?_
      show (none : Option Outpoint) = ownerOf s nh
      unfold ownerOf
      rw [ha]

/-! ### Per-arm preservation of the block invariant -/

/-- The accepted `bid -> reveal` input arm (`db.js` lines 306-329) preserves
the block invariant. -/
theorem step_bid_reveal (s : Store) (used used' : List Outpoint) (v₁ : View)
    (nh : Bytes) (auc : Auction) (pv op : Outpoint) (val : Int)
    (hI : Inv s) (hB : BlockInv s used v₁)
    (hget : kget v₁ nh = some auc) (hnh : auc.nameHash = nh)
    (hpv : kget s.n pv = some nh) (hbid : bidAt s nh pv)
    (hpu : pv ∉ used) (hpu' : pv ∈ used')
    (hofresh : kget s.n op = none) (hou : op ∉ used) (hou' : op ∈ used')
    (hsub : used ⊆ used') :
    BlockInv s used'
      (kput v₁ (((auc.removeBid pv).addReveal op val).save).nameHash
        (((auc.removeBid pv).addReveal op val).save)) := by
  have hnh' : (((auc.removeBid pv).addReveal op val).save).nameHash = nh := hnh
  rw [hnh']
  have hno : ownerOf s nh ≠ some pv := fun ho => (hI pv).2.2.2.2.2.1 nh ⟨hbid, ho⟩
  have hpvnf : pv ∉ opsTouches auc.ops :=
    not_in_foot_spent s used v₁ nh auc pv hB hget hpu hno
  refine blockInv_extend s used used' v₁ nh auc _
    [Op.REMOVE_BID pv, Op.ADD_REVEAL op val, Op.ADD_AUCTION]
    hB hget hnh' ?_ ?_ ?_ ?_ ?_ ?_ hsub
  · show ((auc.ops ++ [Op.REMOVE_BID pv]) ++ [Op.ADD_REVEAL op val]) ++
      [Op.ADD_AUCTION] = _
    simp [List.append_assoc]
  · rfl
  · set aucR := (((auc.removeBid pv).addReveal op val).save).record with hrec
    have hopnf : op ∉ opsTouches auc.ops :=
      not_in_foot_fresh s used v₁ nh auc op hB hget hofresh hou
    refine ⟨?_, ?_, trivial, trivial⟩
    · show kget (auc.ops.foldl (applyOp nh aucR) s).b (nh, pv) ≠ none
      rw [flush_frame_b_out nh aucR auc.ops s nh pv hpvnf]
      exact hbid
    · show kget (kdel (auc.ops.foldl (applyOp nh aucR) s).n pv) op = none
      rw [kget_kdel]
      split_ifs with hh
      · rfl
      · rw [flush_frame_n nh aucR auc.ops s op hopnf]
        exact hofresh
  · simp
  · refine Or.inl ?_
    simp
  · intro p hp
    have hp' : p = pv ∨ p = op := by
      simpa [opsTouches, opTouches] using hp
    rcases hp' with h | h
    · subst h
      exact Or.inr (Or.inr ⟨hpv, Or.inl hpu'⟩)
    · subst h
      exact Or.inr (Or.inl ⟨hofresh, hou, hou'⟩)

/-- The accepted `reveal -> redeem` input arm (`db.js` lines 367-378)
preserves the block invariant. -/
theorem step_reveal_redeem (s : Store) (used used' : List Outpoint) (v₁ : View)
    (nh : Bytes) (auc : Auction) (pv : Outpoint)
    (hI : Inv s) (hB : BlockInv s used v₁)
    (hget : kget v₁ nh = some auc) (hnh : auc.nameHash = nh)
    (hpv : kget s.n pv = some nh) (hrev : revAt s nh pv)
    (hpu : pv ∉ used) (hpu' : pv ∈ used')
    (hsub : used ⊆ used') :
    BlockInv s used'
      (kput v₁ ((auc.removeReveal pv)).nameHash (auc.removeReveal pv)) := by
  have hnh' : (auc.removeReveal pv).nameHash = nh := hnh
  rw [hnh']
  have hno : ownerOf s nh ≠ some pv := fun ho => (hI pv).2.2.2.2.2.2 nh ⟨hrev, ho⟩
  have hpvnf : pv ∉ opsTouches auc.ops :=
    not_in_foot_spent s used v₁ nh auc pv hB hget hpu hno
  refine blockInv_extend s used used' v₁ nh auc _ [Op.REMOVE_REVEAL pv]
    hB hget hnh' rfl rfl ?_ ?_ ?_ ?_ hsub
  · set aucR := (auc.removeReveal pv).record with hrec
    refine ⟨?_, trivial⟩
    show kget (auc.ops.foldl (applyOp nh aucR) s).r (nh, pv) ≠ none
    rw [flush_frame_r_out nh aucR auc.ops s nh pv hpvnf]
    exact hrev
  · simp
  · refine Or.inr ?_
    rfl
  · intro p hp
    have hp' : p = pv := by
      simpa [opsTouches, opTouches] using hp
    subst hp'
    exact Or.inr (Or.inr ⟨hpv, Or.inl hpu'⟩)

/-- The accepted `reveal -> update` input arm (`db.js` lines 380-392)
preserves the block invariant (the winner is unowned, so `setOwner` links
the new outpoint only). -/
theorem step_reveal_update (s : Store) (used used' : List Outpoint) (v₁ : View)
    (nh : Bytes) (auc : Auction) (pv op : Outpoint) (d : Bytes) (height : Int)
    (hI : Inv s) (hB : BlockInv s used v₁)
    (hget : kget v₁ nh = some auc) (hnh : auc.nameHash = nh)
    (howner : auc.owner = none)
    (hpv : kget s.n pv = some nh) (hrev : revAt s nh pv)
    (hpu : pv ∉ used) (hpu' : pv ∈ used')
    (hofresh : kget s.n op = none) (hou : op ∉ used) (hou' : op ∈ used')
    (hsub : used ⊆ used') :
    BlockInv s used'
      (kput v₁
        ((({ (auc.removeReveal pv).setOwner (some op) with
            renewal := some height }).commit d).save).nameHash
        ((({ (auc.removeReveal pv).setOwner (some op) with
            renewal := some height }).commit d).save)) := by
  have hro : (auc.removeReveal pv).owner = none := howner
  rw [setOwner_none_some (auc.removeReveal pv) op hro]
  have hnh' : ((({ { auc.removeReveal pv with
      owner := some op,
      ops := (auc.removeReveal pv).ops ++ [Op.ADD_OWNER op] } with
      renewal := some height }).commit d).save).nameHash = nh := hnh
  rw [hnh']
  have hno : ownerOf s nh ≠ some pv := fun ho => (hI pv).2.2.2.2.2.2 nh ⟨hrev, ho⟩
  have hpvnf : pv ∉ opsTouches auc.ops :=
    not_in_foot_spent s used v₁ nh auc pv hB hget hpu hno
  have hopnf : op ∉ opsTouches auc.ops :=
    not_in_foot_fresh s used v₁ nh auc op hB hget hofresh hou
  refine blockInv_extend s used used' v₁ nh auc _
    [Op.REMOVE_REVEAL pv, Op.ADD_OWNER op, Op.COMMIT d, Op.ADD_AUCTION]
    hB hget hnh' ?_ ?_ ?_ ?_ ?_ ?_ hsub
  · show (((auc.ops ++ [Op.REMOVE_REVEAL pv]) ++ [Op.ADD_OWNER op]) ++
      [Op.COMMIT d]) ++ [Op.ADD_AUCTION] = _
    simp [List.append_assoc]
  · rfl
  · set aucR := ((({ { auc.removeReveal pv with
      owner := some op,
      ops := (auc.removeReveal pv).ops ++ [Op.ADD_OWNER op] } with
      renewal := some height }).commit d).save).record with hrec
    refine ⟨?_, ⟨?_, ?_⟩, trivial, trivial, trivial⟩
    · show kget (auc.ops.foldl (applyOp nh aucR) s).r (nh, pv) ≠ none
      rw [flush_frame_r_out nh aucR auc.ops s nh pv hpvnf]
      exact hrev
    · show kget (kdel (auc.ops.foldl (applyOp nh aucR) s).n pv) op = none
      rw [kget_kdel]
      split_ifs with hh
      · rfl
      · rw [flush_frame_n nh aucR auc.ops s op hopnf]
        exact hofresh
    · exact howner
  · simp
  · refine Or.inl ?_
    simp
  · intro p hp
    have hp' : p = pv ∨ p = op := by
      simpa [opsTouches, opTouches] using hp
    rcases hp' with h | h
    · subst h
      exact Or.inr (Or.inr ⟨hpv, Or.inl hpu'⟩)
    · subst h
      exact Or.inr (Or.inl ⟨hofresh, hou, hou'⟩)

/-- The accepted `reveal -> transfer` input arm (`db.js` lines 394-404)
preserves the block invariant. -/
theorem step_reveal_transfer (s : Store) (used used' : List Outpoint) (v₁ : View)
    (nh : Bytes) (auc : Auction) (pv op : Outpoint) (height : Int)
    (hI : Inv s) (hB : BlockInv s used v₁)
    (hget : kget v₁ nh = some auc) (hnh : auc.nameHash = nh)
    (howner : auc.owner = none)
    (hpv : kget s.n pv = some nh) (hrev : revAt s nh pv)
    (hpu : pv ∉ used) (hpu' : pv ∈ used')
    (hofresh : kget s.n op = none) (hou : op ∉ used) (hou' : op ∈ used')
    (hsub : used ⊆ used') :
    BlockInv s used'
      (kput v₁
        (({ (auc.removeReveal pv).setOwner (some op) with
            renewal := some height }).save).nameHash
        (({ (auc.removeReveal pv).setOwner (some op) with
            renewal := some height }).save)) := by
  have hro : (auc.removeReveal pv).owner = none := howner
  rw [setOwner_none_some (auc.removeReveal pv) op hro]
  have hnh' : (({ { auc.removeReveal pv with
      owner := some op,
      ops := (auc.removeReveal pv).ops ++ [Op.ADD_OWNER op] } with
      renewal := some height }).save).nameHash = nh := hnh
  rw [hnh']
  have hno : ownerOf s nh ≠ some pv := fun ho => (hI pv).2.2.2.2.2.2 nh ⟨hrev, ho⟩
  have hpvnf : pv ∉ opsTouches auc.ops :=
    not_in_foot_spent s used v₁ nh auc pv hB hget hpu hno
  have hopnf : op ∉ opsTouches auc.ops :=
    not_in_foot_fresh s used v₁ nh auc op hB hget hofresh hou
  refine blockInv_extend s used used' v₁ nh auc _
    [Op.REMOVE_REVEAL pv, Op.ADD_OWNER op, Op.ADD_AUCTION]
    hB hget hnh' ?_ ?_ ?_ ?_ ?_ ?_ hsub
  · show ((auc.ops ++ [Op.REMOVE_REVEAL pv]) ++ [Op.ADD_OWNER op]) ++
      [Op.ADD_AUCTION] = _
    simp [List.append_assoc]
  · rfl
  · set aucR := (({ { auc.removeReveal pv with
      owner := some op,
      ops := (auc.removeReveal pv).ops ++ [Op.ADD_OWNER op] } with
      renewal := some height }).save).record with hrec
    refine ⟨?_, ⟨?_, ?_⟩, trivial, trivial⟩
    · show kget (auc.ops.foldl (applyOp nh aucR) s).r (nh, pv) ≠ none
      rw [flush_frame_r_out nh aucR auc.ops s nh pv hpvnf]
      exact hrev
    · show kget (kdel (auc.ops.foldl (applyOp nh aucR) s).n pv) op = none
      rw [kget_kdel]
      split_ifs with hh
      · rfl
      · rw [flush_frame_n nh aucR auc.ops s op hopnf]
        exact hofresh
    · exact howner
  · simp
  · refine Or.inl ?_
    simp
  · intro p hp
    have hp' : p = pv ∨ p = op := by
      simpa [opsTouches, opTouches] using hp
    rcases hp' with h | h
    · subst h
      exact Or.inr (Or.inr ⟨hpv, Or.inl hpu'⟩)
    · subst h
      exact Or.inr (Or.inl ⟨hofresh, hou, hou'⟩)

/-- The accepted `reveal -> release` input arm (`db.js` lines 406-410)
preserves the block invariant (the winner is unowned, so `setNull` emits
nothing). -/
theorem step_reveal_release (s : Store) (used used' : List Outpoint) (v₁ : View)
    (nh : Bytes) (auc : Auction) (pv : Outpoint)
    (hI : Inv s) (hB : BlockInv s used v₁)
    (hget : kget v₁ nh = some auc) (hnh : auc.nameHash = nh)
    (howner : auc.owner = none)
    (hpv : kget s.n pv = some nh) (hrev : revAt s nh pv)
    (hpu : pv ∉ used) (hpu' : pv ∈ used')
    (hsub : used ⊆ used') :
    BlockInv s used'
      (kput v₁ ((((auc.removeReveal pv).addUndo pv).setNull)).nameHash
        (((auc.removeReveal pv).addUndo pv).setNull)) := by
  have hro : ((auc.removeReveal pv).addUndo pv).owner = none := howner
  rw [show ((auc.removeReveal pv).addUndo pv).setNull =
    { (auc.removeReveal pv).addUndo pv with owner := none } from by
      unfold Auction.setNull
      exact setOwner_none_none _ hro]
  have hnh' : ({ (auc.removeReveal pv).addUndo pv with
      owner := none } : Auction).nameHash = nh := hnh
  rw [hnh']
  have hno : ownerOf s nh ≠ some pv := fun ho => (hI pv).2.2.2.2.2.2 nh ⟨hrev, ho⟩
  have hpvnf : pv ∉ opsTouches auc.ops :=
    not_in_foot_spent s used v₁ nh auc pv hB hget hpu hno
  refine blockInv_extend s used used' v₁ nh auc _
    [Op.REMOVE_REVEAL pv, Op.ADD_UNDO pv ((auc.removeReveal pv).record)]
    hB hget hnh' ?_ ?_ ?_ ?_ ?_ ?_ hsub
  · show (auc.ops ++ [Op.REMOVE_REVEAL pv]) ++
      [Op.ADD_UNDO pv ((auc.removeReveal pv).record)] = _
    simp [List.append_assoc]
  · exact howner.symm
  · set aucR := ({ (auc.removeReveal pv).addUndo pv with
      owner := none } : Auction).record with hrec
    refine ⟨?_, trivial, trivial⟩
    show kget (auc.ops.foldl (applyOp nh aucR) s).r (nh, pv) ≠ none
    rw [flush_frame_r_out nh aucR auc.ops s nh pv hpvnf]
    exact hrev
  · simp
  · refine Or.inr ?_
    rfl
  · intro p hp
    have hp' : p = pv := by
      simpa [opsTouches, opTouches] using hp
    subst hp'
    exact Or.inr (Or.inr ⟨hpv, Or.inl hpu'⟩)

/-- The accepted owned-transition arm `setOwner(outpoint); commit; save`
(`update -> update`, `db.js` lines 427-431 and 455, and
`transfer -> update`, lines 487-493) preserves the block invariant. -/
theorem step_owner_update (s : Store) (used used' : List Outpoint) (v₁ : View)
    (nh : Bytes) (auc : Auction) (pv op : Outpoint) (d : Bytes)
    (hI : Inv s) (hB : BlockInv s used v₁)
    (hget : kget v₁ nh = some auc) (hnh : auc.nameHash = nh)
    (howner : auc.owner = some pv)
    (hpv : kget s.n pv = some nh)
    (hpu' : pv ∈ used')
    (hofresh : kget s.n op = none) (hou : op ∉ used) (hou' : op ∈ used')
    (hsub : used ⊆ used') :
    BlockInv s used'
      (kput v₁ (((auc.setOwner (some op)).commit d).save).nameHash
        (((auc.setOwner (some op)).commit d).save)) := by
  rw [setOwner_some_some auc op pv howner]
  have hnh' : ((({ auc with
      owner := some op,
      ops := (auc.ops ++ [Op.REMOVE_OWNER pv]) ++ [Op.ADD_OWNER op] } :
        Auction).commit d).save).nameHash = nh := hnh
  rw [hnh']
  have hopnf : op ∉ opsTouches auc.ops :=
    not_in_foot_fresh s used v₁ nh auc op hB hget hofresh hou
  refine blockInv_extend s used used' v₁ nh auc _
    [Op.REMOVE_OWNER pv, Op.ADD_OWNER op, Op.COMMIT d, Op.ADD_AUCTION]
    hB hget hnh' ?_ ?_ ?_ ?_ ?_ ?_ hsub
  · show (((auc.ops ++ [Op.REMOVE_OWNER pv]) ++ [Op.ADD_OWNER op]) ++
      [Op.COMMIT d]) ++ [Op.ADD_AUCTION] = _
    simp [List.append_assoc]
  · rfl
  · set aucR := ((({ auc with
      owner := some op,
      ops := (auc.ops ++ [Op.REMOVE_OWNER pv]) ++ [Op.ADD_OWNER op] } :
        Auction).commit d).save).record with hrec
    refine ⟨?_, ⟨?_, ?_⟩, trivial, trivial, trivial⟩
    · exact howner
    · show kget (kdel (auc.ops.foldl (applyOp nh aucR) s).n pv) op = none
      rw [kget_kdel]
      split_ifs with hh
      · rfl
      · rw [flush_frame_n nh aucR auc.ops s op hopnf]
        exact hofresh
    · rfl
  · simp
  · refine Or.inl ?_
    simp
  · intro p hp
    have hp' : p = pv ∨ p = op := by
      simpa [opsTouches, opTouches] using hp
    rcases hp' with h | h
    · subst h
      exact Or.inr (Or.inr ⟨hpv, Or.inl hpu'⟩)
    · subst h
      exact Or.inr (Or.inl ⟨hofresh, hou, hou'⟩)

/-- The accepted renewing `update -> update` arm (`db.js` lines 427-455 with
a third covenant item) preserves the block invariant. -/
theorem step_owner_update_renew (s : Store) (used used' : List Outpoint) (v₁ : View)
    (nh : Bytes) (auc : Auction) (pv op : Outpoint) (d : Bytes) (height : Int)
    (hI : Inv s) (hB : BlockInv s used v₁)
    (hget : kget v₁ nh = some auc) (hnh : auc.nameHash = nh)
    (howner : auc.owner = some pv)
    (hpv : kget s.n pv = some nh)
    (hpu' : pv ∈ used')
    (hofresh : kget s.n op = none) (hou : op ∉ used) (hou' : op ∈ used')
    (hsub : used ⊆ used') :
    BlockInv s used'
      (kput v₁ ((((auc.setOwner (some op)).commit d).addRenewal pv height).save).nameHash
        ((((auc.setOwner (some op)).commit d).addRenewal pv height).save)) := by
  rw [setOwner_some_some auc op pv howner]
  have hnh' : (((({ auc with
      owner := some op,
      ops := (auc.ops ++ [Op.REMOVE_OWNER pv]) ++ [Op.ADD_OWNER op] } :
        Auction).commit d).addRenewal pv height).save).nameHash = nh := hnh
  rw [hnh']
  have hopnf : op ∉ opsTouches auc.ops :=
    not_in_foot_fresh s used v₁ nh auc op hB hget hofresh hou
  refine blockInv_extend s used used' v₁ nh auc _
    [Op.REMOVE_OWNER pv, Op.ADD_OWNER op, Op.COMMIT d,
      Op.ADD_RENEWAL pv (jsNum auc.renewal), Op.ADD_AUCTION]
    hB hget hnh' ?_ ?_ ?_ ?_ ?_ ?_ hsub
  · show ((((auc.ops ++ [Op.REMOVE_OWNER pv]) ++ [Op.ADD_OWNER op]) ++
      [Op.COMMIT d]) ++ [Op.ADD_RENEWAL pv (jsNum ({ auc with
        owner := some op,
        ops := (auc.ops ++ [Op.REMOVE_OWNER pv]) ++ [Op.ADD_OWNER op] } :
          Auction).renewal)]) ++ [Op.ADD_AUCTION] = _
    simp [List.append_assoc]
  · rfl
  · set aucR := (((({ auc with
      owner := some op,
      ops := (auc.ops ++ [Op.REMOVE_OWNER pv]) ++ [Op.ADD_OWNER op] } :
        Auction).commit d).addRenewal pv height).save).record with hrec
    refine ⟨?_, ⟨?_, ?_⟩, trivial, trivial, trivial, trivial⟩
    · exact howner
    · show kget (kdel (auc.ops.foldl (applyOp nh aucR) s).n pv) op = none
      rw [kget_kdel]
      split_ifs with hh
      · rfl
      · rw [flush_frame_n nh aucR auc.ops s op hopnf]
        exact hofresh
    · rfl
  · simp
  · refine Or.inl ?_
    simp
  · intro p hp
    have hp' : p = pv ∨ p = op := by
      simpa [opsTouches, opTouches] using hp
    rcases hp' with h | h
    · subst h
      exact Or.inr (Or.inr ⟨hpv, Or.inl hpu'⟩)
    · subst h
      exact Or.inr (Or.inl ⟨hofresh, hou, hou'⟩)

/-- The accepted owned `-> release` arm (`update -> release`, `db.js` lines
464-473, and `transfer -> release`, lines 495-507) preserves the block
invariant. -/
theorem step_owner_release (s : Store) (used used' : List Outpoint) (v₁ : View)
    (nh : Bytes) (auc : Auction) (pv : Outpoint)
    (hI : Inv s) (hB : BlockInv s used v₁)
    (hget : kget v₁ nh = some auc) (hnh : auc.nameHash = nh)
    (howner : auc.owner = some pv)
    (hpv : kget s.n pv = some nh)
    (hpu' : pv ∈ used')
    (hsub : used ⊆ used') :
    BlockInv s used'
      (kput v₁ (((((auc.addUndo pv).setNull).save).uncommit)).nameHash
        ((((auc.addUndo pv).setNull).save).uncommit)) := by
  have hro : (auc.addUndo pv).owner = some pv := howner
  rw [show (auc.addUndo pv).setNull =
    { auc.addUndo pv with
        owner := none,
        ops := (auc.addUndo pv).ops ++ [Op.REMOVE_OWNER pv] } from by
      unfold Auction.setNull
      exact setOwner_some_none _ pv hro]
  have hnh' : ((({ auc.addUndo pv with
      owner := none,
      ops := (auc.addUndo pv).ops ++ [Op.REMOVE_OWNER pv] } :
        Auction).save).uncommit).nameHash = nh := hnh
  rw [hnh']
  refine blockInv_extend s used used' v₁ nh auc _
    [Op.ADD_UNDO pv auc.record, Op.REMOVE_OWNER pv, Op.ADD_AUCTION, Op.UNCOMMIT]
    hB hget hnh' ?_ ?_ ?_ ?_ ?_ ?_ hsub
  · show ((((auc.ops ++ [Op.ADD_UNDO pv auc.record]) ++ [Op.REMOVE_OWNER pv]) ++
      [Op.ADD_AUCTION]) ++ [Op.UNCOMMIT]) = _
    simp [List.append_assoc]
  · rfl
  · refine ⟨trivial, ?_, trivial, trivial, trivial⟩
    exact howner
  · simp
  · refine Or.inl ?_
    simp
  · intro p hp
    have hp' : p = pv := by
      simpa [opsTouches, opTouches] using hp
    subst hp'
    exact Or.inr (Or.inr ⟨hpv, Or.inl hpu'⟩)

/-- The accepted plain BID output arm (`db.js` lines 522-563 without the
stale-release branch) preserves the block invariant. -/
theorem step_output_bid (s : Store) (used used' : List Outpoint) (v₁ : View)
    (nh : Bytes) (auc : Auction) (op : Outpoint)
    (hB : BlockInv s used v₁)
    (hget : kget v₁ nh = some auc) (hnh : auc.nameHash = nh)
    (hofresh : kget s.n op = none) (hou : op ∉ used) (hou' : op ∈ used')
    (hsub : used ⊆ used') :
    BlockInv s used' (kput v₁ nh ((auc.addBid op).save)) := by
  have hnh' : ((auc.addBid op).save).nameHash = nh := hnh
  have hopnf : op ∉ opsTouches auc.ops :=
    not_in_foot_fresh s used v₁ nh auc op hB hget hofresh hou
  refine blockInv_extend s used used' v₁ nh auc _
    [Op.ADD_BID op, Op.ADD_AUCTION]
    hB hget hnh' ?_ ?_ ?_ ?_ ?_ ?_ hsub
  · show (auc.ops ++ [Op.ADD_BID op]) ++ [Op.ADD_AUCTION] = _
    simp [List.append_assoc]
  · rfl
  · set aucR := ((auc.addBid op).save).record with hrec
    refine ⟨?_, trivial, trivial⟩
    show kget (auc.ops.foldl (applyOp nh aucR) s).n op = none
    rw [flush_frame_n nh aucR auc.ops s op hopnf]
    exact hofresh
  · simp
  · refine Or.inl ?_
    simp
  · intro p hp
    have hp' : p = op := by
      simpa [opsTouches, opTouches] using hp
    subst hp'
    exact Or.inr (Or.inl ⟨hofresh, hou, hou'⟩)

/-- The accepted stale-release BID output arm (`db.js` lines 536-563)
preserves the block invariant: the expired owner is unlinked (with an undo
snapshot under the synthetic outpoint), the auction is reset and the new
bid is linked. -/
theorem step_output_bid_stale (s : Store) (used used' : List Outpoint) (v₁ : View)
    (nh : Bytes) (auc : Auction) (w0 op syn : Outpoint) (height : Int)
    (hI : Inv s) (hB : BlockInv s used v₁)
    (hget : kget v₁ nh = some auc) (hnh : auc.nameHash = nh)
    (hw0 : auc.owner = some w0)
    (hofresh : kget s.n op = none) (hou : op ∉ used) (hou' : op ∈ used')
    (hsub : used ⊆ used') :
    BlockInv s used'
      (kput v₁ nh
        ((({ ((auc.addUndo syn).setOwner none) with
            height := height, renewal := some height,
            bids := 0 }).uncommit.addBid op).save)) := by
  have hro : (auc.addUndo syn).owner = some w0 := hw0
  rw [setOwner_some_none (auc.addUndo syn) w0 hro]
  have hopnf : op ∉ opsTouches auc.ops :=
    not_in_foot_fresh s used v₁ nh auc op hB hget hofresh hou
  have hsync : ownerAfter (ownerOf s nh) auc.ops = some w0 :=
    (hB.2.2.1 (nh, auc) (mem_of_kget v₁ nh auc hget)).symm.trans hw0
  have hw0class : w0 ∈ opsTouches auc.ops ∨
      (kget s.n w0 = some nh ∧ ownerOf s nh = some w0) := by
    rcases ownerAfter_cases auc.ops (ownerOf s nh) w0 hsync with hmem | hbase
    · exact Or.inl (mem_opsTouches auc.ops _ hmem w0 (List.mem_singleton_self w0))
    · exact Or.inr ⟨(hI w0).2.2.1 nh hbase, hbase⟩
  refine blockInv_extend s used used' v₁ nh auc _
    [Op.ADD_UNDO syn auc.record, Op.REMOVE_OWNER w0, Op.UNCOMMIT,
      Op.ADD_BID op, Op.ADD_AUCTION]
    hB hget hnh ?_ ?_ ?_ ?_ ?_ ?_ hsub
  · show ((((auc.ops ++ [Op.ADD_UNDO syn auc.record]) ++ [Op.REMOVE_OWNER w0]) ++
      [Op.UNCOMMIT]) ++ [Op.ADD_BID op]) ++ [Op.ADD_AUCTION] = _
    simp [List.append_assoc]
  · rfl
  · set aucR := ((({ { auc.addUndo syn with
      owner := none,
      ops := (auc.addUndo syn).ops ++ [Op.REMOVE_OWNER w0] } with
      height := height, renewal := some height,
      bids := 0 } : Auction).uncommit.addBid op).save).record with hrec
    refine ⟨trivial, ?_, trivial, ?_, trivial, trivial⟩
    · exact hw0
    · show kget (kdel (auc.ops.foldl (applyOp nh aucR) s).n w0) op = none
      rw [kget_kdel]
      split_ifs with hh
      · rfl
      · rw [flush_frame_n nh aucR auc.ops s op hopnf]
        exact hofresh
  · simp
  · refine Or.inl ?_
    simp
  · intro p hp
    have hp' : p = w0 ∨ p = op := by
      simpa [opsTouches, opTouches] using hp
    rcases hp' with h | h
    · subst h
      rcases hw0class with hc | ⟨hc1, hc2⟩
      · exact Or.inl hc
      · exact Or.inr (Or.inr ⟨hc1, Or.inr hc2⟩)
    · subst h
      exact Or.inr (Or.inl ⟨hofresh, hou, hou'⟩)

/-- An accepted run of one output step of `connectCovenants` preserves the
block invariant, registering the outpoints the step may add. -/
theorem connectOutput_preserves (net : Network) (s : Store) (tx : TX) (height : Int)
    (i : Nat) (used : List Outpoint) (v v' : View)
    (hI : Inv s) (hB : BlockInv s used v)
    (hfreshN : ∀ j : Nat, kget s.n (Outpoint.mk tx.hash j) = none)
    (hfreshU : ∀ p ∈ outputStepAdds tx i, p ∉ used)
    (h : connectOutput net s tx height i v = Except.ok (true, v')) :
    BlockInv s (used ++ outputStepAdds tx i) v' := by
  unfold connectOutput at h
  split at h
  · exact Except.noConfusion h
  · rename_i o1 output hout
    split at h
    · rename_i hbid
      simp only [] at h
      have hadds : outputStepAdds tx i = [Outpoint.mk tx.hash i] := by
        simp [outputStepAdds, hout, hbid]
      rw [hadds]
      have hou : Outpoint.mk tx.hash i ∉ used := by
        refine hfreshU _ ?_
        rw [hadds]
        exact List.mem_singleton_self _
      have hou2 : Outpoint.mk tx.hash i ∈ used ++ [Outpoint.mk tx.hash i] :=
        List.mem_append_right _ (List.mem_singleton_self _)
      have hsub : used ⊆ used ++ [Outpoint.mk tx.hash i] :=
        fun x hx => List.mem_append_left _ hx
      split at h
      · injection h with h1
        injection h1 with h1 h2
        exact absurd h1 (by simp)
      · rename_i hroll
        rcases hens : View.ensureAuction v s (covItem output.covenant 0)
          (blake2b (covItem output.covenant 0)) height with ⟨auc1, v₁⟩
        rw [hens] at h
        simp only [] at h
        obtain ⟨hnh1, hget1, hB1⟩ := ensureAuction_inv s used v
          (covItem output.covenant 0) (blake2b (covItem output.covenant 0))
          height auc1 v₁ hB hens
        by_cases hstale : height ≥ jsNum auc1.renewal + net.renewalWindow
        · rw [if_pos hstale] at h
          cases how : auc1.owner with
          | none =>
            rw [how] at h
            simp only [Option.isSome_none, Bool.false_eq_true, if_false] at h
            exact Except.noConfusion h
          | some w0 =>
            rw [how] at h
            simp only [Option.isSome_some, eq_self_iff_true, if_true] at h
            split at h
            · injection h with h1
              injection h1 with h1 h2
              exact absurd h1 (by simp)
            · injection h with h1
              injection h1 with h1 h2
              subst h2
              exact step_output_bid_stale s used (used ++ [Outpoint.mk tx.hash i]) v₁
                  (blake2b (covItem output.covenant 0)) auc1 w0 (Outpoint.mk tx.hash i)
                (Outpoint.mk tx.hash (synthIndex i)) height hI hB1 hget1 hnh1 how
                (hfreshN i) hou hou2 hsub
        · rw [if_neg hstale] at h
          split at h
          · rename_i sr e heq
            exact Except.noConfusion heq
          · rename_i sr a2 heq
            injection heq with heq
            subst heq
            split at h
            · injection h with h1
              injection h1 with h1 h2
              exact absurd h1 (by simp)
            · injection h with h1
              injection h1 with h1 h2
              subst h2
              exact step_output_bid s used (used ++ [Outpoint.mk tx.hash i]) v₁
                (blake2b (covItem output.covenant 0)) auc1 (Outpoint.mk tx.hash i)
                hB1 hget1 hnh1 (hfreshN i) hou hou2 hsub
    · rename_i hbid
      injection h with h1
      injection h1 with h1 h2
      subst h2
      have hadds : outputStepAdds tx i = [] := by
        simp [outputStepAdds, hout, hbid]
      rw [hadds, List.append_nil]
      exact hB

/-- An accepted run of one input step of `connectCovenants` preserves the
block invariant, registering the outpoints the step may add. -/
theorem connectInput_preserves (ctx : Ctx) (net : Network) (s : Store) (tx : TX)
    (height : Int) (i : Nat) (used : List Outpoint) (v v' : View)
    (hI : Inv s) (hB : BlockInv s used v)
    (hcf : CoinsFaithful ctx s)
    (hfreshN : ∀ j : Nat, kget s.n (Outpoint.mk tx.hash j) = none)
    (hfreshU : ∀ p ∈ inputStepAdds tx i, p ∉ used)
    (h : connectInput ctx net s tx height i v = Except.ok (true, v')) :
    BlockInv s (used ++ inputStepAdds tx i) v' := by
  have hsub : used ⊆ used ++ inputStepAdds tx i :=
    fun x hx => List.mem_append_left _ hx
  have hmono : v' = v → BlockInv s (used ++ inputStepAdds tx i) v' := by
    intro he
    rw [he]
    exact blockInv_mono s used _ v hsub hB
  unfold connectInput at h
  split at h
  · exact Except.noConfusion h
  · rename_i o1 prevout hin
    split at h
    · exact Except.noConfusion h
    · rename_i o2 coin hcoin
      simp only [] at h
      have haddsP : prevout ∈ inputStepAdds tx i := by
        unfold inputStepAdds
        rw [hin]
        exact List.mem_append_left _ (List.mem_singleton_self _)
      have hpu : prevout ∉ used := hfreshU prevout haddsP
      have hpu' : prevout ∈ used ++ inputStepAdds tx i :=
        List.mem_append_right _ haddsP
      split at h
      · -- NONE coin: skipped
        injection h with h1
        injection h1 with h1 h2
        exact hmono h2.symm
      · rename_i hnotnone
        split at h
        · -- BID coin
          rename_i hucbid
          rcases hga : View.getAuctionFor v s prevout with ⟨aucq, v₂⟩
          rw [hga] at h
          simp only [] at h
          split at h
          · rename_i pr output auc hout
            obtain ⟨nh, hpvnh, hnh1, hget1, hB1⟩ :=
              getAuctionFor_inv s used v prevout auc v₂ hB hga
            have hbid : bidAt s nh prevout :=
              (hcf prevout coin hcoin).1 hucbid nh hpvnh
            split at h
            · injection h with h1
              injection h1 with h1 h2
              exact absurd h1 (by simp)
            · rename_i hstate
              split at h
              · -- output covenant REVEAL: accepted
                rename_i houtcov
                injection h with h1
                injection h1 with h1 h2
                subst h2
                have haddsO : Outpoint.mk tx.hash i ∈ inputStepAdds tx i := by
                  simp [inputStepAdds, hout, houtcov]
                have hou : Outpoint.mk tx.hash i ∉ used := hfreshU _ haddsO
                have hou' : Outpoint.mk tx.hash i ∈ used ++ inputStepAdds tx i :=
                  List.mem_append_right _ haddsO
                have hkey : (((auc.removeBid prevout).addReveal
                    (Outpoint.mk tx.hash i) output.value).save).nameHash = nh := hnh1
                exact step_bid_reveal s used (used ++ inputStepAdds tx i) v₂ nh auc
                  prevout (Outpoint.mk tx.hash i) output.value hI hB1 hget1 hnh1
                  hpvnh hbid hpu hpu' (hfreshN i) hou hou' hsub
              · exact Except.noConfusion h
          · exact Except.noConfusion h
        · rename_i hnotbid
          split at h
          · -- REVEAL coin
            rename_i hucrev
            rcases hga : View.getAuctionFor v s prevout with ⟨aucq, v₂⟩
            rw [hga] at h
            simp only [] at h
            split at h
            · rename_i pr output auc hout
              obtain ⟨nh, hpvnh, hnh1, hget1, hB1⟩ :=
                getAuctionFor_inv s used v prevout auc v₂ hB hga
              have hrev : revAt s nh prevout :=
                (hcf prevout coin hcoin).2 hucrev nh hpvnh
              have hnotownpv : auc.owner ≠ some prevout :=
                no_reveal_owner s used v₂ nh auc prevout hI hB1 hget1 hrev hpu
              split at h
              · injection h with h1
                injection h1 with h1 h2
                exact absurd h1 (by simp)
              · rename_i hstate
                cases how : auc.owner with
                | some w0 =>
                  rw [how] at h
                  simp only [] at h
                  split at h
                  · -- output covenant REDEEM
                    rename_i houtcov
                    split at h
                    · injection h with h1
                      injection h1 with h1 h2
                      exact absurd h1 (by simp)
                    · rename_i hne
                      injection h with h1
                      injection h1 with h1 h2
                      subst h2
                      exact step_reveal_redeem s used (used ++ inputStepAdds tx i) v₂
                        nh auc prevout hI hB1 hget1 hnh1 hpvnh hrev hpu hpu' hsub
                  · -- output covenant UPDATE: needs prevout = w0, impossible
                    rename_i houtcov
                    split at h
                    · injection h with h1
                      injection h1 with h1 h2
                      exact absurd h1 (by simp)
                    · rename_i hne
                      have : prevout = w0 := not_not.mp hne
                      subst this
                      exact absurd how hnotownpv
                  · rename_i houtcov
                    split at h
                    · injection h with h1
                      injection h1 with h1 h2
                      exact absurd h1 (by simp)
                    · rename_i hne
                      have : prevout = w0 := not_not.mp hne
                      subst this
                      exact absurd how hnotownpv
                  · rename_i houtcov
                    split at h
                    · injection h with h1
                      injection h1 with h1 h2
                      exact absurd h1 (by simp)
                    · rename_i hne
                      have : prevout = w0 := not_not.mp hne
                      subst this
                      exact absurd how hnotownpv
                  · exact Except.noConfusion h
                | none =>
                  rw [how] at h
                  simp only [] at h
                  cases hpw : pickWinner s auc.nameHash with
                  | none =>
                    rw [hpw] at h
                    exact Except.noConfusion h
                  | some w =>
                    rw [hpw] at h
                    simp only [] at h
                    split at h
                    · -- REDEEM
                      rename_i houtcov
                      split at h
                      · injection h with h1
                        injection h1 with h1 h2
                        exact absurd h1 (by simp)
                      · injection h with h1
                        injection h1 with h1 h2
                        subst h2
                        exact step_reveal_redeem s used (used ++ inputStepAdds tx i) v₂
                          nh auc prevout hI hB1 hget1 hnh1 hpvnh hrev hpu hpu' hsub
                    · -- UPDATE
                      rename_i houtcov
                      split at h
                      · injection h with h1
                        injection h1 with h1 h2
                        exact absurd h1 (by simp)
                      · rename_i hne
                        injection h with h1
                        injection h1 with h1 h2
                        subst h2
                        have haddsO : Outpoint.mk tx.hash i ∈ inputStepAdds tx i := by
                          simp [inputStepAdds, hout, houtcov]
                        have hou : Outpoint.mk tx.hash i ∉ used := hfreshU _ haddsO
                        have hou' : Outpoint.mk tx.hash i ∈ used ++ inputStepAdds tx i :=
                          List.mem_append_right _ haddsO
                        exact step_reveal_update s used (used ++ inputStepAdds tx i) v₂
                          nh auc prevout (Outpoint.mk tx.hash i)
                          (covItem output.covenant 1) height hI hB1 hget1 hnh1 how
                          hpvnh hrev hpu hpu' (hfreshN i) hou hou' hsub
                    · -- TRANSFER
                      rename_i houtcov
                      split at h
                      · injection h with h1
                        injection h1 with h1 h2
                        exact absurd h1 (by simp)
                      · rename_i hne
                        injection h with h1
                        injection h1 with h1 h2
                        subst h2
                        have haddsO : Outpoint.mk tx.hash i ∈ inputStepAdds tx i := by
                          simp [inputStepAdds, hout, houtcov]
                        have hou : Outpoint.mk tx.hash i ∉ used := hfreshU _ haddsO
                        have hou' : Outpoint.mk tx.hash i ∈ used ++ inputStepAdds tx i :=
                          List.mem_append_right _ haddsO
                        exact step_reveal_transfer s used (used ++ inputStepAdds tx i) v₂
                          nh auc prevout (Outpoint.mk tx.hash i) height hI hB1 hget1 hnh1
                          how hpvnh hrev hpu hpu' (hfreshN i) hou hou' hsub
                    · -- RELEASE
                      rename_i houtcov
                      split at h
                      · injection h with h1
                        injection h1 with h1 h2
                        exact absurd h1 (by simp)
                      · rename_i hne
                        injection h with h1
                        injection h1 with h1 h2
                        subst h2
                        exact step_reveal_release s used (used ++ inputStepAdds tx i) v₂
                          nh auc prevout hI hB1 hget1 hnh1 how hpvnh hrev hpu hpu' hsub
                    · exact Except.noConfusion h
            · exact Except.noConfusion h
          · rename_i hnotrev
            split at h
            · -- UPDATE coin
              rename_i hucupd
              rcases hga : View.getAuctionFor v s prevout with ⟨aucq, v₂⟩
              rw [hga] at h
              simp only [] at h
              split at h
              · rename_i pr output auc hout
                obtain ⟨nh, hpvnh, hnh1, hget1, hB1⟩ :=
                  getAuctionFor_inv s used v prevout auc v₂ hB hga
                split at h
                · injection h with h1
                  injection h1 with h1 h2
                  exact absurd h1 (by simp)
                · rename_i hstate
                  split at h
                  · injection h with h1
                    injection h1 with h1 h2
                    exact absurd h1 (by simp)
                  · rename_i hownne
                    have hown_pv : auc.owner = some prevout := not_not.mp hownne
                    split at h
                    · rename_i res e hsw
                      exact Except.noConfusion h
                    · rename_i res okb auc2 hsw
                      injection h with h1
                      injection h1 with h1 h2
                      subst h1
                      subst h2
                      unfold updateSwitch at hsw
                      split at hsw
                      · -- prior-output covenant UPDATE: the update body
                        rename_i houtcov
                        have haddsO : Outpoint.mk tx.hash i ∈ inputStepAdds tx i := by
                          simp [inputStepAdds, hout, houtcov]
                        have hou : Outpoint.mk tx.hash i ∉ used := hfreshU _ haddsO
                        have hou' : Outpoint.mk tx.hash i ∈ used ++ inputStepAdds tx i :=
                          List.mem_append_right _ haddsO
                        split at hsw
                        · rename_i e hbody
                          exact Except.noConfusion hsw
                        · rename_i res2 auc3 hbody
                          injection hsw with hsw
                          injection hsw with hok _
                          exact absurd hok (by simp)
                        · rename_i res2 auc3 hbody
                          unfold updateTransferArm at hsw
                          injection hsw with hsw
                          injection hsw with _ hsw
                          subst hsw
                          unfold updateUpdateBody at hbody
                          simp only [] at hbody
                          split at hbody
                          · -- three covenant items: renewal validation
                            rename_i hlen
                            split at hbody
                            · injection hbody with hb1
                              injection hb1 with hb1 hb2
                              exact absurd hb1 (by simp)
                            · rename_i oent entry hentry
                              split at hbody
                              · injection hbody with hb1
                                injection hb1 with hb1 hb2
                                exact absurd hb1 (by simp)
                              · split at hbody
                                · injection hbody with hb1
                                  injection hb1 with hb1 hb2
                                  exact absurd hb1 (by simp)
                                · split at hbody
                                  · injection hbody with hb1
                                    injection hb1 with hb1 hb2
                                    exact absurd hb1 (by simp)
                                  · injection hbody with hb1
                                    injection hb1 with hb1 hb2
                                    subst hb2
                                    exact step_owner_update_renew s used
                                      (used ++ inputStepAdds tx i) v₂ nh auc prevout
                                      (Outpoint.mk tx.hash i) (covItem output.covenant 1)
                                      height hI hB1 hget1 hnh1 hown_pv hpvnh hpu'
                                      (hfreshN i) hou hou' hsub
                          · injection hbody with hb1
                            injection hb1 with hb1 hb2
                            subst hb2
                            exact step_owner_update s used (used ++ inputStepAdds tx i) v₂
                              nh auc prevout (Outpoint.mk tx.hash i)
                              (covItem output.covenant 1) hI hB1 hget1 hnh1 hown_pv hpvnh
                              hpu' (hfreshN i) hou hou' hsub
                      · -- prior-output covenant TRANSFER: no-op recache
                        rename_i houtcov
                        unfold updateTransferArm at hsw
                        injection hsw with hsw
                        injection hsw with _ hsw
                        subst hsw
                        rw [show auc.nameHash = nh from hnh1, kput_kget_self v₂ nh auc hget1]
                        exact blockInv_mono s used _ v₂ hsub hB1
                      · -- prior-output covenant RELEASE
                        rename_i houtcov
                        injection hsw with hsw
                        injection hsw with _ hsw
                        subst hsw
                        exact step_owner_release s used (used ++ inputStepAdds tx i) v₂
                          nh auc prevout hI hB1 hget1 hnh1 hown_pv hpvnh hpu' hsub
                      · exact Except.noConfusion hsw
              · exact Except.noConfusion h
            · rename_i hnotupd
              split at h
              · -- TRANSFER coin
                rename_i huctrans
                rcases hga : View.getAuctionFor v s prevout with ⟨aucq, v₂⟩
                rw [hga] at h
                simp only [] at h
                split at h
                · rename_i pr output auc hout
                  obtain ⟨nh, hpvnh, hnh1, hget1, hB1⟩ :=
                    getAuctionFor_inv s used v prevout auc v₂ hB hga
                  split at h
                  · injection h with h1
                    injection h1 with h1 h2
                    exact absurd h1 (by simp)
                  · rename_i hstate
                    split at h
                    · injection h with h1
                      injection h1 with h1 h2
                      exact absurd h1 (by simp)
                    · rename_i hownne
                      have hown_pv : auc.owner = some prevout := not_not.mp hownne
                      split at h
                      · -- output covenant UPDATE
                        rename_i houtcov
                        injection h with h1
                        injection h1 with h1 h2
                        subst h2
                        have haddsO : Outpoint.mk tx.hash i ∈ inputStepAdds tx i := by
                          simp [inputStepAdds, hout, houtcov]
                        have hou : Outpoint.mk tx.hash i ∉ used := hfreshU _ haddsO
                        have hou' : Outpoint.mk tx.hash i ∈ used ++ inputStepAdds tx i :=
                          List.mem_append_right _ haddsO
                        exact step_owner_update s used (used ++ inputStepAdds tx i) v₂
                          nh auc prevout (Outpoint.mk tx.hash i)
                          (covItem output.covenant 1) hI hB1 hget1 hnh1 hown_pv hpvnh
                          hpu' (hfreshN i) hou hou' hsub
                      · -- output covenant RELEASE
                        rename_i houtcov
                        injection h with h1
                        injection h1 with h1 h2
                        subst h2
                        exact step_owner_release s used (used ++ inputStepAdds tx i) v₂
                          nh auc prevout hI hB1 hget1 hnh1 hown_pv hpvnh hpu' hsub
                      · exact Except.noConfusion h
                · exact Except.noConfusion h
              · rename_i hnottrans
                split at h
                · -- junk covenant type: skipped
                  injection h with h1
                  injection h1 with h1 h2
                  exact hmono h2.symm
                · exact Except.noConfusion h

/-! ### Fold lemmas: whole transactions and blocks -/

/-- An accepted run of the input loop preserves the block invariant. -/
theorem connectInputs_preserves (ctx : Ctx) (net : Network) (s : Store) (tx : TX)
    (height : Int) : ∀ (idxs : List Nat) (used : List Outpoint) (v v' : View),
    Inv s → BlockInv s used v → CoinsFaithful ctx s →
    (∀ j : Nat, kget s.n (Outpoint.mk tx.hash j) = none) →
    (used ++ stepAddsList (inputStepAdds tx) idxs).Nodup →
    connectInputs ctx net s tx height idxs v = Except.ok (true, v') →
    BlockInv s (used ++ stepAddsList (inputStepAdds tx) idxs) v' := by
  intro idxs
  induction idxs with
  | nil =>
    intro used v v' hI hB hcf hfresh hnd h
    have h' : (Except.ok (true, v) : CRes) = Except.ok (true, v') := h
    injection h' with h1
    injection h1 with h1 h2
    subst h2
    rw [show stepAddsList (inputStepAdds tx) [] = [] from rfl, List.append_nil]
    exact hB
  | cons i rest ih =>
    intro used v v' hI hB hcf hfresh hnd h
    have hnd' : ((used ++ inputStepAdds tx i) ++
        stepAddsList (inputStepAdds tx) rest).Nodup := by
      rw [List.append_assoc]
      exact hnd
    have hgoal : BlockInv s ((used ++ inputStepAdds tx i) ++
        stepAddsList (inputStepAdds tx) rest) v' →
        BlockInv s (used ++ stepAddsList (inputStepAdds tx) (i :: rest)) v' := by
      intro hh
      rw [show stepAddsList (inputStepAdds tx) (i :: rest) =
        inputStepAdds tx i ++ stepAddsList (inputStepAdds tx) rest from rfl,
        ← List.append_assoc]
      exact hh
    unfold connectInputs at h
    split at h
    · exact Except.noConfusion h
    · injection h with h1
      injection h1 with h1 h2
      exact absurd h1 (by simp)
    · rename_i res v₁ heq
      have hdis := List.disjoint_of_nodup_append hnd
      have hfreshU : ∀ p ∈ inputStepAdds tx i, p ∉ used := by
        intro p hp hpu
        exact hdis hpu (List.mem_append_left _ hp)
      have hstep := connectInput_preserves ctx net s tx height i used v v₁
        hI hB hcf hfresh hfreshU heq
      exact hgoal (ih (used ++ inputStepAdds tx i) v₁ v' hI hstep hcf hfresh hnd' h)

/-- An accepted run of the output loop preserves the block invariant. -/
theorem connectOutputs_preserves (net : Network) (s : Store) (tx : TX)
    (height : Int) : ∀ (idxs : List Nat) (used : List Outpoint) (v v' : View),
    Inv s → BlockInv s used v →
    (∀ j : Nat, kget s.n (Outpoint.mk tx.hash j) = none) →
    (used ++ stepAddsList (outputStepAdds tx) idxs).Nodup →
    connectOutputs net s tx height idxs v = Except.ok (true, v') →
    BlockInv s (used ++ stepAddsList (outputStepAdds tx) idxs) v' := by
  intro idxs
  induction idxs with
  | nil =>
    intro used v v' hI hB hfresh hnd h
    have h' : (Except.ok (true, v) : CRes) = Except.ok (true, v') := h
    injection h' with h1
    injection h1 with h1 h2
    subst h2
    rw [show stepAddsList (outputStepAdds tx) [] = [] from rfl, List.append_nil]
    exact hB
  | cons i rest ih =>
    intro used v v' hI hB hfresh hnd h
    have hnd' : ((used ++ outputStepAdds tx i) ++
        stepAddsList (outputStepAdds tx) rest).Nodup := by
      rw [List.append_assoc]
      exact hnd
    have hgoal : BlockInv s ((used ++ outputStepAdds tx i) ++
        stepAddsList (outputStepAdds tx) rest) v' →
        BlockInv s (used ++ stepAddsList (outputStepAdds tx) (i :: rest)) v' := by
      intro hh
      rw [show stepAddsList (outputStepAdds tx) (i :: rest) =
        outputStepAdds tx i ++ stepAddsList (outputStepAdds tx) rest from rfl,
        ← List.append_assoc]
      exact hh
    unfold connectOutputs at h
    split at h
    · exact Except.noConfusion h
    · injection h with h1
      injection h1 with h1 h2
      exact absurd h1 (by simp)
    · rename_i res v₁ heq
      have hdis := List.disjoint_of_nodup_append hnd
      have hfreshU : ∀ p ∈ outputStepAdds tx i, p ∉ used := by
        intro p hp hpu
        exact hdis hpu (List.mem_append_left _ hp)
      have hstep := connectOutput_preserves net s tx height i used v v₁
        hI hB hfresh hfreshU heq
      exact hgoal (ih (used ++ outputStepAdds tx i) v₁ v' hI hstep hfresh hnd' h)

/-- An accepted run of one transaction's covenants preserves the block
invariant. -/
theorem connectCovenants_preserves (ctx : Ctx) (net : Network) (s : Store)
    (tx : TX) (height : Int) (used : List Outpoint) (v v' : View)
    (hI : Inv s) (hB : BlockInv s used v) (hcf : CoinsFaithful ctx s)
    (hfresh : ∀ j : Nat, kget s.n (Outpoint.mk tx.hash j) = none)
    (hnd : (used ++ txAdds tx).Nodup)
    (h : connectCovenants ctx net s tx height v = Except.ok (true, v')) :
    BlockInv s (used ++ txAdds tx) v' := by
  unfold connectCovenants at h
  split at h
  · injection h with h1
    injection h1 with h1 h2
    subst h2
    exact blockInv_mono s used _ v (fun x hx => List.mem_append_left _ hx) hB
  · split at h
    · exact Except.noConfusion h
    · injection h with h1
      injection h1 with h1 h2
      exact absurd h1 (by simp)
    · rename_i res v₁ heq
      have hndIn : ((used ++ stepAddsList (inputStepAdds tx)
          (List.range tx.inputs.length)) ++ stepAddsList (outputStepAdds tx)
          (List.range tx.outputs.length)).Nodup := by
        rw [List.append_assoc]
        exact hnd
      have hstep1 := connectInputs_preserves ctx net s tx height
        (List.range tx.inputs.length) used v v₁ hI hB hcf hfresh
        (by
          have hx := hndIn
          rw [List.nodup_append] at hx
          exact hx.1) heq
      have hstep2 := connectOutputs_preserves net s tx height
        (List.range tx.outputs.length)
        (used ++ stepAddsList (inputStepAdds tx) (List.range tx.inputs.length))
        v₁ v' hI hstep1 hfresh hndIn h
      rw [show txAdds tx = stepAddsList (inputStepAdds tx)
        (List.range tx.inputs.length) ++ stepAddsList (outputStepAdds tx)
        (List.range tx.outputs.length) from rfl, ← List.append_assoc]
      exact hstep2

/-- An accepted run of a block's transaction list preserves the block
invariant. -/
theorem verifyTxs_preserves (ctx : Ctx) (net : Network) (s : Store)
    (height : Int) : ∀ (txs : List TX) (used : List Outpoint) (v v' : View),
    Inv s → BlockInv s used v → CoinsFaithful ctx s →
    (∀ tx ∈ txs, ∀ j : Nat, kget s.n (Outpoint.mk tx.hash j) = none) →
    (used ++ blockAdds txs).Nodup →
    verifyTxs ctx net s height txs v = Except.ok (true, v') →
    BlockInv s (used ++ blockAdds txs) v' := by
  intro txs
  induction txs with
  | nil =>
    intro used v v' hI hB hcf hfresh hnd h
    have h' : (Except.ok (true, v) : CRes) = Except.ok (true, v') := h
    injection h' with h1
    injection h1 with h1 h2
    subst h2
    rw [show blockAdds [] = [] from rfl, List.append_nil]
    exact hB
  | cons tx rest ih =>
    intro used v v' hI hB hcf hfresh hnd h
    have hnd' : ((used ++ txAdds tx) ++ blockAdds rest).Nodup := by
      rw [List.append_assoc]
      exact hnd
    unfold verifyTxs at h
    split at h
    · exact Except.noConfusion h
    · injection h with h1
      injection h1 with h1 h2
      exact absurd h1 (by simp)
    · rename_i res v₁ heq
      have hstep := connectCovenants_preserves ctx net s tx height used v v₁
        hI hB hcf (hfresh tx (List.mem_cons_self tx rest))
        (by
          have hx := hnd'
          rw [List.nodup_append] at hx
          exact hx.1) heq
      have hrest := ih (used ++ txAdds tx) v₁ v' hI hstep hcf
        (fun tx' htx' => hfresh tx' (List.mem_cons_of_mem _ htx')) hnd' h
      rw [show blockAdds (tx :: rest) = txAdds tx ++ blockAdds rest from rfl,
        ← List.append_assoc]
      exact hrest

/-- An accepted `verifyBlock` run on a chain-valid block produces a view
satisfying the block invariant. -/
theorem verifyBlock_blockInv (ctx : Ctx) (net : Network) (s : Store)
    (block : Block) (prev : Entry) (v' : View)
    (hI : Inv s) (hok : BlockOK ctx s (block.txs.drop 1))
    (h : verifyBlock ctx net s block prev [] = Except.ok (true, v')) :
    BlockInv s (blockAdds (block.txs.drop 1)) v' := by
  unfold verifyBlock at h
  split at h
  · injection h with h1
    injection h1 with h1 h2
    exact absurd h1 (by simp)
  · obtain ⟨hnd, hfresh, hcf⟩ := hok
    have := verifyTxs_preserves ctx net s (prev.height + 1) (block.txs.drop 1)
      [] [] v' hI (blockInv_nil s []) hcf hfresh (by rw [List.nil_append]; exact hnd) h
    rw [List.nil_append] at this
    exact this

/-- The block invariant delivers, for every cached auction, the conditions
under which its flush preserves the bijection. -/
theorem blockInv_flushGood (s : Store) (used : List Outpoint) (v : View)
    (hB : BlockInv s used v) : ∀ kv ∈ v, FlushGood s kv.1 kv.2 := by
  intro kv hkv
  obtain ⟨h1, h2, h3, h4, h5, -, -, -⟩ := hB
  refine ⟨h1 kv hkv, h2 kv hkv, ?_⟩
  have hnh := h1 kv hkv
  rw [← hnh]
  show ownerOf (kv.2.ops.foldl (applyOp kv.2.nameHash kv.2.record) s) kv.2.nameHash =
    ownerAfter (ownerOf s kv.2.nameHash) kv.2.ops
  rw [flush_ownerOf kv.2.nameHash kv.2.record kv.2.ops s (h4 kv hkv)]
  by_cases hA : Op.ADD_AUCTION ∈ kv.2.ops
  · rw [if_pos hA]
    have hsync := h3 kv hkv
    rw [hnh]
    exact hsync
  · rw [if_neg hA]
    rcases h5 kv hkv with h | h
    · exact absurd h hA
    · rw [hnh]
      exact h.symm

/-- Any store reachable by connecting valid accepted blocks satisfies the
reverse-index bijection invariant. -/
theorem reach_inv (net : Network) : ∀ s : Store, Reach net s → Inv s := by
  intro s h
  induction h with
  | init => exact inv_empty
  | step ctx s block prev v' hre hok hacc ih =>
    have hBI := verifyBlock_blockInv ctx net s block prev v' ih hok hacc
    refine inv_saveView v' s ih (blockInv_flushGood s _ v' hBI) ?_
    exact hBI.2.2.2.2.2.2.1

/-- C6: after any sequence of valid blocks is connected and flushed through
`saveView`, the bid/reveal records and the reverse index are in bijection:
every bid or reveal record (and the current owner) of an auction is
reverse-indexed under its name hash, every reverse-index record is justified
by a live bid, reveal or current owner, and the three justifications are
mutually exclusive — `NameDB.saveAuction` pairs each `n` write and delete
with the paired `b`/`r`/owner record in the same flush. -/
theorem claim_C6_reverse_index_bijection (net : Network) (s : Store)
    (h : Reach net s) : Inv s :=
  reach_inv net s h

/-- Witness for C6: the concrete one-block chain (a BID on the empty store)
is reachable and its flushed store satisfies the bijection. -/
theorem claim_C6_witness :
    Reach tnet (saveView Store.empty c6view) ∧ Inv (saveView Store.empty c6view) := by
  have hreach : Reach tnet (saveView Store.empty c6view) :=
    Reach.step c6ctx Store.empty c6block c6prev c6view Reach.init
      ⟨by decide, fun tx htx i => rfl, fun p coin hc => Option.noConfusion hc⟩
      rfl
  exact ⟨hreach, claim_C6_reverse_index_bijection tnet _ hreach⟩

/-! ### Order lemmas for the range-scan key order -/

theorem bytesLt_irrefl (a : Bytes) : bytesLt a a = false := by
  induction a with
  | nil => rfl
  | cons x xs ih => simp [bytesLt, ih]

theorem bytesLt_trans : ∀ {a b c : Bytes},
    bytesLt a b = true → bytesLt b c = true → bytesLt a c = true := by
  intro a
  induction a with
  | nil =>
    intro b c h1 h2
    cases b with
    | nil => simp [bytesLt] at h1
    | cons y ys =>
      cases c with
      | nil => simp [bytesLt] at h2
      | cons z zs => simp [bytesLt]
  | cons x xs ih =>
    intro b c h1 h2
    cases b with
    | nil => simp [bytesLt] at h1
    | cons y ys =>
      cases c with
      | nil => simp [bytesLt] at h2
      | cons z zs =>
        simp only [bytesLt] at h1 h2 ⊢
        by_cases hxy : x < y
        · by_cases hyz : y < z
          · rw [if_pos (by omega)]
          · rw [if_neg hyz] at h2
            by_cases hyz2 : y = z
            · rw [if_pos (by omega)]
            · rw [if_neg hyz2] at h2
              exact absurd h2 (by simp)
        · rw [if_neg hxy] at h1
          by_cases hxy2 : x = y
          · rw [if_pos hxy2] at h1
            subst hxy2
            by_cases hyz : x < z
            · rw [if_pos hyz]
            · rw [if_neg hyz] at h2 ⊢
              by_cases hyz2 : x = z
              · rw [if_pos hyz2] at h2 ⊢
                exact ih h1 h2
              · rw [if_neg hyz2] at h2
                exact absurd h2 (by simp)
          · rw [if_neg hxy2] at h1
            exact absurd h1 (by simp)

theorem bytesLt_total (a b : Bytes) :
    bytesLt a b = true ∨ a = b ∨ bytesLt b a = true := by
  induction a generalizing b with
  | nil => cases b <;> simp [bytesLt]
  | cons x xs ih =>
    cases b with
    | nil => simp [bytesLt]
    | cons y ys =>
      rcases Nat.lt_trichotomy x y with h | h | h
      · left; simp [bytesLt, h]
      · subst h
        rcases ih ys with h2 | h2 | h2
        · left; simp [bytesLt, h2]
        · right; left; rw [h2]
        · right; right; simp [bytesLt, h2]
      · right; right; simp [bytesLt, h]

theorem keyLe_refl (p : Outpoint) : keyLe p p = true := by simp [keyLe]

theorem keyLe_total (p q : Outpoint) : keyLe p q = true ∨ keyLe q p = true := by
  unfold keyLe
  by_cases h : p.hash = q.hash
  · have h' : q.hash = p.hash := h.symm
    rw [if_pos h, if_pos h']
    simp only [decide_eq_true_eq]
    omega
  · have h' : ¬(q.hash = p.hash) := fun hh => h hh.symm
    rw [if_neg h, if_neg h']
    rcases bytesLt_total p.hash q.hash with hl | he | hl
    · exact Or.inl hl
    · exact absurd he h
    · exact Or.inr hl

theorem keyLe_trans {p q r : Outpoint} :
    keyLe p q = true → keyLe q r = true → keyLe p r = true := by
  unfold keyLe
  by_cases h1 : p.hash = q.hash <;> by_cases h2 : q.hash = r.hash
  · intro hpq hqr
    rw [if_pos h1] at hpq
    rw [if_pos h2] at hqr
    rw [if_pos (h1.trans h2)]
    simp only [decide_eq_true_eq] at hpq hqr ⊢
    omega
  · intro _ hqr
    rw [if_neg h2] at hqr
    have h3 : ¬(p.hash = r.hash) := fun hh => h2 (h1.symm.trans hh)
    rw [if_neg h3, h1]
    exact hqr
  · intro hpq _
    rw [if_neg h1] at hpq
    have h3 : ¬(p.hash = r.hash) := fun hh => h1 (hh.trans h2.symm)
    rw [if_neg h3, ← h2]
    exact hpq
  · intro hpq hqr
    rw [if_neg h1] at hpq
    rw [if_neg h2] at hqr
    have htr := bytesLt_trans hpq hqr
    have h3 : ¬(p.hash = r.hash) := by
      intro hh
      rw [hh, bytesLt_irrefl] at htr
      exact absurd htr (by simp)
    rw [if_neg h3]
    exact htr

instance : IsTotal (Outpoint × Int) keyRel := ⟨fun x y => keyLe_total x.1 y.1⟩

instance : IsTrans (Outpoint × Int) keyRel := ⟨fun _ _ _ => keyLe_trans⟩

/-! ### The winner fold -/

theorem pickFold_append (l : List (Outpoint × Int)) (x : Outpoint × Int) :
    pickFold (l ++ [x]) =
      if x.2 ≥ (pickFold l).2 then (some x.1, x.2) else pickFold l := by
  simp [pickFold, List.foldl_append]

/-- The running best value of the fold is nonnegative (it starts at 0) and
dominates every visited value. -/
theorem pickFold_max (l : List (Outpoint × Int)) :
    0 ≤ (pickFold l).2 ∧ ∀ x ∈ l, x.2 ≤ (pickFold l).2 := by
  induction l using List.reverseRecOn with
  | nil => simp [pickFold]
  | append_singleton l x ih =>
    rw [pickFold_append]
    by_cases hc : x.2 ≥ (pickFold l).2
    · rw [if_pos hc]
      refine ⟨le_trans ih.1 hc, ?_⟩
      intro y hy
      rcases List.mem_append.mp hy with hyl | hyx
      · exact le_trans (ih.2 y hyl) hc
      · have : y = x := by simpa using hyx
        subst this
        exact le_refl _
    · rw [if_neg hc]
      refine ⟨ih.1, ?_⟩
      intro y hy
      rcases List.mem_append.mp hy with hyl | hyx
      · exact ih.2 y hyl
      · have : y = x := by simpa using hyx
        subst this
        omega

theorem pickFold_mem_of_some : ∀ (l : List (Outpoint × Int)) (w : Outpoint),
    (pickFold l).1 = some w → ∃ val, (w, val) ∈ l := by
  intro l
  induction l using List.reverseRecOn with
  | nil => intro w h; exact absurd h (by simp [pickFold])
  | append_singleton l x ih =>
    intro w h
    rw [pickFold_append] at h
    by_cases hc : x.2 ≥ (pickFold l).2
    · rw [if_pos hc] at h
      have hx : x.1 = w := by simpa using h
      refine ⟨x.2, List.mem_append_right _ ?_⟩
      rw [← hx]
      simp
    · rw [if_neg hc] at h
      obtain ⟨val, hv⟩ := ih w h
      exact ⟨val, List.mem_append_left _ hv⟩

/-- A picked winner has a live reveal record under the name hash. -/
theorem pickWinner_revAt (s : Store) (nh : Bytes) (w : Outpoint)
    (h : pickWinner s nh = some w) : revAt s nh w := by
  obtain ⟨val, hv⟩ := pickFold_mem_of_some (rRange s nh) w h
  unfold rRange at hv
  have hv' := (List.perm_insertionSort keyRel _).mem_iff.mp hv
  rcases List.mem_map.mp hv' with ⟨⟨⟨a, b⟩, c⟩, hkvmem, hkveq⟩
  rcases List.mem_filter.mp hkvmem with ⟨hmem, hcond⟩
  have ha : a = nh := of_decide_eq_true hcond
  injection hkveq with hb hc
  show kget s.r (nh, w) ≠ none
  rw [← ha, ← hb]
  exact kget_ne_none_of_mem s.r (a, b) c hmem

/-- The fold of `pickWinner` over a key-sorted record list: it returns `none`
exactly on the empty list, and otherwise the record carrying the running
maximum whose key is latest among the ties (`bid >= best` lets later keys
overwrite earlier ones). -/
theorem pickFold_spec : ∀ l : List (Outpoint × Int),
    List.Sorted keyRel l → (∀ x ∈ l, 0 ≤ x.2) →
    (((pickFold l).1 = none ↔ l = []) ∧
      (∀ p, (pickFold l).1 = some p →
        (p, (pickFold l).2) ∈ l ∧
        (∀ x ∈ l, x.2 = (pickFold l).2 → keyLe x.1 p = true))) := by
  intro l
  induction l using List.reverseRecOn with
  | nil =>
    intro _ _
    simp [pickFold]
  | append_singleton l x ih =>
    intro hsort hpos
    obtain ⟨hsl, -, hrel⟩ := List.pairwise_append.mp hsort
    have hlx : ∀ y ∈ l, keyLe y.1 x.1 = true :=
      fun y hy => hrel y hy x (List.mem_singleton_self x)
    have hposl : ∀ y ∈ l, 0 ≤ y.2 := fun y hy => hpos y (List.mem_append_left _ hy)
    have ihs := ih hsl hposl
    rw [pickFold_append]
    by_cases hc : x.2 ≥ (pickFold l).2
    · rw [if_pos hc]
      constructor
      · simp
      · intro p hp
        have hpx : x.1 = p := by simpa using hp
        subst hpx
        constructor
        · simp [List.mem_append]
        · intro y hy _
          rcases List.mem_append.mp hy with hyl | hyx
          · exact hlx y hyl
          · have : y = x := by simpa using hyx
            subst this
            exact keyLe_refl _
    · rw [if_neg hc]
      have hne : l ≠ [] := by
        rintro rfl
        have h0 : (0 : Int) ≤ x.2 := hpos x (by simp)
        have : (pickFold ([] : List (Outpoint × Int))).2 = 0 := rfl
        omega
      constructor
      · constructor
        · intro hnone
          exact absurd (ihs.1.mp hnone) hne
        · intro habs
          exact absurd habs (by simp)
      · intro p hp
        obtain ⟨hmem, htie⟩ := ihs.2 p hp
        refine ⟨List.mem_append_left _ hmem, ?_⟩
        intro y hy hv
        rcases List.mem_append.mp hy with hyl | hyx
        · exact htie y hyl hv
        · have : y = x := by simpa using hyx
          subst this
          omega

/-- Claim C1 (refuted by the code; the rollback property is the stated
intent of the disconnect engine): for the concrete one-transaction block
`c1tx` built on `c1S0` (a BID coin spent into a REVEAL), `connectCovenants`
accepts and the flush changes the store, but `disconnectCovenants` on the
flushed state terminates with an assertion failure instead of restoring
`c1S0`: the connect deleted the bid record and its reverse-index entry
(`REMOVE_BID`), and the `bid <- reveal` disconnect arm (`db.js` lines
646-656) never re-adds the bid, so the auction cannot even be found through
the reverse index.  In particular `connect(B); disconnect(B)` does not
restore the starting state. -/
theorem claim_C1_rollback_fails :
    (match c1res with | .ok (true, _) => true | _ => false) = true ∧
    c1S1 ≠ c1S0 ∧
    disconnectCovenants c1ctx tnet c1S1 c1tx 101 [] = .error .assertFail := by
  refine ⟨by decide, by decide, ?_⟩
  have h : (match disconnectCovenants c1ctx tnet c1S1 c1tx 101 [] with
    | .error .assertFail => true | _ => false) = true := by decide
  revert h
  cases disconnectCovenants c1ctx tnet c1S1 c1tx 101 [] with
  | error e => cases e <;> simp
  | ok v => simp

/-- Claim C2 (refuted by the code, which the spec itself flags in §9 open
question 3): `verifyBlock` compares the header's trie root against the
engine's root BEFORE the block's transitions are applied (`db.js` line 244;
the trie is only modified later, by `saveView`).  Concretely: the block
committing the pre-block root is accepted although the post-flush root
differs from its header commitment, and the block committing the true
post-block root is rejected. -/
theorem claim_C2_root_check_is_preblock :
    (match c2res with | .ok (true, _) => true | _ => false) = true ∧
    (match c2res with
      | .ok (_, v) => decide (getTrieRoot (saveView c2S v) ≠ c2blockPre.trieRoot)
      | .error _ => false) = true ∧
    (match verifyBlock c2ctx tnet c2S c2blockPost c2prev [] with
      | .ok (false, _) => true | _ => false) = true := by
  refine ⟨by decide, by decide, by decide⟩

/-- Claim C4 (refuted by the code in the renewal-undo case): when the
`update <- update` disconnect needs the renewal undo `k[prevout]` and the
record is absent, `getUndoRenewal` returns `null`, the guard
`assert(undo !== -1)` (`db.js` line 736) passes because `null !== -1` is
true in JS, and the disconnect completes silently with `auction.renewal`
set to `null` — the corrupted record is even flushed to the `a` family —
instead of terminating with a fatal error. -/
theorem claim_C4_missing_renewal_undo_is_silent :
    kget c4S.k c4p = none ∧
    (match c4res with | .ok _ => true | .error _ => false) = true ∧
    (match c4res with
      | .ok v => (match kget v c4nh with
                  | some a => decide (a.renewal = none)
                  | none => false)
      | .error _ => false) = true ∧
    (match c4res with
      | .ok v => (match kget (saveView c4S v).a c4nh with
                  | some rec => decide (rec.renewal = none)
                  | none => false)
      | .error _ => false) = true := by
  refine ⟨by decide, by decide, by decide, by decide⟩

/-- Claim C9 (confirmed): the `update -> update` arm as written in the
source — no `break`, falling through into the empty `update -> transfer`
arm — is observably equivalent to the variant that stops right after the
update arm: same fault/return value and same auction (fields and op log). -/
theorem claim_C9_update_fallthrough_equiv (ctx : Ctx) (net : Network) (height : Int)
    (prevout outpoint : Outpoint) (cov : Covenant) (auc : Auction) :
    updateSwitch ctx net height prevout outpoint cov auc =
      updateSwitchBreak ctx net height prevout outpoint cov auc := by
  obtain ⟨t, items⟩ := cov
  cases t with
  | UPDATE =>
    show (match updateUpdateBody ctx net height prevout outpoint ⟨.UPDATE, items⟩ auc with
      | .error e => .error e
      | .ok (false, auc') => .ok (false, auc')
      | .ok (true, auc') => updateTransferArm (true, auc')) =
      updateUpdateBody ctx net height prevout outpoint ⟨.UPDATE, items⟩ auc
    cases updateUpdateBody ctx net height prevout outpoint ⟨.UPDATE, items⟩ auc with
    | error e => rfl
    | ok ba =>
      obtain ⟨b, a⟩ := ba
      cases b <;> rfl
  | NONE => rfl
  | BID => rfl
  | REVEAL => rfl
  | REDEEM => rfl
  | TRANSFER => rfl
  | RELEASE => rfl

/-- Claim C10 (confirmed): in `connectCovenants`, an input whose prior
covenant type is BID, REVEAL, UPDATE or TRANSFER but which has no
transaction output at its index terminates with an assertion failure
(`assert(output)`, `db.js` lines 308, 334, 415, 483), not a consensus
`false`; an input whose prior covenant is NONE is skipped and the view
is returned untouched. -/
theorem claim_C10_missing_output_asserts (ctx : Ctx) (net : Network) (s : Store)
    (th : Bytes) (p : Outpoint) (coin : Output) (height : Int) (v : View)
    (hcoin : ctx.coins p = some coin) :
    (coin.covenant.type = .BID ∨ coin.covenant.type = .REVEAL ∨
        coin.covenant.type = .UPDATE ∨ coin.covenant.type = .TRANSFER →
      connectCovenants ctx net s ⟨th, false, [p], []⟩ height v = .error .assertFail) ∧
    (coin.covenant.type = .NONE →
      connectCovenants ctx net s ⟨th, false, [p], []⟩ height v = .ok (true, v)) := by
  have hinput : connectCovenants ctx net s ⟨th, false, [p], []⟩ height v =
      match connectInput ctx net s ⟨th, false, [p], []⟩ height 0 v with
      | .error e => .error e
      | .ok (false, v') => .ok (false, v')
      | .ok (true, v') => connectOutputs net s ⟨th, false, [p], []⟩ height [] v' := by
    cases h : connectInput ctx net s ⟨th, false, [p], []⟩ height 0 v with
    | error e => simp [connectCovenants, connectInputs, h]
    | ok bv =>
      obtain ⟨b, v'⟩ := bv
      cases b <;> simp [connectCovenants, connectInputs, h, connectOutputs]
  constructor
  · intro htype
    rw [hinput]
    have : connectInput ctx net s ⟨th, false, [p], []⟩ height 0 v = .error .assertFail := by
      unfold connectInput
      simp only [List.getElem?_cons_zero, List.getElem?_nil, hcoin]
      rcases htype with h | h | h | h <;> rw [h] <;>
        rcases View.getAuctionFor v s p with ⟨a?, v'⟩ <;> cases a? <;> rfl
    rw [this]
  · intro htype
    rw [hinput]
    have : connectInput ctx net s ⟨th, false, [p], []⟩ height 0 v = .ok (true, v) := by
      unfold connectInput
      simp only [List.getElem?_cons_zero, List.getElem?_nil, hcoin, htype]
      rfl
    rw [this]
    rfl

/-- Witness for claim C10 at a concrete input: a BID coin with no matching
output asserts. -/
theorem claim_C10_witness :
    c10ctx.coins c10p = some c10coin ∧
    connectCovenants c10ctx tnet Store.empty ⟨[7], false, [c10p], []⟩ 5 [] =
      .error .assertFail := by
  refine ⟨rfl, ?_⟩
  exact (claim_C10_missing_output_asserts c10ctx tnet Store.empty [7] c10p c10coin 5 []
    rfl).1 (Or.inl rfl)

/-- Run characterization shared by the UPDATE→UPDATE claims: for a
single-input transaction spending an UPDATE coin whose auction is closed and
owned by the prevout, `connectCovenants` returns whatever the update switch
returned, with the mutated auction cached in the view. -/
theorem connectCovenants_updateTx_run (ctx : Ctx) (net : Network) (s : Store)
    (th : Bytes) (p : Outpoint) (vv cv : Int) (ci : List Bytes) (out : Covenant)
    (nh : Bytes) (rec : AuctionRec) (height : Int) (res : Bool) (auc' : Auction)
    (hcoin : ctx.coins p = some ⟨cv, ⟨.UPDATE, ci⟩⟩)
    (hn : kget s.n p = some nh)
    (ha : kget s.a nh = some rec)
    (hstate : (Auction.ofRec nh rec).state height net = .CLOSED)
    (howner : rec.owner = some p)
    (hnb : out.type ≠ .BID)
    (hswitch : updateSwitch ctx net height p ⟨th, 0⟩ out (Auction.ofRec nh rec)
      = .ok (res, auc'))
    (hnh : auc'.nameHash = nh) :
    connectCovenants ctx net s ⟨th, false, [p], [⟨vv, out⟩]⟩ height []
      = .ok (res, [(nh, auc')]) := by
  have howner' : (Auction.ofRec nh rec).owner = some p := howner
  have hinput : connectInput ctx net s ⟨th, false, [p], [⟨vv, out⟩]⟩ height 0 [] =
      .ok (res, [(nh, auc')]) := by
    unfold connectInput
    simp only [List.getElem?_cons_zero, hcoin]
    simp only [View.getAuctionFor, View.getAuction, hn, ha, kget, kput]
    simp [hstate, howner', hswitch, hnh, kput]
  cases res with
  | true =>
    simp [connectCovenants, connectInputs, hinput, connectOutputs, connectOutput,
      List.range_succ, hnb]
  | false => simp [connectCovenants, connectInputs, hinput]

/-- Claim C3 (confirmed; the `Auction` op methods are modelled from the
spec, `auction.js` not being under `src/`): an accepted `update -> update`
renewal enqueues `ADD_RENEWAL(prevout, r0)` where `r0` is the auction's
`renewal` height before the transition — flushed by `saveView` as the
u32-LE value under `k[prevout]` — and sets the auction's `renewal` to the
current block height. -/
theorem claim_C3_renewal_records_prior (ctx : Ctx) (net : Network) (s : Store)
    (th : Bytes) (p : Outpoint) (vv cv : Int) (ci : List Bytes) (d0 d1 bh : Bytes)
    (nh : Bytes) (rec : AuctionRec) (height : Int) (e : Entry) (r0 : Int)
    (hcoin : ctx.coins p = some ⟨cv, ⟨.UPDATE, ci⟩⟩)
    (hn : kget s.n p = some nh)
    (ha : kget s.a nh = some rec)
    (hstate : (Auction.ofRec nh rec).state height net = .CLOSED)
    (howner : rec.owner = some p)
    (hrenew : rec.renewal = some r0)
    (hentry : ctx.entries bh = some e)
    (hmain : e.main = true)
    (hmature : e.height ≤ height - net.coinbaseMaturity)
    (hperiod : e.height ≥ height - net.renewalPeriod) :
    ∃ a' : Auction,
      connectCovenants ctx net s ⟨th, false, [p], [⟨vv, ⟨.UPDATE, [d0, d1, bh]⟩⟩]⟩ height []
        = .ok (true, [(nh, a')]) ∧
      a'.renewal = some height ∧
      Op.ADD_RENEWAL p r0 ∈ a'.ops ∧
      kget (saveView s [(nh, a')]).k p = some (fromU32 r0) := by
  refine ⟨⟨nh, rec.name, some ⟨th, 0⟩, rec.height, some height, rec.bids, some d1,
    [.REMOVE_OWNER p, .ADD_OWNER ⟨th, 0⟩, .COMMIT d1, .ADD_RENEWAL p r0, .ADD_AUCTION]⟩,
    ?_, rfl, by simp, ?_⟩
  · have hlit : ((((Auction.ofRec nh rec).setOwner (some ⟨th, 0⟩)).commit d1).addRenewal
        p height).save =
        (⟨nh, rec.name, some ⟨th, 0⟩, rec.height, some height, rec.bids, some d1,
          [.REMOVE_OWNER p, .ADD_OWNER ⟨th, 0⟩, .COMMIT d1, .ADD_RENEWAL p r0,
           .ADD_AUCTION]⟩ : Auction) := by
      simp [Auction.ofRec, Auction.setOwner, Auction.commit, Auction.addRenewal,
        Auction.save, Auction.push, howner, hrenew, jsNum]
    have hbody : updateUpdateBody ctx net height p ⟨th, 0⟩ ⟨.UPDATE, [d0, d1, bh]⟩
        (Auction.ofRec nh rec) =
        .ok (true, (⟨nh, rec.name, some ⟨th, 0⟩, rec.height, some height, rec.bids, some d1,
          [.REMOVE_OWNER p, .ADD_OWNER ⟨th, 0⟩, .COMMIT d1, .ADD_RENEWAL p r0,
           .ADD_AUCTION]⟩ : Auction)) := by
      have h1 : covItem ⟨CovType.UPDATE, [d0, d1, bh]⟩ 1 = d1 := rfl
      have h2 : covItem ⟨CovType.UPDATE, [d0, d1, bh]⟩ 2 = bh := rfl
      unfold updateUpdateBody
      rw [h1, h2,
        if_pos (show ((⟨CovType.UPDATE, [d0, d1, bh]⟩ : Covenant).items.length = 3) from rfl),
        hentry]
      simp only [hmain, Bool.not_true, Bool.false_eq_true, if_false]
      rw [if_neg (by omega), if_neg (by omega), hlit]
    have hswitch : updateSwitch ctx net height p ⟨th, 0⟩ ⟨.UPDATE, [d0, d1, bh]⟩
        (Auction.ofRec nh rec) =
        .ok (true, (⟨nh, rec.name, some ⟨th, 0⟩, rec.height, some height, rec.bids, some d1,
          [.REMOVE_OWNER p, .ADD_OWNER ⟨th, 0⟩, .COMMIT d1, .ADD_RENEWAL p r0,
           .ADD_AUCTION]⟩ : Auction)) := by
      unfold updateSwitch
      rw [hbody]
      rfl
    exact connectCovenants_updateTx_run ctx net s th p vv cv ci ⟨.UPDATE, [d0, d1, bh]⟩
      nh rec height true
      ⟨nh, rec.name, some ⟨th, 0⟩, rec.height, some height, rec.bids, some d1,
        [.REMOVE_OWNER p, .ADD_OWNER ⟨th, 0⟩, .COMMIT d1, .ADD_RENEWAL p r0, .ADD_AUCTION]⟩
      hcoin hn ha hstate howner (fun h => CovType.noConfusion h) hswitch rfl
  · exact kget_kput_self s.k p (fromU32 r0)

/-- Witness for claim C3 at a concrete input: prior renewal height 55 is
recorded under `k[([5],0)]` and `renewal` becomes the current height 100. -/
theorem claim_C3_witness :
    ∃ a' : Auction,
      connectCovenants c3ctx tnet c3S c3tx 100 [] = .ok (true, [(c3nh, a')]) ∧
      a'.renewal = some 100 ∧
      Op.ADD_RENEWAL c3p 55 ∈ a'.ops ∧
      kget (saveView c3S [(c3nh, a')]).k c3p = some (fromU32 55) :=
  claim_C3_renewal_records_prior c3ctx tnet c3S [6] c3p 0 0 [[0], [8]] [0] [9] [7]
    c3nh c3rec 100 ⟨0, true⟩ 55 (by decide) (by decide) (by decide) (by decide)
    (by decide) (by decide) (by decide) (by decide) (by decide) (by decide)

/-- Claim C8 (confirmed): an `update -> update` covenant carrying a third
item is accepted iff the referenced block entry exists, lies on the main
chain, has height at most `height - COINBASE_MATURITY` and at least
`height - RENEWAL_PERIOD` (both inclusive); any failed condition makes
`connectCovenants` return `false` (a consensus failure, not a fault). -/
theorem claim_C8_renewal_acceptance_iff (ctx : Ctx) (net : Network) (s : Store)
    (th : Bytes) (p : Outpoint) (vv cv : Int) (ci : List Bytes) (d0 d1 bh : Bytes)
    (nh : Bytes) (rec : AuctionRec) (height : Int)
    (hcoin : ctx.coins p = some ⟨cv, ⟨.UPDATE, ci⟩⟩)
    (hn : kget s.n p = some nh)
    (ha : kget s.a nh = some rec)
    (hstate : (Auction.ofRec nh rec).state height net = .CLOSED)
    (howner : rec.owner = some p) :
    ((∃ v, connectCovenants ctx net s ⟨th, false, [p], [⟨vv, ⟨.UPDATE, [d0, d1, bh]⟩⟩]⟩
        height [] = .ok (true, v)) ↔
      (∃ e, ctx.entries bh = some e ∧ e.main = true ∧
        e.height ≤ height - net.coinbaseMaturity ∧
        e.height ≥ height - net.renewalPeriod)) ∧
    ((¬ ∃ e, ctx.entries bh = some e ∧ e.main = true ∧
        e.height ≤ height - net.coinbaseMaturity ∧
        e.height ≥ height - net.renewalPeriod) →
      ∃ v, connectCovenants ctx net s ⟨th, false, [p], [⟨vv, ⟨.UPDATE, [d0, d1, bh]⟩⟩]⟩
        height [] = .ok (false, v)) := by
  have h1 : covItem ⟨CovType.UPDATE, [d0, d1, bh]⟩ 1 = d1 := rfl
  have h2 : covItem ⟨CovType.UPDATE, [d0, d1, bh]⟩ 2 = bh := rfl
  have h3 : ((⟨CovType.UPDATE, [d0, d1, bh]⟩ : Covenant).items.length = 3) := rfl
  have hlitR : ((Auction.ofRec nh rec).setOwner (some ⟨th, 0⟩)).commit d1 =
      (⟨nh, rec.name, some ⟨th, 0⟩, rec.height, rec.renewal, rec.bids, some d1,
        [.REMOVE_OWNER p, .ADD_OWNER ⟨th, 0⟩, .COMMIT d1]⟩ : Auction) := by
    simp [Auction.ofRec, Auction.setOwner, Auction.commit, Auction.push, howner]
  have hrunR : ∀ res : Bool,
      updateSwitch ctx net height p ⟨th, 0⟩ ⟨.UPDATE, [d0, d1, bh]⟩
          (Auction.ofRec nh rec) = .ok (res,
        (⟨nh, rec.name, some ⟨th, 0⟩, rec.height, rec.renewal, rec.bids, some d1,
          [.REMOVE_OWNER p, .ADD_OWNER ⟨th, 0⟩, .COMMIT d1]⟩ : Auction)) →
      connectCovenants ctx net s ⟨th, false, [p], [⟨vv, ⟨.UPDATE, [d0, d1, bh]⟩⟩]⟩ height []
        = .ok (res, [(nh,
        (⟨nh, rec.name, some ⟨th, 0⟩, rec.height, rec.renewal, rec.bids, some d1,
          [.REMOVE_OWNER p, .ADD_OWNER ⟨th, 0⟩, .COMMIT d1]⟩ : Auction))]) :=
    fun res hs => connectCovenants_updateTx_run ctx net s th p vv cv ci
      ⟨.UPDATE, [d0, d1, bh]⟩ nh rec height res _ hcoin hn ha hstate howner
      (fun h => CovType.noConfusion h) hs rfl
  cases hE : ctx.entries bh with
  | none =>
    have hbody : updateUpdateBody ctx net height p ⟨th, 0⟩ ⟨.UPDATE, [d0, d1, bh]⟩
        (Auction.ofRec nh rec) = .ok (false,
        (⟨nh, rec.name, some ⟨th, 0⟩, rec.height, rec.renewal, rec.bids, some d1,
          [.REMOVE_OWNER p, .ADD_OWNER ⟨th, 0⟩, .COMMIT d1]⟩ : Auction)) := by
      unfold updateUpdateBody
      rw [h1, h2, if_pos h3, hE, hlitR]
    have hrun := hrunR false (by unfold updateSwitch; rw [hbody])
    refine ⟨⟨?_, ?_⟩, fun _ => ⟨_, hrun⟩⟩
    · rintro ⟨v, hv⟩
      rw [hrun] at hv
      simp at hv
    · rintro ⟨e, he, -⟩
      exact Option.noConfusion he
  | some e =>
    by_cases hm : e.main = true
    · by_cases hmat : e.height ≤ height - net.coinbaseMaturity
      · by_cases hper : e.height ≥ height - net.renewalPeriod
        · -- all renewal conditions hold: accepted
          have hlitA : ((((Auction.ofRec nh rec).setOwner (some ⟨th, 0⟩)).commit
              d1).addRenewal p height).save =
              (⟨nh, rec.name, some ⟨th, 0⟩, rec.height, some height, rec.bids, some d1,
                [.REMOVE_OWNER p, .ADD_OWNER ⟨th, 0⟩, .COMMIT d1,
                 .ADD_RENEWAL p (jsNum rec.renewal), .ADD_AUCTION]⟩ : Auction) := by
            simp [Auction.ofRec, Auction.setOwner, Auction.commit, Auction.addRenewal,
              Auction.save, Auction.push, howner]
          have hbody : updateUpdateBody ctx net height p ⟨th, 0⟩ ⟨.UPDATE, [d0, d1, bh]⟩
              (Auction.ofRec nh rec) = .ok (true,
              (⟨nh, rec.name, some ⟨th, 0⟩, rec.height, some height, rec.bids, some d1,
                [.REMOVE_OWNER p, .ADD_OWNER ⟨th, 0⟩, .COMMIT d1,
                 .ADD_RENEWAL p (jsNum rec.renewal), .ADD_AUCTION]⟩ : Auction)) := by
            unfold updateUpdateBody
            rw [h1, h2, if_pos h3, hE]
            simp only [hm, Bool.not_true, Bool.false_eq_true, if_false]
            rw [if_neg (by omega), if_neg (by omega), hlitA]
          have hrun := connectCovenants_updateTx_run ctx net s th p vv cv ci
            ⟨.UPDATE, [d0, d1, bh]⟩ nh rec height true _ hcoin hn ha hstate howner
            (fun h => CovType.noConfusion h)
            (by unfold updateSwitch; rw [hbody]; rfl) rfl
          exact ⟨⟨fun _ => ⟨e, rfl, hm, hmat, hper⟩, fun _ => ⟨_, hrun⟩⟩,
            fun hno => absurd ⟨e, rfl, hm, hmat, hper⟩ hno⟩
        · -- too old: renewal period exceeded
          have hbody : updateUpdateBody ctx net height p ⟨th, 0⟩ ⟨.UPDATE, [d0, d1, bh]⟩
              (Auction.ofRec nh rec) = .ok (false,
              (⟨nh, rec.name, some ⟨th, 0⟩, rec.height, rec.renewal, rec.bids, some d1,
                [.REMOVE_OWNER p, .ADD_OWNER ⟨th, 0⟩, .COMMIT d1]⟩ : Auction)) := by
            unfold updateUpdateBody
            rw [h1, h2, if_pos h3, hE]
            simp only [hm, Bool.not_true, Bool.false_eq_true, if_false]
            rw [if_neg (by omega), if_pos (by omega), hlitR]
          have hrun := hrunR false (by unfold updateSwitch; rw [hbody])
          refine ⟨⟨?_, ?_⟩, fun _ => ⟨_, hrun⟩⟩
          · rintro ⟨v, hv⟩
            rw [hrun] at hv
            simp at hv
          · rintro ⟨e', he', -, -, hper'⟩
            cases he'
            exact absurd hper' hper
      · -- not mature
        have hbody : updateUpdateBody ctx net height p ⟨th, 0⟩ ⟨.UPDATE, [d0, d1, bh]⟩
            (Auction.ofRec nh rec) = .ok (false,
            (⟨nh, rec.name, some ⟨th, 0⟩, rec.height, rec.renewal, rec.bids, some d1,
              [.REMOVE_OWNER p, .ADD_OWNER ⟨th, 0⟩, .COMMIT d1]⟩ : Auction)) := by
          unfold updateUpdateBody
          rw [h1, h2, if_pos h3, hE]
          simp only [hm, Bool.not_true, Bool.false_eq_true, if_false]
          rw [if_pos (by omega), hlitR]
        have hrun := hrunR false (by unfold updateSwitch; rw [hbody])
        refine ⟨⟨?_, ?_⟩, fun _ => ⟨_, hrun⟩⟩
        · rintro ⟨v, hv⟩
          rw [hrun] at hv
          simp at hv
        · rintro ⟨e', he', -, hmat', -⟩
          cases he'
          exact absurd hmat' hmat
    · -- not on the main chain
      have hm' : e.main = false := by revert hm; cases e.main <;> simp
      have hbody : updateUpdateBody ctx net height p ⟨th, 0⟩ ⟨.UPDATE, [d0, d1, bh]⟩
          (Auction.ofRec nh rec) = .ok (false,
          (⟨nh, rec.name, some ⟨th, 0⟩, rec.height, rec.renewal, rec.bids, some d1,
            [.REMOVE_OWNER p, .ADD_OWNER ⟨th, 0⟩, .COMMIT d1]⟩ : Auction)) := by
        unfold updateUpdateBody
        rw [h1, h2, if_pos h3, hE]
        simp only [hm', Bool.not_false, if_true]
        rw [hlitR]
      have hrun := hrunR false (by unfold updateSwitch; rw [hbody])
      refine ⟨⟨?_, ?_⟩, fun _ => ⟨_, hrun⟩⟩
      · rintro ⟨v, hv⟩
        rw [hrun] at hv
        simp at hv
      · rintro ⟨e', he', hm'', -⟩
        cases he'
        exact absurd hm'' hm

/-- Witness for claim C8 at a concrete input: the entry at height 0 is on
the main chain, mature at height 100 with maturity 100, and within the
renewal period 1000, so the renewal is accepted. -/
theorem claim_C8_witness :
    ∃ v, connectCovenants c3ctx tnet c3S c3tx 100 [] = .ok (true, v) :=
  (claim_C8_renewal_acceptance_iff c3ctx tnet c3S [6] c3p 0 0 [[0], [8]] [0] [9] [7]
    c3nh c3rec 100 (by decide) (by decide) (by decide) (by decide) (by decide)).1.mpr
    ⟨⟨0, true⟩, by decide, by decide, by decide, by decide⟩

/-- The owned half of the stale-release behaviour, shared by the corrected
claim C7: with a non-null owner the snapshot, reset, uncommit and bid all
happen in order. -/
theorem claim_C7_aux (ctx : Ctx) (net : Network) (s : Store)
    (th nm : Bytes) (vv : Int) (rec : AuctionRec) (height : Int) (w : Outpoint)
    (hgate : ¬(net.isMain = true ∧
      height < (((blake2b nm).getD 0 0 % 52 : Nat) : Int) * net.rolloutInterval))
    (ha : kget s.a (blake2b nm) = some rec)
    (hstale : height ≥ jsNum rec.renewal + net.renewalWindow)
    (howner : rec.owner = some w)
    (hbp : 0 < net.biddingPeriod) :
    ∃ a' : Auction,
      connectCovenants ctx net s ⟨th, false, [], [⟨vv, ⟨.BID, [nm]⟩⟩]⟩ height []
        = .ok (true, [(blake2b nm, a')]) ∧
      a'.owner = none ∧ a'.height = height ∧ a'.renewal = some height ∧ a'.bids = 1 ∧
      a'.ops = [.ADD_UNDO ⟨th, synthIndex 0⟩ rec, .REMOVE_OWNER w, .UNCOMMIT,
                .ADD_BID ⟨th, 0⟩, .ADD_AUCTION] ∧
      kget (saveView s [(blake2b nm, a')]).u ⟨th, synthIndex 0⟩ = some rec ∧
      kget (saveView s [(blake2b nm, a')]).trie (blake2b nm) = none := by
  refine ⟨⟨blake2b nm, rec.name, none, height, some height, 1, rec.data,
    [.ADD_UNDO ⟨th, synthIndex 0⟩ rec, .REMOVE_OWNER w, .UNCOMMIT, .ADD_BID ⟨th, 0⟩,
     .ADD_AUCTION]⟩, ?_, rfl, rfl, rfl, rfl, rfl, ?_, ?_⟩
  · have hmut : ({ ((Auction.ofRec (blake2b nm) rec).addUndo
          ⟨th, synthIndex 0⟩).setOwner none with
            height := height, renewal := some height, bids := 0 } : Auction).uncommit =
        (⟨blake2b nm, rec.name, none, height, some height, 0, rec.data,
          [.ADD_UNDO ⟨th, synthIndex 0⟩ rec, .REMOVE_OWNER w, .UNCOMMIT]⟩ : Auction) := by
      simp [Auction.ofRec, Auction.addUndo, Auction.record, Auction.setOwner,
        Auction.uncommit, Auction.push, howner]
      rw [← howner]
    have hst : (⟨blake2b nm, rec.name, none, height, some height, 0, rec.data,
        [.ADD_UNDO ⟨th, synthIndex 0⟩ rec, .REMOVE_OWNER w, .UNCOMMIT]⟩ : Auction).state
          height net = .BIDDING := by
      have hh : (⟨blake2b nm, rec.name, none, height, some height, 0, rec.data,
          [.ADD_UNDO ⟨th, synthIndex 0⟩ rec, .REMOVE_OWNER w,
           .UNCOMMIT]⟩ : Auction).height = height := rfl
      unfold Auction.state
      rw [hh, if_pos (by omega)]
    have hbid : ((⟨blake2b nm, rec.name, none, height, some height, 0, rec.data,
        [.ADD_UNDO ⟨th, synthIndex 0⟩ rec, .REMOVE_OWNER w, .UNCOMMIT]⟩ : Auction).addBid
          ⟨th, 0⟩).save =
        (⟨blake2b nm, rec.name, none, height, some height, 1, rec.data,
          [.ADD_UNDO ⟨th, synthIndex 0⟩ rec, .REMOVE_OWNER w, .UNCOMMIT, .ADD_BID ⟨th, 0⟩,
           .ADD_AUCTION]⟩ : Auction) := by
      simp [Auction.addBid, Auction.save, Auction.push]
    have hos : (Auction.ofRec (blake2b nm) rec).owner.isSome = true := by
      have : (Auction.ofRec (blake2b nm) rec).owner = some w := howner
      rw [this]
      rfl
    have hstale' : height ≥ jsNum (Auction.ofRec (blake2b nm) rec).renewal +
        net.renewalWindow := hstale
    have houtput : connectOutput net s ⟨th, false, [], [⟨vv, ⟨.BID, [nm]⟩⟩]⟩ height 0 []
        = .ok (true, [(blake2b nm,
        (⟨blake2b nm, rec.name, none, height, some height, 1, rec.data,
          [.ADD_UNDO ⟨th, synthIndex 0⟩ rec, .REMOVE_OWNER w, .UNCOMMIT, .ADD_BID ⟨th, 0⟩,
           .ADD_AUCTION]⟩ : Auction))]) := by
      unfold connectOutput
      simp only [List.getElem?_cons_zero]
      rw [show covItem ⟨CovType.BID, [nm]⟩ 0 = nm from rfl]
      have hens : View.ensureAuction [] s nm (blake2b nm) height =
          (Auction.ofRec (blake2b nm) rec,
           [(blake2b nm, Auction.ofRec (blake2b nm) rec)]) := by
        simp [View.ensureAuction, kget, ha, kput]
      simp only [if_true, hens, if_neg hgate]
      rw [if_pos hstale']
      simp only [hos, if_true, hmut, hst, hbid, kput]
      simp
    simp [connectCovenants, connectInputs, connectOutputs, houtput, List.range_succ]
  · exact kget_kput_self s.u ⟨th, synthIndex 0⟩ rec
  · exact kget_kdel_self s.trie (blake2b nm)

/-- Claim C7 (corrected; the `Auction` op methods are modelled from the
spec): the claimed stale-release behaviour holds only when the stale
auction has a non-null owner — then a BID output on an auction with
`height ≥ renewal + RENEWAL_WINDOW` enqueues an undo snapshot of the prior
state under the synthetic outpoint `(tx_hash, i | 0x80000000)` — flushed
to `u` — the owner becomes null, `height` and `renewal` become the current
height, `bids` is reset (the final count 1 is the reset 0 plus the new
bid), and the trie entry is removed, all before the BIDDING-phase
requirement and the bid itself (visible in the op order).  On a stale
auction whose owner is already null, the arm's owner assertion (`db.js`
line 548) fires instead: the engine faults and performs none of those
actions, contrary to the claim's unconditional quantification. -/
theorem claim_C7_stale_release (ctx : Ctx) (net : Network) (s : Store)
    (th nm : Bytes) (vv : Int) (rec : AuctionRec) (height : Int)
    (hgate : ¬(net.isMain = true ∧
      height < (((blake2b nm).getD 0 0 % 52 : Nat) : Int) * net.rolloutInterval))
    (ha : kget s.a (blake2b nm) = some rec)
    (hstale : height ≥ jsNum rec.renewal + net.renewalWindow)
    (hbp : 0 < net.biddingPeriod) :
    (∀ w : Outpoint, rec.owner = some w →
      ∃ a' : Auction,
        connectCovenants ctx net s ⟨th, false, [], [⟨vv, ⟨.BID, [nm]⟩⟩]⟩ height []
          = .ok (true, [(blake2b nm, a')]) ∧
        a'.owner = none ∧ a'.height = height ∧ a'.renewal = some height ∧ a'.bids = 1 ∧
        a'.ops = [.ADD_UNDO ⟨th, synthIndex 0⟩ rec, .REMOVE_OWNER w, .UNCOMMIT,
                  .ADD_BID ⟨th, 0⟩, .ADD_AUCTION] ∧
        kget (saveView s [(blake2b nm, a')]).u ⟨th, synthIndex 0⟩ = some rec ∧
        kget (saveView s [(blake2b nm, a')]).trie (blake2b nm) = none) ∧
    (rec.owner = none →
      connectCovenants ctx net s ⟨th, false, [], [⟨vv, ⟨.BID, [nm]⟩⟩]⟩ height []
        = .error .assertFail) := by
  constructor
  · intro w howner
    exact claim_C7_aux ctx net s th nm vv rec height w hgate ha hstale howner hbp
  · intro howner
    have hos : (Auction.ofRec (blake2b nm) rec).owner.isSome = false := by
      have hh : (Auction.ofRec (blake2b nm) rec).owner = none := howner
      rw [hh]
      rfl
    have hstale' : height ≥ jsNum (Auction.ofRec (blake2b nm) rec).renewal +
        net.renewalWindow := hstale
    have houtput : connectOutput net s ⟨th, false, [], [⟨vv, ⟨.BID, [nm]⟩⟩]⟩ height 0 []
        = .error .assertFail := by
      unfold connectOutput
      simp only [List.getElem?_cons_zero]
      rw [show covItem ⟨CovType.BID, [nm]⟩ 0 = nm from rfl]
      have hens : View.ensureAuction [] s nm (blake2b nm) height =
          (Auction.ofRec (blake2b nm) rec,
           [(blake2b nm, Auction.ofRec (blake2b nm) rec)]) := by
        simp [View.ensureAuction, kget, ha, kput]
      simp only [if_true, hens, if_neg hgate]
      rw [if_pos hstale']
      simp only [hos, Bool.false_eq_true, if_false]
    simp [connectCovenants, connectInputs, connectOutputs, houtput, List.range_succ]

/-- Witness for the corrected claim C7 at concrete inputs: the owned stale
auction (owner `([9], 1)`, renewed at height 10, bid on at height 6000 with
window 5000) is snapshotted and reset; the ownerless stale auction faults. -/
theorem claim_C7_witness :
    (∃ a' : Auction,
      connectCovenants c7ctx tnet c7S ⟨[4], false, [], [⟨77, ⟨.BID, [[2]]⟩⟩]⟩ 6000 []
        = .ok (true, [(blake2b [2], a')]) ∧
      a'.owner = none ∧ a'.height = 6000 ∧ a'.renewal = some 6000 ∧ a'.bids = 1 ∧
      a'.ops = [.ADD_UNDO ⟨[4], synthIndex 0⟩ c7rec, .REMOVE_OWNER c7w, .UNCOMMIT,
                .ADD_BID ⟨[4], 0⟩, .ADD_AUCTION] ∧
      kget (saveView c7S [(blake2b [2], a')]).u ⟨[4], synthIndex 0⟩ = some c7rec ∧
      kget (saveView c7S [(blake2b [2], a')]).trie (blake2b [2]) = none) ∧
    connectCovenants c7ctx tnet c7S0 ⟨[4], false, [], [⟨77, ⟨.BID, [[2]]⟩⟩]⟩ 6000 []
      = .error .assertFail :=
  ⟨(claim_C7_stale_release c7ctx tnet c7S [4] [2] 77 c7rec 6000
      (by decide) (by decide) (by decide) (by decide)).1 c7w (by decide),
   (claim_C7_stale_release c7ctx tnet c7S0 [4] [2] 77 c7rec0 6000
      (by decide) (by decide) (by decide) (by decide)).2 (by decide)⟩

/-- Counterexample to the original claim C7: the BID at height 6000 on the
stale (renewed at height 10, window 5000) but ownerless auction of `c7S0`
is exactly a "BID output on an auction with height ≥ renewal +
RENEWAL_WINDOW", yet the engine raises an assertion failure and performs
neither the undo snapshot nor the reset, the uncommit or the bid. -/
theorem claim_C7_counterexample :
    kget c7S0.a (blake2b [2]) = some c7rec0 ∧
    (6000 : Int) ≥ jsNum c7rec0.renewal + tnet.renewalWindow ∧
    connectCovenants c7ctx tnet c7S0 ⟨[4], false, [], [⟨77, ⟨.BID, [[2]]⟩⟩]⟩ 6000 []
      = .error .assertFail := by
  refine ⟨by decide, by decide, ?_⟩
  rfl

/-- Claim C5 (confirmed): `pickWinner` returns `null` exactly when there is
no reveal record under the `r`-prefix of the name hash; otherwise it returns
the outpoint of a record under that prefix whose value is maximal, and on
ties the lexicographically later key `hash‖idx` wins.  The values are
nonnegative because the stored values are decoded u64s. -/
theorem claim_C5_pickWinner_max (s : Store) (nh : Bytes)
    (hpos : ∀ kv ∈ s.r, 0 ≤ kv.2) :
    (pickWinner s nh = none ↔ s.r.filter (fun kv => kv.1.1 = nh) = []) ∧
    (∀ p, pickWinner s nh = some p →
      ∃ v, ((nh, p), v) ∈ s.r ∧
        (∀ kv ∈ s.r, kv.1.1 = nh → kv.2 ≤ v) ∧
        (∀ kv ∈ s.r, kv.1.1 = nh → kv.2 = v → keyLe kv.1.2 p = true)) := by
  have hsort : List.Sorted keyRel (rRange s nh) := List.sorted_insertionSort keyRel _
  have hperm : List.Perm (rRange s nh)
      ((s.r.filter (fun kv => kv.1.1 = nh)).map (fun kv => (kv.1.2, kv.2))) :=
    List.perm_insertionSort keyRel _
  have hmemF : ∀ kv ∈ s.r, kv.1.1 = nh → (kv.1.2, kv.2) ∈ rRange s nh := by
    intro kv hkv hnh
    refine hperm.symm.subset ?_
    exact List.mem_map.mpr ⟨kv, List.mem_filter.mpr ⟨hkv, decide_eq_true hnh⟩, rfl⟩
  have hmemB : ∀ x ∈ rRange s nh, ∃ kv ∈ s.r, kv.1.1 = nh ∧ (kv.1.2, kv.2) = x := by
    intro x hx
    obtain ⟨kv, hkv, hfx⟩ := List.mem_map.mp (hperm.subset hx)
    exact ⟨kv, (List.mem_filter.mp hkv).1,
      of_decide_eq_true (List.mem_filter.mp hkv).2, hfx⟩
  have hposR : ∀ x ∈ rRange s nh, 0 ≤ x.2 := by
    intro x hx
    obtain ⟨kv, hkv, -, hfx⟩ := hmemB x hx
    rw [← hfx]
    exact hpos kv hkv
  have hspec := pickFold_spec (rRange s nh) hsort hposR
  have hmax := pickFold_max (rRange s nh)
  constructor
  · rw [show pickWinner s nh = (pickFold (rRange s nh)).1 from rfl, hspec.1]
    constructor
    · intro h0
      have hmapnil : (s.r.filter (fun kv => kv.1.1 = nh)).map
          (fun kv => (kv.1.2, kv.2)) = [] := by
        have := h0 ▸ hperm
        exact this.symm.eq_nil
      exact List.map_eq_nil_iff.mp hmapnil
    · intro h0
      unfold rRange
      rw [h0]
      rfl
  · intro p hp
    obtain ⟨hmem, htie⟩ := hspec.2 p hp
    obtain ⟨kv, hkv, hnh', hfx⟩ := hmemB _ hmem
    refine ⟨(pickFold (rRange s nh)).2, ?_, ?_, ?_⟩
    · have hkveq : kv = ((nh, p), (pickFold (rRange s nh)).2) := by
        obtain ⟨⟨k1, k2⟩, kval⟩ := kv
        simp only at hnh' hfx
        obtain ⟨h1, h2⟩ := Prod.mk.injEq .. ▸ hfx
        simp [hnh', h1, h2]
      rw [← hkveq]
      exact hkv
    · intro kv' hkv' hnh''
      have := hmax.2 (kv'.1.2, kv'.2) (hmemF kv' hkv' hnh'')
      exact this
    · intro kv' hkv' hnh'' hval
      exact htie (kv'.1.2, kv'.2) (hmemF kv' hkv' hnh'') hval

/-- Witness for claim C5 at a concrete store: under prefix `[1]` the two
records tie at value 5 and the later key `([2],1)` wins; its maximality and
tie-lateness follow from the claim theorem. -/
theorem claim_C5_witness :
    pickWinner c5S [1] = some ⟨[2], 1⟩ ∧
    (∃ v, ((([1] : Bytes), (⟨[2], 1⟩ : Outpoint)), v) ∈ c5S.r ∧
      (∀ kv ∈ c5S.r, kv.1.1 = [1] → kv.2 ≤ v) ∧
      (∀ kv ∈ c5S.r, kv.1.1 = [1] → kv.2 = v → keyLe kv.1.2 ⟨[2], 1⟩ = true)) :=
  ⟨by decide,
   (claim_C5_pickWinner_max c5S [1] (by decide)).2 ⟨[2], 1⟩ (by decide)⟩

end NameDB
